import Mathlib

/-!
# Kaleidoscope front end: scanner and operator-precedence parser

A shallow embedding of `src/kaliedoscope.cpp`.

* The scanner `gettok` reads characters through `getchar` and keeps one character of
  look-ahead in the function-local static `LastChar`.  Here the unread part of the standard
  input is a list of characters and `EOF` is `none`.
* The parser keeps one token of look-ahead in the global `CurTok`, refilled by
  `getNextToken`.  The scanner never depends on the parser, so the tokens that successive
  `gettok` calls return form a stream that is fixed by the input alone; the parser state
  holds that stream from `CurTok` on.
* The globals `IdentifierStr` and `NumVal` are written by `gettok` and read by the parser
  only while `CurTok` is the token they were written for; they travel with that token.
* `double` arithmetic is not modelled: the development is parametric in the type `D` of
  doubles and in the library function `strtod`.  The examples take the rationals for `D`
  and the exact decimal value `strtodExact` for `strtod`.
* Null pointers are `none`; the text written to `stderr` is part of the state.
* The mutually recursive parsing functions take a `fuel` argument bounding the depth of the
  calls; `none` at the outermost `Option` means that the fuel ran out.
* Undefined behaviour is explicit: a call that flows off the end of a function without a
  `return` statement yields `Returned.undefined`, and a run that tests such a value ends in
  `Outcome.undefinedBehaviour`.
-/

namespace Kaleidoscope

/-! ## Characters (`<cctype>` in the "C" locale) -/

/-- Library function `isspace`: space, `\t`, `\n`, `\v`, `\f`, `\r`. -/
def isspace (c : Char) : Bool := c.toNat == 32 || (9 ≤ c.toNat && c.toNat ≤ 13)

/-- Library function `isdigit`. -/
def isdigit (c : Char) : Bool := 48 ≤ c.toNat && c.toNat ≤ 57

/-- Library function `isalpha`: `A`-`Z` and `a`-`z`. -/
def isalpha (c : Char) : Bool :=
  (65 ≤ c.toNat && c.toNat ≤ 90) || (97 ≤ c.toNat && c.toNat ≤ 122)

/-- Library function `isalnum`. -/
def isalnum (c : Char) : Bool := isalpha c || isdigit c

/-! ## Tokens -/

/-- The `int` returned by `gettok`: one of the negative enumerators of `enum Token`, or the
code of a character.  An identifier carries the value `gettok` left in `IdentifierStr`, a
number the value it left in `NumVal`. -/
inductive Token (D : Type) where
  | tok_eof : Token D
  | tok_def : Token D
  | tok_extern : Token D
  | tok_identifier (IdentifierStr : List Char) : Token D
  | tok_number (NumVal : D) : Token D
  | char (c : Char) : Token D

variable {D : Type}

/-- The comparison `CurTok == c` for a character constant `c`. -/
def Token.isChar : Token D → Char → Bool
  | Token.char c, d => c == d
  | _, _ => false

/-- Library function `isascii` on a token: the enumerators are negative, hence not ASCII. -/
def Token.isascii : Token D → Bool
  | Token.char c => decide (c.toNat < 128)
  | _ => false

/-- The conversion of the `int` token to `char` (the key of `BinopPrecedence`, the `Op` of
a `BinaryExprAST`): the enumerators `-1 .. -5` become the bytes `255 .. 251`. -/
def Token.toChar : Token D → Char
  | Token.char c => c
  | Token.tok_eof => Char.ofNat 255
  | Token.tok_def => Char.ofNat 254
  | Token.tok_extern => Char.ofNat 253
  | Token.tok_identifier _ => Char.ofNat 252
  | Token.tok_number _ => Char.ofNat 251

/-! ## Scanner -/

/-- The state of the scanner: the static `LastChar` of `gettok` (`none` is `EOF`) and the
characters of the standard input that `getchar` has not returned yet. -/
structure LexState where
  LastChar : Option Char
  input : List Char
deriving DecidableEq

/-- The scanner before its first call: `LastChar = ' '`, nothing read. -/
def LexState.init (input : List Char) : LexState := ⟨some ' ', input⟩

/-- Library function `getchar`: the next character, or `EOF` for good once the input is
used up. -/
def getchar : List Char → Option Char × List Char
  | [] => (none, [])
  | c :: cs => (some c, cs)

/-- The loop `while (isspace(LastChar)) LastChar = getchar();`. -/
def skipSpaces : Option Char → List Char → Option Char × List Char
  | none, input => (none, input)
  | some c, [] => if isspace c then (none, []) else (some c, [])
  | some c, d :: ds => if isspace c then skipSpaces (some d) ds else (some c, d :: ds)

/-- The loop `while (isalnum(LastChar = getchar())) IdentifierStr += LastChar;`, giving
`IdentifierStr`, `LastChar` and the unread input. -/
def readIdentifier : List Char → List Char → List Char × Option Char × List Char
  | IdentifierStr, [] => (IdentifierStr, none, [])
  | IdentifierStr, c :: cs =>
    if isalnum c then readIdentifier (IdentifierStr ++ [c]) cs else (IdentifierStr, some c, cs)

/-- The loop `do { NumStr += LastChar; LastChar = getchar(); } while (isdigit(LastChar) ||
LastChar == '.');`, giving `NumStr`, `LastChar` and the unread input. -/
def readNumber : List Char → Char → List Char → List Char × Option Char × List Char
  | NumStr, c, [] => (NumStr ++ [c], none, [])
  | NumStr, c, d :: ds =>
    if isdigit d || d == '.' then readNumber (NumStr ++ [c]) d ds
    else (NumStr ++ [c], some d, ds)

/-- The loop `do LastChar = getchar(); while (LastChar != EOF && LastChar != '\n' &&
LastChar != '\r');`, giving `LastChar` and the unread input. -/
def skipComment : List Char → Option Char × List Char
  | [] => (none, [])
  | c :: cs => if c != '\n' && c != '\r' then skipComment cs else (some c, cs)

/-- The body of `gettok`; `fuel` bounds the number of nested `return gettok();` calls that
follow comment lines. -/
def gettokAux (strtod : List Char → D) : Nat → LexState → Option (Token D × LexState)
  | 0, _ => none
  | fuel + 1, st =>
    match skipSpaces st.LastChar st.input with
    | (none, input) => some (Token.tok_eof, ⟨none, input⟩)
    | (some c, input) =>
      if isalpha c then
        match readIdentifier [c] input with
        | (IdentifierStr, LastChar, input) =>
          if IdentifierStr = ['d', 'e', 'f'] then some (Token.tok_def, ⟨LastChar, input⟩)
          else if IdentifierStr = ['e', 'x', 't', 'e', 'r', 'n'] then
            some (Token.tok_extern, ⟨LastChar, input⟩)
          else some (Token.tok_identifier IdentifierStr, ⟨LastChar, input⟩)
      else if isdigit c || c == '.' then
        match readNumber [] c input with
        | (NumStr, LastChar, input) => some (Token.tok_number (strtod NumStr), ⟨LastChar, input⟩)
      else if c == '#' then
        match skipComment input with
        | (some c, input) => gettokAux strtod fuel ⟨some c, input⟩
        | (none, input) => some (Token.tok_eof, ⟨none, input⟩)
      else
        match getchar input with
        | (LastChar, input) => some (Token.char c, ⟨LastChar, input⟩)

/-- The scanner `gettok`: the token and the scanner state after the call.  Every nested call
starts on a shorter input, so `input.length + 1` levels are enough (`gettokAux_isSome`). -/
def gettok (strtod : List Char → D) (st : LexState) : Token D × LexState :=
  match gettokAux strtod (st.input.length + 1) st with
  | some r => r
  | none => (Token.tok_eof, st)

/-- The tokens returned by the first `n` calls of `gettok`. -/
def gettokN (strtod : List Char → D) : Nat → LexState → List (Token D)
  | 0, _ => []
  | n + 1, st => (gettok strtod st).1 :: gettokN strtod n (gettok strtod st).2

/-! ## Abstract syntax -/

/-- The classes derived from `ExprAST`. -/
inductive ExprAST (D : Type) where
  | NumberExprAST (Val : D) : ExprAST D
  | VariableExprAST (Name : List Char) : ExprAST D
  | BinaryExprAST (Op : Char) (LHS RHS : ExprAST D) : ExprAST D
  | CallExprAST (Callee : List Char) (Args : List (ExprAST D)) : ExprAST D

/-- The class `PrototypeAST`: the name of a function and the names of its arguments. -/
structure PrototypeAST where
  Name : List Char
  Args : List (List Char)
deriving DecidableEq

/-- The class `FunctionAST`: a prototype and a body. -/
structure FunctionAST (D : Type) where
  Proto : PrototypeAST
  Body : ExprAST D

/-! ## Parser state -/

/-- The globals of the parser.  `toks` is the token stream from `CurTok` on: its head is
`CurTok`, its tail is what the next calls of `gettok` return, and past its end `gettok`
returns `tok_eof` for ever.  `BinopPrecedence` is the `std::map<char, int>` as an association
list, and `stderr` holds the strings written to the error stream. -/
structure State (D : Type) where
  toks : List (Token D)
  BinopPrecedence : List (Char × Int)
  stderr : List String

/-- The global `CurTok`. -/
def CurTok (st : State D) : Token D := st.toks.headD Token.tok_eof

/-- The function `getNextToken`: `CurTok = gettok()`. -/
def getNextToken (st : State D) : State D := { st with toks := st.toks.tail }

/-- The function `LogError`: writes the message to `stderr` and returns a null pointer. -/
def LogError (Str : String) (st : State D) : Option (ExprAST D) × State D :=
  (none, { st with stderr := st.stderr ++ ["Erro: " ++ Str ++ "\n"] })

/-- The function `LogErrorP`. -/
def LogErrorP (Str : String) (st : State D) : Option PrototypeAST × State D :=
  (none, (LogError Str st).2)

/-! ## The precedence table -/

/-- The expression `m[k]` of `std::map<char, int>`: the value stored under `k`; when there
is none, an entry with value `0` is inserted first. -/
def mapIndex (m : List (Char × Int)) (k : Char) : Int × List (Char × Int) :=
  match m.lookup k with
  | some v => (v, m)
  | none => (0, (k, 0) :: m)

/-- The assignment `m[k] = v`. -/
def mapAssign (m : List (Char × Int)) (k : Char) (v : Int) : List (Char × Int) :=
  (k, v) :: (mapIndex m k).2.filter (fun e => e.1 != k)

/-- The table that `main` installs before the first token is read. -/
def mainBinopPrecedence : List (Char × Int) :=
  mapAssign (mapAssign (mapAssign (mapAssign [] '<' 10) '+' 20) '-' 20) '*' 40

/-- The function `GetTokPrecedence`: the precedence of `CurTok`, and the state with the
entry that the look-up may have inserted. -/
def GetTokPrecedence (st : State D) : Int × State D :=
  if !(CurTok st).isascii then (-1, st)
  else
    match mapIndex st.BinopPrecedence (CurTok st).toChar with
    | (TokPrec, m) =>
      if TokPrec ≤ 0 then (-1, { st with BinopPrecedence := m })
      else (TokPrec, { st with BinopPrecedence := m })

/-! ## Expressions -/

/-- The function `ParseNumberExpr`, called while `CurTok` is the number whose value is
`NumVal`. -/
def ParseNumberExpr (NumVal : D) (st : State D) : Option (ExprAST D) × State D :=
  (some (ExprAST.NumberExprAST NumVal), getNextToken st)

mutual

/-- The function `ParseParenExpr`. -/
def ParseParenExpr : Nat → State D → Option (Option (ExprAST D) × State D)
  | 0, _ => none
  | fuel + 1, st =>
    match ParseExpression fuel (getNextToken st) with
    | none => none
    | some (none, st) => some (none, st)
    | some (some V, st) =>
      if !(CurTok st).isChar ')' then some (LogError "expected ')'" st)
      else some (some V, getNextToken st)

/-- The function `ParseIdentifierExpr`, called while `CurTok` is the identifier whose text
is `IdentifierStr`. -/
def ParseIdentifierExpr : Nat → List Char → State D → Option (Option (ExprAST D) × State D)
  | 0, _, _ => none
  | fuel + 1, IdentifierStr, st =>
    let IdName := IdentifierStr
    let st := getNextToken st
    if !(CurTok st).isChar '(' then some (some (ExprAST.VariableExprAST IdName), st)
    else
      let st := getNextToken st
      if !(CurTok st).isChar ')' then
        match ParseIdentifierExpr_loop fuel [] st with
        | none => none
        | some (none, st) => some (none, st)
        | some (some Args, st) => some (some (ExprAST.CallExprAST IdName Args), getNextToken st)
      else some (some (ExprAST.CallExprAST IdName []), getNextToken st)

/-- The loop `while (true)` of `ParseIdentifierExpr` that collects `Args`; it is left by
`break` with `CurTok == ')'`, or by a `return nullptr`. -/
def ParseIdentifierExpr_loop :
    Nat → List (ExprAST D) → State D → Option (Option (List (ExprAST D)) × State D)
  | 0, _, _ => none
  | fuel + 1, Args, st =>
    match ParseExpression fuel st with
    | none => none
    | some (none, st) => some (none, st)
    | some (some Arg, st) =>
      if (CurTok st).isChar ')' then some (some (Args ++ [Arg]), st)
      else if !(CurTok st).isChar ',' then
        some (none, (LogError "Expected ')' or ',' in argument list" st).2)
      else ParseIdentifierExpr_loop fuel (Args ++ [Arg]) (getNextToken st)

/-- The function `ParsePrimary`. -/
def ParsePrimary : Nat → State D → Option (Option (ExprAST D) × State D)
  | 0, _ => none
  | fuel + 1, st =>
    match CurTok st with
    | Token.tok_identifier IdentifierStr => ParseIdentifierExpr fuel IdentifierStr st
    | Token.tok_number NumVal => some (ParseNumberExpr NumVal st)
    | Token.char c =>
      if c == '(' then ParseParenExpr fuel st
      else some (LogError "Unkown token when expecting an expression" st)
    | _ => some (LogError "Unkown token when expecting an expression" st)

/-- The function `ParseExpression`. -/
def ParseExpression : Nat → State D → Option (Option (ExprAST D) × State D)
  | 0, _ => none
  | fuel + 1, st =>
    match ParsePrimary fuel st with
    | none => none
    | some (none, st) => some (none, st)
    | some (some LHS, st) => ParseBinOpRHS fuel 0 LHS st

/-- The function `ParseBinOpRHS`; one turn of its `while (true)` loop per unit of fuel. -/
def ParseBinOpRHS : Nat → Int → ExprAST D → State D → Option (Option (ExprAST D) × State D)
  | 0, _, _, _ => none
  | fuel + 1, ExprPrec, LHS, st =>
    match GetTokPrecedence st with
    | (TokPrec, st) =>
      if TokPrec < ExprPrec then some (some LHS, st)
      else
        let BinOp := (CurTok st).toChar
        match ParsePrimary fuel (getNextToken st) with
        | none => none
        | some (none, st) => some (none, st)
        | some (some RHS, st) =>
          match GetTokPrecedence st with
          | (NextPrec, st) =>
            if TokPrec < NextPrec then
              match ParseBinOpRHS fuel (TokPrec + 1) RHS st with
              | none => none
              | some (none, st) => some (none, st)
              | some (some RHS, st) =>
                ParseBinOpRHS fuel ExprPrec (ExprAST.BinaryExprAST BinOp LHS RHS) st
            else ParseBinOpRHS fuel ExprPrec (ExprAST.BinaryExprAST BinOp LHS RHS) st

end

/-! ## Prototypes, definitions, externals -/

/-- The loop `while (getNextToken() == tok_identifier) ArgNames.push_back(IdentifierStr);`
on the token stream: the names collected and the stream from the first token that is not an
identifier. -/
def ParsePrototype_loop : List (List Char) → List (Token D) → List (List Char) × List (Token D)
  | ArgNames, [] => (ArgNames, [])
  | ArgNames, _ :: toks =>
    match toks with
    | Token.tok_identifier IdentifierStr :: _ =>
      ParsePrototype_loop (ArgNames ++ [IdentifierStr]) toks
    | _ => (ArgNames, toks)

/-- The function `ParsePrototype`. -/
def ParsePrototype (st : State D) : Option PrototypeAST × State D :=
  match CurTok st with
  | Token.tok_identifier IdentifierStr =>
    let FnName := IdentifierStr
    let st := getNextToken st
    if !(CurTok st).isChar '(' then LogErrorP "Expected '(' in prototype" st
    else
      match ParsePrototype_loop [] st.toks with
      | (ArgNames, toks) =>
        let st := { st with toks := toks }
        if !(CurTok st).isChar ')' then LogErrorP "Expected ')' in prototype" st
        else (some ⟨FnName, ArgNames⟩, getNextToken st)
  | _ => LogErrorP "Expected function name in prototype" st

/-- The function `ParseDefinition`. -/
def ParseDefinition (fuel : Nat) (st : State D) : Option (Option (FunctionAST D) × State D) :=
  match ParsePrototype (getNextToken st) with
  | (none, st) => some (none, st)
  | (some Proto, st) =>
    match ParseExpression fuel st with
    | none => none
    | some (none, st) => some (none, st)
    | some (some E, st) => some (some ⟨Proto, E⟩, st)

/-- The function `ParseExtern`. -/
def ParseExtern (st : State D) : Option PrototypeAST × State D :=
  ParsePrototype (getNextToken st)

/-! ## Notions used to state the properties -/

/-- A precedence table in which every key has the value it has in the table of `main`: that
table itself, or what look-ups through `GetTokPrecedence` have turned it into. -/
def DefaultTable (m : List (Char × Int)) : Prop :=
  ∀ k, (mapIndex m k).1 = (mapIndex mainBinopPrecedence k).1

/-- The value `GetTokPrecedence` returns for a token under the table of `main`. -/
def precedence (t : Token D) : Int :=
  (GetTokPrecedence (⟨[t], mainBinopPrecedence, []⟩ : State D)).1

/-- The stream `s2` starts with the token `s` starts with, or with a token that is neither
an operator of the table nor `(`. -/
def Agree (s s2 : List (Token D)) : Prop :=
  s2.headD Token.tok_eof = s.headD Token.tok_eof ∨
    (precedence (s2.headD Token.tok_eof) = -1 ∧ (s2.headD Token.tok_eof).isChar '(' = false)

/-- The successful run `run ⟨toks, m, err⟩ = some (some e, st')` is local: it consumed a
prefix `pre` of `toks`, wrote nothing to `stderr`, left a table that is still default, and
runs the same way on `pre` followed by any stream that agrees with the rest.  `Z` is what
holds when nothing was consumed. -/
def Local {α : Type} (run : State D → Option (Option α × State D)) (Z : Prop)
    (toks : List (Token D)) (err : List String) (e : α) (st' : State D) : Prop :=
  ∃ pre rest m', st' = ⟨rest, m', err⟩ ∧ toks = pre ++ rest ∧ DefaultTable m' ∧
    (pre = [] → Z) ∧
    ∀ s2 m2 err2, Agree rest s2 → DefaultTable m2 → ∃ m2', DefaultTable m2' ∧
      run ⟨pre ++ s2, m2, err2⟩ = some (some e, ⟨s2, m2', err2⟩)

/-- Locality for the argument loop, which stops in front of a `)`. -/
def LocalLoop (run : State D → Option (Option (List (ExprAST D)) × State D))
    (toks : List (Token D)) (err : List String) (e : List (ExprAST D)) (st' : State D) : Prop :=
  ∃ pre rest m', st' = ⟨Token.char ')' :: rest, m', err⟩ ∧
    toks = pre ++ Token.char ')' :: rest ∧ DefaultTable m' ∧
    ∀ s2 m2 err2, DefaultTable m2 → ∃ m2', DefaultTable m2' ∧
      run ⟨pre ++ Token.char ')' :: s2, m2, err2⟩ =
        some (some e, ⟨Token.char ')' :: s2, m2', err2⟩)

/-- Every successful run of `ParseExpression n` from a default table is local. -/
def LocalExpr (n : Nat) : Prop :=
  ∀ (toks : List (Token D)) (m : List (Char × Int)) (err : List String) (e : ExprAST D)
    (st' : State D), DefaultTable m → ParseExpression n ⟨toks, m, err⟩ = some (some e, st') →
    Local (ParseExpression n) False toks err e st'

/-- Every successful run of `ParseParenExpr n` from a default table is local. -/
def LocalParen (n : Nat) : Prop :=
  ∀ (toks : List (Token D)) (m : List (Char × Int)) (err : List String) (e : ExprAST D)
    (st' : State D), DefaultTable m → ParseParenExpr n ⟨toks, m, err⟩ = some (some e, st') →
    Local (ParseParenExpr n) False toks err e st'

/-- Every successful run of `ParseIdentifierExpr n` from a default table is local. -/
def LocalIdent (n : Nat) : Prop :=
  ∀ (s : List Char) (hd : Token D) (tl : List (Token D)) (m : List (Char × Int))
    (err : List String) (e : ExprAST D) (st' : State D), DefaultTable m →
    ParseIdentifierExpr n s ⟨hd :: tl, m, err⟩ = some (some e, st') →
    Local (ParseIdentifierExpr n s) False (hd :: tl) err e st'

/-- Every successful run of the argument loop from a default table is local. -/
def LocalArgs (n : Nat) : Prop :=
  ∀ (A : List (ExprAST D)) (toks : List (Token D)) (m : List (Char × Int)) (err : List String)
    (e : List (ExprAST D)) (st' : State D), DefaultTable m →
    ParseIdentifierExpr_loop n A ⟨toks, m, err⟩ = some (some e, st') →
    LocalLoop (ParseIdentifierExpr_loop n A) toks err e st'

/-- Every successful run of `ParsePrimary n` from a default table is local. -/
def LocalPrimary (n : Nat) : Prop :=
  ∀ (toks : List (Token D)) (m : List (Char × Int)) (err : List String) (e : ExprAST D)
    (st' : State D), DefaultTable m → ParsePrimary n ⟨toks, m, err⟩ = some (some e, st') →
    Local (ParsePrimary n) False toks err e st'

/-- Every successful run of `ParseBinOpRHS n` with a minimal precedence `0 ≤ p` from a
default table is local, and returns `LHS` itself when it consumed nothing. -/
def LocalRHS (n : Nat) : Prop :=
  ∀ (p : Int) (L : ExprAST D) (toks : List (Token D)) (m : List (Char × Int))
    (err : List String) (e : ExprAST D) (st' : State D), 0 ≤ p → DefaultTable m →
    ParseBinOpRHS n p L ⟨toks, m, err⟩ = some (some e, st') →
    Local (ParseBinOpRHS n p L) (e = L) toks err e st'

/-- The tree of an atomic primary: a number, or an identifier used as a variable. -/
def atomAST : Token D → Option (ExprAST D)
  | Token.tok_number NumVal => some (ExprAST.NumberExprAST NumVal)
  | Token.tok_identifier IdentifierStr => some (ExprAST.VariableExprAST IdentifierStr)
  | _ => none

/-- The operators of the table of `main`. -/
def tableOperators : List Char := mainBinopPrecedence.map Prod.fst

/-- The tokens `e1 , e2 , ... , en` of an argument list. -/
def argTokens : List (List (Token D)) → List (Token D)
  | [] => []
  | [E] => E
  | E :: Es => E ++ Token.char ',' :: argTokens Es

/-- On the tokens `E` followed by `,` or `)`, `ParseExpression` returns `a` and stops at
that following token, whatever comes after it, whatever `stderr` holds and whatever default
table the look-ups have left. -/
def ArgParses (E : List (Token D)) (a : ExprAST D) : Prop :=
  ∀ (t : Token D) (rest : List (Token D)) (m : List (Char × Int)) (err : List String),
    (t = Token.char ',' ∨ t = Token.char ')') → DefaultTable m →
    ∃ fuel m', DefaultTable m' ∧
      ParseExpression fuel ⟨E ++ t :: rest, m, err⟩ = some (some a, ⟨t :: rest, m', err⟩)

/-- A word `[a-zA-Z][a-zA-Z0-9]*`. -/
def isWord : List Char → Bool
  | [] => false
  | c :: cs => isalpha c && cs.all isalnum

/-- A character of a numeric literal: a digit or the decimal point. -/
def isNumChar (c : Char) : Bool := isdigit c || c == '.'

/-- A numeric literal made of digits and at most one decimal point: a string that is not
empty, holds only digits and decimal points, and holds at most one decimal point. -/
def isNumeral (s : List Char) : Bool :=
  !s.isEmpty && s.all isNumChar && decide (s.count '.' ≤ 1)

/-- The value of a run of decimal digits. -/
def digitsValue (digits : List Char) : Nat :=
  digits.foldl (fun n c => 10 * n + (c.toNat - 48)) 0

/-- An instance of the library function `strtod` for the examples: the exact value of the
longest prefix of the form `digits[.digits]`, not rounded to a `double`.  The theorems hold
for every `strtod`. -/
def strtodExact (NumStr : List Char) : ℚ :=
  match NumStr.dropWhile isdigit with
  | '.' :: frac =>
    (digitsValue (NumStr.takeWhile isdigit ++ frac.takeWhile isdigit) : ℚ) /
      10 ^ (frac.takeWhile isdigit).length
  | _ => digitsValue (NumStr.takeWhile isdigit)

/-- The number of characters the scanner has still to account for: the unread input, and
`LastChar` when it is neither `EOF` nor white space. -/
def pending (st : LexState) : Nat :=
  st.input.length +
    match st.LastChar with
    | some c => if isspace c then 0 else 1
    | none => 0

/-- What a call of a function with a return type other than `void` gives back: the value of
the `return` statement that was reached, or nothing that the language defines when control
flows off the end of the function without reaching one. -/
inductive Returned (α : Type) where
  | value (a : α) : Returned α
  | undefined : Returned α

/-- The function `ParseTopLevelExpr`.  Its only `return` statement is inside the
`if (auto E = ParseExpression())`: when `ParseExpression` returns a null pointer, control
flows off the end of the function. -/
def ParseTopLevelExpr (fuel : Nat) (st : State D) :
    Option (Returned (Option (FunctionAST D)) × State D) :=
  match ParseExpression fuel st with
  | none => none
  | some (some E, st) => some (Returned.value (some ⟨⟨[], []⟩, E⟩), st)
  | some (none, st) => some (Returned.undefined, st)

/-- A call `fprintf(stderr, s)`. -/
def fprintf_stderr (s : String) (st : State D) : State D :=
  { st with stderr := st.stderr ++ [s] }

/-- How the run of a `void` function ends: it returns in some state, or it has run into
undefined behaviour in some state, after which the language defines nothing. -/
inductive Outcome (D : Type) where
  | returned (st : State D) : Outcome D
  | undefinedBehaviour (st : State D) : Outcome D

/-- The function `HandleDefinition`. -/
def HandleDefinition (fuel : Nat) (st : State D) : Option (State D) :=
  match ParseDefinition fuel st with
  | none => none
  | some (some _, st) => some (fprintf_stderr "Parsed a function definition.\n" st)
  | some (none, st) => some (getNextToken st)

/-- The function `HandleExtern`. -/
def HandleExtern (st : State D) : State D :=
  match ParseExtern st with
  | (some _, st) => fprintf_stderr "Parsed an extern\n" st
  | (none, st) => getNextToken st

/-- The function `HandleTopLevelExpression`.  Testing the result of `ParseTopLevelExpr` when
that call flowed off the end of the function is undefined behaviour. -/
def HandleTopLevelExpression (fuel : Nat) (st : State D) : Option (Outcome D) :=
  match ParseTopLevelExpr fuel st with
  | none => none
  | some (Returned.value (some _), st) =>
    some (Outcome.returned (fprintf_stderr "Parsed a top-level expr\n" st))
  | some (Returned.value none, st) => some (Outcome.returned (getNextToken st))
  | some (Returned.undefined, st) => some (Outcome.undefinedBehaviour st)

/-- The function `MainLoop`; one turn of its `while (true)` loop per unit of fuel, and the
rest of the fuel for the parse that the turn starts. -/
def MainLoop : Nat → State D → Option (Outcome D)
  | 0, _ => none
  | fuel + 1, st =>
    match CurTok (fprintf_stderr "ready> " st) with
    | Token.tok_eof => some (Outcome.returned (fprintf_stderr "ready> " st))
    | Token.tok_def =>
      match HandleDefinition fuel (fprintf_stderr "ready> " st) with
      | none => none
      | some st => MainLoop fuel st
    | Token.tok_extern => MainLoop fuel (HandleExtern (fprintf_stderr "ready> " st))
    | tok =>
      if tok.isChar ';' then MainLoop fuel (getNextToken (fprintf_stderr "ready> " st))
      else
        match HandleTopLevelExpression fuel (fprintf_stderr "ready> " st) with
        | none => none
        | some (Outcome.returned st) => MainLoop fuel st
        | some (Outcome.undefinedBehaviour st) => some (Outcome.undefinedBehaviour st)

/-- The function `main` on the token stream `toks` that `gettok` yields for the standard
input: the table is filled, the first token is read, and `MainLoop` runs. -/
def main (fuel : Nat) (toks : List (Token D)) : Option (Outcome D) :=
  MainLoop fuel ⟨toks, mainBinopPrecedence, ["Ready --> "]⟩

/-- Two results of a parse function that differ at most in the table they leave: both ran
out of fuel, or both returned, with the same tree or both with the null pointer, the same
remaining tokens and the same text on `stderr`, each leaving a default table. -/
def SameUpToTable {α : Type} (r r2 : Option (Option α × State D)) : Prop :=
  (r = none ∧ r2 = none) ∨
    ∃ a toks m m2 err, r = some (a, ⟨toks, m, err⟩) ∧ r2 = some (a, ⟨toks, m2, err⟩) ∧
      DefaultTable m ∧ DefaultTable m2

/-- A sequence of look-ups: `GetTokPrecedence` is called with each token of the list as
`CurTok` in turn, each call on the table the call before left.  The values returned, and the
table left by the last call. -/
def lookups : List (Token D) → List (Char × Int) → List Int × List (Char × Int)
  | [], m => ([], m)
  | t :: ts, m =>
    (((GetTokPrecedence (⟨[t], m, []⟩ : State D)).1 ::
        (lookups ts (GetTokPrecedence (⟨[t], m, []⟩ : State D)).2.BinopPrecedence).1),
      (lookups ts (GetTokPrecedence (⟨[t], m, []⟩ : State D)).2.BinopPrecedence).2)

/-- The tokens `op1 p1 op2 p2 ...` of a run of binary operators, each followed by its
right operand. -/
def binopTokens : List (Char × Token D) → List (Token D)
  | [] => []
  | (op, p) :: r => Token.char op :: p :: binopTokens r

/-- On the stream `s`, from any default table, `ParsePrimary` returns a null pointer once
the fuel suffices for the length of `s`. -/
def FailsPrimary (s : List (Token D)) : Prop :=
  ∀ (fuel : Nat) (m : List (Char × Int)) (err : List String), DefaultTable m →
    4 * s.length + 4 ≤ fuel → ∃ st', ParsePrimary fuel ⟨s, m, err⟩ = some (none, st')

/-- On the stream `s`, from any default table, `ParseExpression` returns a null pointer
once the fuel suffices for the length of `s`. -/
def FailsExpression (s : List (Token D)) : Prop :=
  ∀ (fuel : Nat) (m : List (Char × Int)) (err : List String), DefaultTable m →
    4 * s.length + 5 ≤ fuel → ∃ st', ParseExpression fuel ⟨s, m, err⟩ = some (none, st')

/-- The precedence of the operator at the root of a tree whose root is a `BinaryExprAST`. -/
def rootPrecedence : ExprAST D → Option Int
  | ExprAST.BinaryExprAST Op _ _ => some (precedence (Token.char Op : Token D))
  | _ => none

/-- The tree respects the precedences: every `BinaryExprAST` whose right child is a
`BinaryExprAST` has a right child of strictly greater precedence, and every `BinaryExprAST`
whose left child is a `BinaryExprAST` has a left child of greater or equal precedence. -/
def respectsPrecedence : ExprAST D → Bool
  | ExprAST.BinaryExprAST Op LHS RHS =>
    (match rootPrecedence RHS with
      | some q => decide (precedence (Token.char Op : Token D) < q)
      | none => true) &&
    (match rootPrecedence LHS with
      | some q => decide (precedence (Token.char Op : Token D) ≤ q)
      | none => true) &&
    respectsPrecedence LHS && respectsPrecedence RHS
  | _ => true

mutual

/-- The in-order traversal of a tree, operands and operators, as tokens: a number, a
variable, `LHS Op RHS` for a binary operation, and `Callee ( Args )` for a call. -/
def inorder : ExprAST D → List (Token D)
  | ExprAST.NumberExprAST Val => [Token.tok_number Val]
  | ExprAST.VariableExprAST Name => [Token.tok_identifier Name]
  | ExprAST.BinaryExprAST Op LHS RHS => inorder LHS ++ Token.char Op :: inorder RHS
  | ExprAST.CallExprAST Callee Args =>
    Token.tok_identifier Callee :: Token.char '(' :: (inorderArgs Args ++ [Token.char ')'])

/-- The in-order traversals of the arguments of a call, separated by commas. -/
def inorderArgs : List (ExprAST D) → List (Token D)
  | [] => []
  | [Arg] => inorder Arg
  | Arg :: Arg2 :: Args => inorder Arg ++ Token.char ',' :: inorderArgs (Arg2 :: Args)

end

/-- The operands `p1 ... pn` are atomic, the operators `op1 ... opn` are in the table, an
operand that is an identifier is not followed by `(`, and the stream `rest` after the last
operand does not start with an operator of the table. -/
def ChainOK : List (Char × Token D) → List (Token D) → Prop
  | [], rest => precedence (rest.headD Token.tok_eof) = -1
  | (op, p) :: ps, rest =>
    op ∈ tableOperators ∧ atomAST p ≠ none ∧
      (∀ s, p = Token.tok_identifier s →
        ((binopTokens ps ++ rest).headD Token.tok_eof).isChar '(' = false) ∧
      ChainOK ps rest

mutual

/-- The fully parenthesised printing of a tree as tokens: a number token, an identifier
token, `Callee ( Arg , ... , Arg )` for a call, and `( LHS Op RHS )` for a binary
operation. -/
def render : ExprAST D → List (Token D)
  | ExprAST.NumberExprAST Val => [Token.tok_number Val]
  | ExprAST.VariableExprAST Name => [Token.tok_identifier Name]
  | ExprAST.BinaryExprAST Op LHS RHS =>
    Token.char '(' :: (render LHS ++ Token.char Op :: (render RHS ++ [Token.char ')']))
  | ExprAST.CallExprAST Callee Args =>
    Token.tok_identifier Callee :: Token.char '(' :: (renderArgs Args ++ [Token.char ')'])

/-- The printing of the arguments of a call, separated by commas. -/
def renderArgs : List (ExprAST D) → List (Token D)
  | [] => []
  | [Arg] => render Arg
  | Arg :: Arg2 :: Args => render Arg ++ Token.char ',' :: renderArgs (Arg2 :: Args)

end

mutual

/-- All the operators of the tree are in the table of `main`. -/
def operatorsInTable : ExprAST D → Bool
  | ExprAST.NumberExprAST _ => true
  | ExprAST.VariableExprAST _ => true
  | ExprAST.BinaryExprAST Op LHS RHS =>
    decide (Op ∈ tableOperators) && operatorsInTable LHS && operatorsInTable RHS
  | ExprAST.CallExprAST _ Args => operatorsInTableArgs Args

/-- All the operators of the trees of the list are in the table of `main`. -/
def operatorsInTableArgs : List (ExprAST D) → Bool
  | [] => true
  | Arg :: Args => operatorsInTable Arg && operatorsInTableArgs Args

end

/-! ## The precedence table under look-ups -/

theorem mainBinopPrecedence_eq :
    mainBinopPrecedence = [('*', 40), ('-', 20), ('+', 20), ('<', 10)] := by decide

theorem DefaultTable_main : DefaultTable mainBinopPrecedence := fun _ => rfl

theorem mapIndex_fst (m : List (Char × Int)) (k : Char) :
    (mapIndex m k).1 = (m.lookup k).getD 0 := by
  unfold mapIndex
  cases m.lookup k <;> rfl

theorem DefaultTable_mapIndex {m : List (Char × Int)} (h : DefaultTable m) (k : Char) :
    DefaultTable (mapIndex m k).2 := by
  cases hk : m.lookup k with
  | some v => simpa [mapIndex, hk] using h
  | none =>
    intro k'
    have hk' := h k'
    rw [mapIndex_fst] at hk' ⊢
    rw [← hk']
    simp only [mapIndex, hk, List.lookup_cons]
    cases e : k' == k with
    | false => rfl
    | true =>
      have : k' = k := by simpa using e
      subst this
      simp [hk]

theorem GetTokPrecedence_eq (toks : List (Token D)) (m : List (Char × Int)) (err : List String)
    (h : DefaultTable m) :
    ∃ m', DefaultTable m' ∧
      GetTokPrecedence ⟨toks, m, err⟩ = (precedence (toks.headD Token.tok_eof), ⟨toks, m', err⟩) := by
  unfold GetTokPrecedence precedence GetTokPrecedence
  simp only [CurTok, List.headD_cons]
  cases hA : (toks.headD Token.tok_eof).isascii
  · exact ⟨m, h, by simp⟩
  · refine ⟨(mapIndex m (toks.headD Token.tok_eof).toChar).2, DefaultTable_mapIndex h _, ?_⟩
    have := h (toks.headD Token.tok_eof).toChar
    simp only [Bool.not_true, Bool.false_eq_true, if_false]
    rw [← this]
    split <;> rfl

theorem precedence_cases (t : Token D) : precedence t = -1 ∨ 0 < precedence t := by
  unfold precedence GetTokPrecedence
  simp only
  split
  · left; rfl
  · split
    · left; rfl
    · right; simp only; omega

theorem precedence_pos_char {t : Token D} (h : 0 ≤ precedence t) : ∃ c, t = Token.char c := by
  cases t with
  | char c => exact ⟨c, rfl⟩
  | _ => simp [precedence, GetTokPrecedence, CurTok, Token.isascii] at h

theorem isChar_eq {t : Token D} {c : Char} (h : t.isChar c = true) : t = Token.char c := by
  cases t with
  | char d => simp [Token.isChar] at h; rw [h]
  | _ => simp [Token.isChar] at h

theorem headD_eq_cons {s : List (Token D)} {t : Token D} (h : s.headD Token.tok_eof = t)
    (ht : t ≠ Token.tok_eof) : s = t :: s.tail := by
  cases s with
  | nil => exact absurd h.symm ht
  | cons a r => simp at h; simp [h]

theorem Agree_append {s s2 : List (Token D)} (x : List (Token D)) (h : Agree s s2) :
    Agree (x ++ s) (x ++ s2) := by
  cases x with
  | nil => exact h
  | cons a r => left; rfl

theorem Agree_refl_head (t : Token D) (s s2 : List (Token D)) : Agree (t :: s) (t :: s2) :=
  Or.inl rfl

/-! ## More fuel does not change a result -/

theorem fuel_succ (fuel : Nat) :
    (∀ (st : State D) r, ParseParenExpr fuel st = some r → ParseParenExpr (fuel + 1) st = some r) ∧
    (∀ (s : List Char) (st : State D) r,
      ParseIdentifierExpr fuel s st = some r → ParseIdentifierExpr (fuel + 1) s st = some r) ∧
    (∀ (A : List (ExprAST D)) (st : State D) r,
      ParseIdentifierExpr_loop fuel A st = some r →
        ParseIdentifierExpr_loop (fuel + 1) A st = some r) ∧
    (∀ (st : State D) r, ParsePrimary fuel st = some r → ParsePrimary (fuel + 1) st = some r) ∧
    (∀ (st : State D) r,
      ParseExpression fuel st = some r → ParseExpression (fuel + 1) st = some r) ∧
    (∀ (p : Int) (L : ExprAST D) (st : State D) r,
      ParseBinOpRHS fuel p L st = some r → ParseBinOpRHS (fuel + 1) p L st = some r) := by
  induction fuel with
  | zero =>
    refine ⟨?_, ?_, ?_, ?_, ?_, ?_⟩ <;> intros <;> simp_all [ParseParenExpr, ParseIdentifierExpr, ParseIdentifierExpr_loop, ParsePrimary, ParseExpression, ParseBinOpRHS]
  | succ n ih =>
    obtain ⟨ihParen, ihId, ihLoop, ihPrim, ihExpr, ihRHS⟩ := ih
    refine ⟨?_, ?_, ?_, ?_, ?_, ?_⟩
    · intro st r h
      rw [ParseParenExpr] at h ⊢
      cases hE : ParseExpression n (getNextToken st) with
      | none => simp [hE] at h
      | some x => rw [ihExpr _ _ hE]; rw [hE] at h; exact h
    · intro s st r h
      rw [ParseIdentifierExpr] at h ⊢
      cases hE : ParseIdentifierExpr_loop n [] (getNextToken (getNextToken st)) with
      | none => 
        simp only [hE] at h
        split at h
        · simp_all
        · split at h
          · simp at h
          · simp_all
      | some x => simp only [ihLoop _ _ _ hE]; simp only [hE] at h; exact h
    · intro A st r h
      rw [ParseIdentifierExpr_loop] at h ⊢
      cases hE : ParseExpression n st with
      | none => simp [hE] at h
      | some x =>
        rw [ihExpr _ _ hE]; rw [hE] at h
        rcases x with ⟨_ | a, st1⟩
        · exact h
        · simp only at h ⊢
          cases h1 : (CurTok st1).isChar ')' <;> cases h2 : (CurTok st1).isChar ',' <;>
            simp only [h1, h2, Bool.false_eq_true, if_false, if_true, Bool.not_false,
              Bool.not_true] at h ⊢ <;>
            first | exact h | exact ihLoop _ _ _ h
    · intro st r h
      rw [ParsePrimary] at h ⊢
      cases hc : CurTok st with
      | tok_identifier s => simp only [hc] at h ⊢; exact ihId _ _ _ h
      | char c =>
        simp only [hc] at h ⊢
        cases h1 : c == '(' <;>
          simp only [h1, Bool.false_eq_true, if_false, if_true] at h ⊢ <;>
          first | exact h | exact ihParen _ _ h
      | _ => simp only [hc] at h ⊢; exact h
    · intro st r h
      rw [ParseExpression] at h ⊢
      cases hE : ParsePrimary n st with
      | none => simp [hE] at h
      | some x =>
        rw [ihPrim _ _ hE]; rw [hE] at h
        rcases x with ⟨_ | a, st1⟩
        · exact h
        · exact ihRHS _ _ _ _ h
    · intro p L st r h
      rw [ParseBinOpRHS] at h ⊢
      rcases hG : GetTokPrecedence st with ⟨tp, st1⟩
      simp only [hG] at h ⊢
      split
      · simp_all
      · rename_i hlt
        simp only [hlt, if_false] at h
        cases hE : ParsePrimary n (getNextToken st1) with
        | none => simp [hE] at h
        | some x =>
          rw [ihPrim _ _ hE]; rw [hE] at h
          rcases x with ⟨_ | a, st2⟩
          · exact h
          · simp only at h ⊢
            rcases hG2 : GetTokPrecedence st2 with ⟨np, st3⟩
            simp only [hG2] at h ⊢
            split
            · rename_i hlt2
              simp only [hlt2, if_true] at h
              cases hR : ParseBinOpRHS n (tp + 1) a st3 with
              | none => simp [hR] at h
              | some y =>
                rw [ihRHS _ _ _ _ hR]; rw [hR] at h
                rcases y with ⟨_ | b, st4⟩
                · exact h
                · exact ihRHS _ _ _ _ h
            · rename_i hlt2
              simp only [hlt2, if_false] at h
              exact ihRHS _ _ _ _ h

/-! ## Successful parses are local -/

theorem getNextToken_mk (toks : List (Token D)) (m : List (Char × Int)) (err : List String) :
    getNextToken ⟨toks, m, err⟩ = ⟨toks.tail, m, err⟩ := rfl

theorem CurTok_mk (toks : List (Token D)) (m : List (Char × Int)) (err : List String) :
    CurTok ⟨toks, m, err⟩ = toks.headD Token.tok_eof := rfl

theorem headD_append_cons (x y z : List (Token D)) (a d : Token D) :
    (x ++ a :: y).headD d = (x ++ a :: z).headD d := by
  cases x <;> rfl

theorem Agree_isChar {s s2 : List (Token D)} (h : Agree s s2)
    (hs : (s.headD Token.tok_eof).isChar '(' = false) :
    (s2.headD Token.tok_eof).isChar '(' = false := by
  rcases h with h | h
  · rw [h]; exact hs
  · exact h.2

theorem Agree_precedence {s s2 : List (Token D)} (h : Agree s s2) :
    precedence (s2.headD Token.tok_eof) = precedence (s.headD Token.tok_eof) ∨
      precedence (s2.headD Token.tok_eof) = -1 := by
  rcases h with h | h
  · left; rw [h]
  · right; exact h.1

theorem cons_of_isChar {s : List (Token D)} {m : List (Char × Int)} {err : List String}
    {c : Char} (h : (CurTok (⟨s, m, err⟩ : State D)).isChar c = true) :
    s = Token.char c :: s.tail :=
  headD_eq_cons (isChar_eq h) (by simp)


theorem local_paren (n : Nat) (ihE : LocalExpr (D := D) n) : LocalParen (D := D) (n + 1) := by
  intro toks m err e st' hm h
  rw [ParseParenExpr, getNextToken_mk] at h
  cases hE : ParseExpression n ⟨toks.tail, m, err⟩ with
  | none => simp [hE] at h
  | some x =>
    obtain ⟨o, st1⟩ := x
    cases o with
    | none => simp [hE] at h
    | some V =>
      obtain ⟨pre1, r1, m1, rfl, htl, hm1, -, rep1⟩ := ihE _ _ _ _ _ hm hE
      simp only [hE, getNextToken_mk] at h
      cases hc : (CurTok (⟨r1, m1, err⟩ : State D)).isChar ')' with
      | false => simp [hc, LogError] at h
      | true =>
        simp only [hc, Bool.not_true, Bool.false_eq_true, if_false, Option.some.injEq,
          Prod.mk.injEq] at h
        obtain ⟨rfl, rfl⟩ := h
        have hr1 := cons_of_isChar hc
        cases toks with
        | nil => rw [hr1] at htl; simp at htl
        | cons hd tl =>
          simp only [List.tail_cons] at htl
          refine ⟨hd :: pre1 ++ [Token.char ')'], r1.tail, m1, rfl, ?_, hm1, by simp, ?_⟩
          · rw [htl]; conv_lhs => rw [hr1]
            simp
          · intro s2 m2 err2 _ hm2
            obtain ⟨m2', hm2', hrep⟩ := rep1 (Token.char ')' :: s2) m2 err2
              (by rw [hr1]; exact Agree_refl_head _ _ _) hm2
            refine ⟨m2', hm2', ?_⟩
            rw [ParseParenExpr, getNextToken_mk]
            simp only [List.cons_append, List.tail_cons, List.append_assoc, List.nil_append,
              List.singleton_append]
            rw [hrep]
            simp [CurTok, getNextToken_mk, Token.isChar]

theorem local_args (n : Nat) (ihE : LocalExpr (D := D) n) (ihA : LocalArgs (D := D) n) :
    LocalArgs (D := D) (n + 1) := by
  intro A toks m err e st' hm h
  rw [ParseIdentifierExpr_loop] at h
  cases hE : ParseExpression n ⟨toks, m, err⟩ with
  | none => simp [hE] at h
  | some x =>
    obtain ⟨o, st1⟩ := x
    cases o with
    | none => simp [hE] at h
    | some Arg =>
      obtain ⟨pre1, r1, m1, rfl, htl, hm1, -, rep1⟩ := ihE _ _ _ _ _ hm hE
      simp only [hE, getNextToken_mk] at h
      cases hc : (CurTok (⟨r1, m1, err⟩ : State D)).isChar ')' with
      | true =>
        simp only [hc, if_true, Option.some.injEq, Prod.mk.injEq] at h
        obtain ⟨rfl, rfl⟩ := h
        have hr1 := cons_of_isChar hc
        refine ⟨pre1, r1.tail, m1, by rw [← hr1], by rw [← hr1]; exact htl, hm1, ?_⟩
        intro s2 m2 err2 hm2
        obtain ⟨m2', hm2', hrep⟩ := rep1 (Token.char ')' :: s2) m2 err2
          (by rw [hr1]; exact Agree_refl_head _ _ _) hm2
        refine ⟨m2', hm2', ?_⟩
        rw [ParseIdentifierExpr_loop, hrep]
        simp [CurTok, Token.isChar]
      | false =>
        cases hc2 : (CurTok (⟨r1, m1, err⟩ : State D)).isChar ',' with
        | false => simp [hc, hc2, LogError] at h
        | true =>
          simp only [hc, hc2, Bool.false_eq_true, if_false, Bool.not_true] at h
          have hr1 := cons_of_isChar hc2
          obtain ⟨pre2, r2, m2, rfl, htl2, hm2, rep2⟩ := ihA _ _ _ _ _ _ hm1 h
          refine ⟨pre1 ++ Token.char ',' :: pre2, r2, m2, rfl, ?_, hm2, ?_⟩
          · rw [htl, hr1, htl2]; simp
          · intro s2 m3 err2 hm3
            obtain ⟨m4, hm4, hrep⟩ := rep1 (Token.char ',' :: pre2 ++ Token.char ')' :: s2) m3 err2
              (by rw [hr1]; exact Agree_refl_head _ _ _) hm3
            obtain ⟨m5, hm5, hrep2⟩ := rep2 s2 m4 err2 hm4
            refine ⟨m5, hm5, ?_⟩
            rw [ParseIdentifierExpr_loop]
            simp only [List.append_assoc, List.cons_append] at hrep ⊢
            rw [hrep]
            simp only [getNextToken_mk, List.tail_cons]
            rw [hrep2]
            simp [CurTok, Token.isChar]

theorem local_ident (n : Nat) (ihA : LocalArgs (D := D) n) : LocalIdent (D := D) (n + 1) := by
  intro s hd tl m err e st' hm h
  rw [ParseIdentifierExpr] at h
  simp only [getNextToken_mk, List.tail_cons] at h
  cases hc : (CurTok (⟨tl, m, err⟩ : State D)).isChar '(' with
  | false =>
    simp only [hc, Bool.not_false, if_true, Option.some.injEq, Prod.mk.injEq] at h
    obtain ⟨rfl, rfl⟩ := h
    refine ⟨[hd], tl, m, rfl, rfl, hm, by simp, ?_⟩
    intro s2 m2 err2 hA hm2
    refine ⟨m2, hm2, ?_⟩
    rw [ParseIdentifierExpr]
    simp only [getNextToken_mk, List.singleton_append, List.tail_cons]
    have : (CurTok (⟨s2, m2, err2⟩ : State D)).isChar '(' = false := Agree_isChar hA hc
    simp [this]
  | true =>
    simp only [hc, Bool.not_true, Bool.false_eq_true, if_false] at h
    have htl := cons_of_isChar hc
    cases hc2 : (CurTok (⟨tl.tail, m, err⟩ : State D)).isChar ')' with
    | true =>
      simp only [hc2, Bool.not_true, Bool.false_eq_true, if_false, Option.some.injEq,
        Prod.mk.injEq] at h
      obtain ⟨rfl, rfl⟩ := h
      have htl2 := cons_of_isChar hc2
      refine ⟨[hd, Token.char '(', Token.char ')'], tl.tail.tail, m, rfl, ?_, hm,
        by simp, ?_⟩
      · conv_lhs => rw [htl, htl2]
        rfl
      · intro s2 m2 err2 _ hm2
        refine ⟨m2, hm2, ?_⟩
        rw [ParseIdentifierExpr]
        simp [getNextToken_mk, CurTok, Token.isChar]
    | false =>
      simp only [hc2, Bool.not_false, if_true] at h
      cases hL : ParseIdentifierExpr_loop n [] (⟨tl.tail, m, err⟩ : State D) with
      | none => simp [hL] at h
      | some x =>
        obtain ⟨o, st1⟩ := x
        cases o with
        | none => simp [hL] at h
        | some Args =>
          obtain ⟨pre1, r1, m1, rfl, htl2, hm1, rep1⟩ := ihA _ _ _ _ _ _ hm hL
          simp only [hL, getNextToken_mk, List.tail_cons, Option.some.injEq, Prod.mk.injEq] at h
          obtain ⟨rfl, rfl⟩ := h
          refine ⟨hd :: Token.char '(' :: pre1 ++ [Token.char ')'], r1, m1, rfl, ?_, hm1,
            by simp, ?_⟩
          · conv_lhs => rw [htl, htl2]
            simp
          · intro s2 m2 err2 _ hm2
            obtain ⟨m2', hm2', hrep⟩ := rep1 s2 m2 err2 hm2
            refine ⟨m2', hm2', ?_⟩
            have hne : (CurTok (⟨pre1 ++ Token.char ')' :: s2, m2, err2⟩ : State D)).isChar ')'
                = false := by
              rw [← hc2, htl2]
              simp only [CurTok_mk]
              rw [headD_append_cons pre1 s2 r1]
            rw [ParseIdentifierExpr]
            simp only [getNextToken_mk, List.cons_append, List.tail_cons, List.append_assoc,
              List.singleton_append, List.nil_append]
            simp only [hne, hrep]
            simp [CurTok, Token.isChar, getNextToken_mk]

theorem head_of_append {pre rest tl : List (Token D)} {hd : Token D}
    (h : hd :: tl = pre ++ rest) (hp : pre = [] → False) : ∃ pre', pre = hd :: pre' := by
  cases pre with
  | nil => exact (hp rfl).elim
  | cons a r => simp at h; exact ⟨r, by rw [h.1]⟩

theorem local_primary (n : Nat) (ihI : LocalIdent (D := D) n) (ihP : LocalParen (D := D) n) :
    LocalPrimary (D := D) (n + 1) := by
  intro toks m err e st' hm h
  rw [ParsePrimary] at h
  cases hc : CurTok (⟨toks, m, err⟩ : State D) with
  | tok_identifier s =>
    simp only [hc] at h
    have ht := headD_eq_cons (s := toks) hc (by simp)
    rw [ht] at h
    obtain ⟨pre, rest, m', h1, h2, h3, h4, rep⟩ := ihI _ _ _ _ _ _ _ hm h
    refine ⟨pre, rest, m', h1, by rw [ht]; exact h2, h3, h4, ?_⟩
    intro s2 m2 err2 hA hm2
    obtain ⟨m2', hm2', hrep⟩ := rep s2 m2 err2 hA hm2
    refine ⟨m2', hm2', ?_⟩
    obtain ⟨pre', rfl⟩ := head_of_append h2 h4
    rw [ParsePrimary]
    simp only [CurTok_mk, List.cons_append, List.headD_cons]
    exact hrep
  | tok_number v =>
    simp only [hc, ParseNumberExpr, getNextToken_mk, Option.some.injEq, Prod.mk.injEq] at h
    obtain ⟨rfl, rfl⟩ := h
    have ht := headD_eq_cons (s := toks) hc (by simp)
    refine ⟨[Token.tok_number v], toks.tail, m, rfl, ht, hm, by simp, ?_⟩
    intro s2 m2 err2 _ hm2
    exact ⟨m2, hm2, by rw [ParsePrimary]; simp [CurTok, ParseNumberExpr, getNextToken_mk]⟩
  | char c =>
    simp only [hc] at h
    cases hp : c == '(' with
    | false => simp [hp, LogError] at h
    | true =>
      have hc' : c = '(' := by simpa using hp
      subst hc'
      simp only [beq_self_eq_true, if_true] at h
      have ht := headD_eq_cons (s := toks) hc (by simp)
      obtain ⟨pre, rest, m', h1, h2, h3, h4, rep⟩ := ihP _ _ _ _ _ hm h
      refine ⟨pre, rest, m', h1, h2, h3, h4, ?_⟩
      intro s2 m2 err2 hA hm2
      obtain ⟨m2', hm2', hrep⟩ := rep s2 m2 err2 hA hm2
      refine ⟨m2', hm2', ?_⟩
      rw [ht] at h2
      obtain ⟨pre', rfl⟩ := head_of_append h2 h4
      rw [ParsePrimary]
      simp only [CurTok_mk, List.cons_append, List.headD_cons, beq_self_eq_true, if_true]
      exact hrep
  | tok_eof => simp [hc, LogError] at h
  | tok_def => simp [hc, LogError] at h
  | tok_extern => simp [hc, LogError] at h

theorem local_expr (n : Nat) (ihP : LocalPrimary (D := D) n) (ihR : LocalRHS (D := D) n) :
    LocalExpr (D := D) (n + 1) := by
  intro toks m err e st' hm h
  rw [ParseExpression] at h
  cases hE : ParsePrimary n ⟨toks, m, err⟩ with
  | none => simp [hE] at h
  | some x =>
    obtain ⟨o, st1⟩ := x
    cases o with
    | none => simp [hE] at h
    | some LHS =>
      obtain ⟨pre1, r1, m1, rfl, htl, hm1, hne, rep1⟩ := ihP _ _ _ _ _ hm hE
      simp only [hE] at h
      obtain ⟨pre2, r2, m2, rfl, htl2, hm2, -, rep2⟩ := ihR _ _ _ _ _ _ _ (le_refl 0) hm1 h
      refine ⟨pre1 ++ pre2, r2, m2, rfl, by rw [htl, htl2]; simp, hm2, ?_, ?_⟩
      · intro hp
        exact hne (List.append_eq_nil.mp hp).1
      · intro s2 m3 err2 hA hm3
        obtain ⟨m4, hm4, hrep⟩ := rep1 (pre2 ++ s2) m3 err2
          (by rw [htl2]; exact Agree_append _ hA) hm3
        obtain ⟨m5, hm5, hrep2⟩ := rep2 s2 m4 err2 hA hm4
        refine ⟨m5, hm5, ?_⟩
        rw [ParseExpression]
        simp only [List.append_assoc] at hrep ⊢
        rw [hrep]
        exact hrep2

theorem precedence_eof : precedence (Token.tok_eof : Token D) = -1 := rfl

theorem local_rhs (n : Nat) (ihP : LocalPrimary (D := D) n) (ihR : LocalRHS (D := D) n) :
    LocalRHS (D := D) (n + 1) := by
  intro p L toks m err e st' hp hm h
  rw [ParseBinOpRHS] at h
  obtain ⟨m1, hm1, hG⟩ := GetTokPrecedence_eq toks m err hm
  simp only [hG] at h
  by_cases hlt : precedence (toks.headD Token.tok_eof) < p
  · simp only [hlt, if_true, Option.some.injEq, Prod.mk.injEq] at h
    obtain ⟨rfl, rfl⟩ := h
    refine ⟨[], toks, m1, rfl, rfl, hm1, fun _ => rfl, ?_⟩
    intro s2 m2 err2 hA hm2
    obtain ⟨m2', hm2', hG2⟩ := GetTokPrecedence_eq s2 m2 err2 hm2
    refine ⟨m2', hm2', ?_⟩
    have hlt2 : precedence (s2.headD Token.tok_eof) < p := by
      rcases Agree_precedence hA with h1 | h1 <;> rw [h1]
      · exact hlt
      · omega
    rw [ParseBinOpRHS]
    simp only [List.nil_append, hG2, hlt2, if_true]
  · simp only [hlt, if_false] at h
    cases toks with
    | nil => exact absurd (by rw [List.headD_nil, precedence_eof]; omega) hlt
    | cons t tl =>
      simp only [List.headD_cons] at hlt h
      obtain ⟨c, rfl⟩ := precedence_pos_char (t := t) (by omega)
      simp only [getNextToken_mk, List.tail_cons, CurTok_mk, List.headD_cons, Token.toChar] at h
      cases hE : ParsePrimary n ⟨tl, m1, err⟩ with
      | none => simp [hE] at h
      | some x =>
        obtain ⟨o, st2⟩ := x
        cases o with
        | none => simp [hE] at h
        | some RHS =>
          obtain ⟨pre1, r2, m2, rfl, htl, hm2, -, rep1⟩ := ihP _ _ _ _ _ hm1 hE
          obtain ⟨m3, hm3, hG3⟩ := GetTokPrecedence_eq r2 m2 err hm2
          simp only [hE, hG3] at h
          by_cases hlt2 : precedence (Token.char c : Token D) < precedence (r2.headD Token.tok_eof)
          · simp only [hlt2, if_true] at h
            cases hR : ParseBinOpRHS n (precedence (Token.char c : Token D) + 1) RHS
                ⟨r2, m3, err⟩ with
            | none => simp [hR] at h
            | some y =>
              obtain ⟨o, st4⟩ := y
              cases o with
              | none => simp [hR] at h
              | some RHS' =>
                obtain ⟨pre3, r4, m4, rfl, hr2, hm4, hz3, rep3⟩ :=
                  ihR _ _ _ _ _ _ _ (by omega) hm3 hR
                simp only [hR] at h
                obtain ⟨pre4, r', m', rfl, hr4, hm', hz4, rep4⟩ := ihR _ _ _ _ _ _ _ hp hm4 h
                refine ⟨Token.char c :: (pre1 ++ (pre3 ++ pre4)), r', m', rfl, ?_, hm',
                  by simp, ?_⟩
                · rw [htl, hr2, hr4]; simp
                · intro s2 m5 err2 hA hm5
                  obtain ⟨m6, hm6, hG6⟩ :=
                    GetTokPrecedence_eq (Token.char c :: (pre1 ++ (pre3 ++ (pre4 ++ s2)))) m5 err2 hm5
                  have hA4 : Agree r4 (pre4 ++ s2) := by rw [hr4]; exact Agree_append _ hA
                  have hA2 : Agree r2 (pre3 ++ (pre4 ++ s2)) := by
                    rw [hr2]; exact Agree_append _ hA4
                  obtain ⟨m7, hm7, hrep1⟩ := rep1 _ m6 err2 hA2 hm6
                  obtain ⟨m8, hm8, hG8⟩ :=
                    GetTokPrecedence_eq (pre3 ++ (pre4 ++ s2)) m7 err2 hm7
                  rw [ParseBinOpRHS]
                  simp only [List.cons_append, List.append_assoc, hG6, List.headD_cons, hlt,
                    if_false, getNextToken_mk, List.tail_cons, hrep1, hG8, CurTok_mk,
                    Token.toChar]
                  by_cases hnp : precedence ((pre3 ++ (pre4 ++ s2)).headD Token.tok_eof)
                      = precedence (r2.headD Token.tok_eof)
                  · rw [hnp]
                    simp only [hlt2, if_true]
                    obtain ⟨m9, hm9, hrep3⟩ := rep3 _ m8 err2 hA4 hm8
                    obtain ⟨m10, hm10, hrep4⟩ := rep4 _ m9 err2 hA hm9
                    refine ⟨m10, hm10, ?_⟩
                    rw [hrep3]
                    exact hrep4
                  · have hneg : precedence ((pre3 ++ (pre4 ++ s2)).headD Token.tok_eof) = -1 := by
                      rcases Agree_precedence hA2 with h1 | h1
                      · exact absurd h1 hnp
                      · exact h1
                    have h3 : pre3 = [] := by
                      cases pre3 with
                      | nil => rfl
                      | cons a r => exact absurd (by rw [hr2]; rfl) hnp
                    subst h3
                    have h4 : pre4 = [] := by
                      cases pre4 with
                      | nil => rfl
                      | cons a r => exact absurd (by rw [hr2, hr4]; rfl) hnp
                    subst h4
                    have e1 := hz3 rfl
                    subst e1
                    obtain ⟨m10, hm10, hrep4⟩ := rep4 _ m8 err2 hA hm8
                    refine ⟨m10, hm10, ?_⟩
                    have hno : ¬ precedence (Token.char c : Token D) <
                        precedence (([] ++ ([] ++ s2) : List (Token D)).headD Token.tok_eof) := by
                      rw [hneg]; omega
                    simp only [hno, if_false]
                    exact hrep4
          · simp only [hlt2, if_false] at h
            obtain ⟨pre4, r', m', rfl, hr2, hm', hz4, rep4⟩ := ihR _ _ _ _ _ _ _ hp hm3 h
            refine ⟨Token.char c :: (pre1 ++ pre4), r', m', rfl, ?_, hm', by simp, ?_⟩
            · rw [htl, hr2]; simp
            · intro s2 m5 err2 hA hm5
              obtain ⟨m6, hm6, hG6⟩ :=
                GetTokPrecedence_eq (Token.char c :: (pre1 ++ (pre4 ++ s2))) m5 err2 hm5
              have hA2 : Agree r2 (pre4 ++ s2) := by rw [hr2]; exact Agree_append _ hA
              obtain ⟨m7, hm7, hrep1⟩ := rep1 _ m6 err2 hA2 hm6
              obtain ⟨m8, hm8, hG8⟩ := GetTokPrecedence_eq (pre4 ++ s2) m7 err2 hm7
              obtain ⟨m10, hm10, hrep4⟩ := rep4 _ m8 err2 hA hm8
              refine ⟨m10, hm10, ?_⟩
              have hno : ¬ precedence (Token.char c : Token D) <
                  precedence ((pre4 ++ s2).headD Token.tok_eof) := by
                rcases Agree_precedence hA2 with h1 | h1 <;> rw [h1]
                · exact hlt2
                · omega
              rw [ParseBinOpRHS]
              simp only [List.cons_append, List.append_assoc, hG6, List.headD_cons, hlt,
                if_false, getNextToken_mk, List.tail_cons, hrep1, hG8, CurTok_mk,
                Token.toChar, hno]
              exact hrep4

theorem local_all (n : Nat) :
    LocalParen (D := D) n ∧ LocalIdent (D := D) n ∧ LocalArgs (D := D) n ∧
      LocalPrimary (D := D) n ∧ LocalExpr (D := D) n ∧ LocalRHS (D := D) n := by
  induction n with
  | zero =>
    refine ⟨?_, ?_, ?_, ?_, ?_, ?_⟩
    · intro toks m err e st' _ h; simp [ParseParenExpr] at h
    · intro s hd tl m err e st' _ h; simp [ParseIdentifierExpr] at h
    · intro A toks m err e st' _ h; simp [ParseIdentifierExpr_loop] at h
    · intro toks m err e st' _ h; simp [ParsePrimary] at h
    · intro toks m err e st' _ h; simp [ParseExpression] at h
    · intro p L toks m err e st' _ _ h; simp [ParseBinOpRHS] at h
  | succ n ih =>
    obtain ⟨ihParen, ihId, ihArgs, ihPrim, ihExpr, ihRHS⟩ := ih
    exact ⟨local_paren n ihExpr, local_ident n ihArgs, local_args n ihExpr ihArgs,
      local_primary n ihId ihParen, local_expr n ihPrim ihRHS, local_rhs n ihPrim ihRHS⟩

/-! ## The scanner: enough fuel -/

theorem skipSpaces_length (l : Option Char) (input : List Char) :
    (skipSpaces l input).2.length ≤ input.length := by
  induction input generalizing l with
  | nil => cases l <;> simp [skipSpaces]; split <;> simp
  | cons d ds ih =>
    cases l with
    | none => simp [skipSpaces]
    | some c =>
      simp only [skipSpaces]
      split
      · exact Nat.le_succ_of_le (ih _)
      · simp

theorem skipComment_length (input : List Char) (c : Char) (r : List Char)
    (h : skipComment input = (some c, r)) : r.length < input.length := by
  induction input with
  | nil => simp [skipComment] at h
  | cons d ds ih =>
    simp only [skipComment] at h
    split at h
    · exact Nat.lt_succ_of_lt (ih h)
    · simp only [Prod.mk.injEq, Option.some.injEq] at h
      rw [← h.2]; simp

theorem gettokAux_succ (strtod : List Char → D) (fuel : Nat) :
    ∀ (st : LexState) r, gettokAux strtod fuel st = some r →
      gettokAux strtod (fuel + 1) st = some r := by
  induction fuel with
  | zero => intro st r h; simp [gettokAux] at h
  | succ n ih =>
    intro st r h
    rw [gettokAux] at h ⊢
    split <;> rename_i heq <;> simp only [heq] at h
    · exact h
    · split
      · rename_i ha; simp only [ha, if_true] at h; exact h
      · rename_i ha
        simp only [ha, if_false] at h
        split
        · rename_i hd; simp only [hd, if_true] at h; exact h
        · rename_i hd
          simp only [hd, if_false] at h
          split
          · rename_i hh
            simp only [hh, if_true] at h
            split <;> rename_i hs <;> simp only [hs] at h
            · exact ih _ _ h
            · exact h
          · rename_i hh; simp only [hh, if_false] at h; exact h

theorem gettokAux_mono (strtod : List Char → D) {n k : Nat} (hk : n ≤ k) (st : LexState)
    (r : Token D × LexState) (h : gettokAux strtod n st = some r) :
    gettokAux strtod k st = some r := by
  induction hk with
  | refl => exact h
  | step _ ih => exact gettokAux_succ strtod _ _ _ ih

theorem gettokAux_isSome (strtod : List Char → D) (fuel : Nat) :
    ∀ st : LexState, st.input.length < fuel → ∃ r, gettokAux strtod fuel st = some r := by
  induction fuel with
  | zero => intro st h; omega
  | succ n ih =>
    intro st hlen
    rw [gettokAux]
    have hsk := skipSpaces_length st.LastChar st.input
    split <;> rename_i heq
    · exact ⟨_, rfl⟩
    · rw [heq] at hsk
      simp only at hsk
      split
      · (repeat' split) <;> exact ⟨_, rfl⟩
      · split
        · exact ⟨_, rfl⟩
        · split
          · split <;> rename_i hs
            · have := skipComment_length _ _ _ hs
              exact ih _ (by simp only; omega)
            · exact ⟨_, rfl⟩
          · exact ⟨_, rfl⟩

/-- The result of the body at any sufficient fuel is the result of `gettok`. -/
theorem gettok_eq (strtod : List Char → D) (fuel : Nat) (st : LexState)
    (r : Token D × LexState) (h : gettokAux strtod fuel st = some r) : gettok strtod st = r := by
  obtain ⟨r0, h0⟩ := gettokAux_isSome strtod (st.input.length + 1) st (Nat.lt_succ_self _)
  have h1 := gettokAux_mono strtod (Nat.le_max_left fuel (st.input.length + 1)) st r h
  have h2 := gettokAux_mono strtod (Nat.le_max_right fuel (st.input.length + 1)) st r0 h0
  rw [h1] at h2
  simp only [Option.some.injEq] at h2
  rw [gettok, h0, h2]

theorem gettokN_eof (strtod : List Char → D) (n : Nat) :
    gettokN strtod n ⟨none, []⟩ = List.replicate n Token.tok_eof := by
  induction n with
  | zero => rfl
  | succ n ih =>
    have h : gettok strtod ⟨none, []⟩ = (Token.tok_eof, ⟨none, []⟩) := rfl
    rw [gettokN, h, ih]
    rfl

/-! ## The definitions follow the loops of the source -/

/-- The recursion of `ParsePrototype_loop` is the loop
`while (getNextToken() == tok_identifier) ArgNames.push_back(IdentifierStr);`. -/
theorem ParsePrototype_loop_eq (ArgNames : List (List Char)) (st : State D) :
    ParsePrototype_loop ArgNames st.toks =
      match CurTok (getNextToken st) with
      | Token.tok_identifier IdentifierStr =>
        ParsePrototype_loop (ArgNames ++ [IdentifierStr]) (getNextToken st).toks
      | _ => (ArgNames, (getNextToken st).toks) := by
  obtain ⟨toks, m, err⟩ := st
  cases toks with
  | nil => rfl
  | cons t tl =>
    cases tl with
    | nil => rfl
    | cons u r => cases u <;> rfl

/-- The function `gettok` satisfies the equation of its body in the source, with the nested
call `return gettok();` after a comment line: the fuel of `gettokAux` is never used up. -/
theorem gettok_body (strtod : List Char → D) (st : LexState) :
    gettok strtod st =
      match skipSpaces st.LastChar st.input with
      | (none, input) => (Token.tok_eof, ⟨none, input⟩)
      | (some c, input) =>
        if isalpha c then
          match readIdentifier [c] input with
          | (IdentifierStr, LastChar, input) =>
            if IdentifierStr = ['d', 'e', 'f'] then (Token.tok_def, ⟨LastChar, input⟩)
            else if IdentifierStr = ['e', 'x', 't', 'e', 'r', 'n'] then
              (Token.tok_extern, ⟨LastChar, input⟩)
            else (Token.tok_identifier IdentifierStr, ⟨LastChar, input⟩)
        else if isdigit c || c == '.' then
          match readNumber [] c input with
          | (NumStr, LastChar, input) => (Token.tok_number (strtod NumStr), ⟨LastChar, input⟩)
        else if c == '#' then
          match skipComment input with
          | (some c, input) => gettok strtod ⟨some c, input⟩
          | (none, input) => (Token.tok_eof, ⟨none, input⟩)
        else
          match getchar input with
          | (LastChar, input) => (Token.char c, ⟨LastChar, input⟩) := by
  obtain ⟨r, hr⟩ := gettokAux_isSome strtod (st.input.length + 1) st (Nat.lt_succ_self _)
  rw [gettok_eq strtod _ st r hr]
  rw [gettokAux] at hr
  rcases hsk : skipSpaces st.LastChar st.input with ⟨_ | c, input⟩ <;> simp only [hsk] at hr ⊢
  · simpa using hr.symm
  · by_cases ha : isalpha c = true
    · simp only [ha, if_true] at hr ⊢
      rcases hri : readIdentifier [c] input with ⟨I, L, inp⟩
      simp only [hri] at hr ⊢
      split_ifs at hr ⊢ <;> simpa using hr.symm
    · simp only [ha, if_false] at hr ⊢
      by_cases hd : (isdigit c || c == '.') = true
      · simp only [hd, if_true] at hr ⊢
        simpa using hr.symm
      · simp only [hd, if_false] at hr ⊢
        by_cases hh : (c == '#') = true
        · simp only [hh, if_true] at hr ⊢
          rcases hs : skipComment input with ⟨_ | c', inp⟩ <;> simp only [hs] at hr ⊢
          · simpa using hr.symm
          · exact (gettok_eq strtod _ _ r hr).symm
        · simp only [hh, if_false] at hr ⊢
          simpa using hr.symm

theorem strtodExact_one : strtodExact ['1'] = 1 := by
  have h : strtodExact ['1'] = ((1 : Nat) : ℚ) := rfl
  rw [h]; norm_num

theorem strtodExact_two : strtodExact ['2'] = 2 := by
  have h : strtodExact ['2'] = ((2 : Nat) : ℚ) := rfl
  rw [h]; norm_num

theorem strtodExact_three : strtodExact ['3'] = 3 := by
  have h : strtodExact ['3'] = ((3 : Nat) : ℚ) := rfl
  rw [h]; norm_num

/-! ## The tokens of the example texts -/

theorem gettokN_example_precedence :
    gettokN strtodExact 6 (LexState.init "1+2*3".toList) =
      [Token.tok_number 1, Token.char '+', Token.tok_number 2, Token.char '*',
        Token.tok_number 3, Token.tok_eof] := by
  rw [← strtodExact_one, ← strtodExact_two, ← strtodExact_three]
  rfl

theorem gettokN_example_associativity :
    gettokN strtodExact 6 (LexState.init "1-2-3".toList) =
      [Token.tok_number 1, Token.char '-', Token.tok_number 2, Token.char '-',
        Token.tok_number 3, Token.tok_eof] := by
  rw [← strtodExact_one, ← strtodExact_two, ← strtodExact_three]
  rfl

theorem gettokN_example_call :
    gettokN strtodExact 9 (LexState.init "foo(1, 2+3)".toList) =
      [Token.tok_identifier ['f', 'o', 'o'], Token.char '(', Token.tok_number 1,
        Token.char ',', Token.tok_number 2, Token.char '+', Token.tok_number 3,
        Token.char ')', Token.tok_eof] := by
  rw [← strtodExact_one, ← strtodExact_two, ← strtodExact_three]
  rfl

theorem gettokN_example_definition :
    gettokN strtodExact 10 (LexState.init "def foo(a b) a+b".toList) =
      [Token.tok_def, Token.tok_identifier ['f', 'o', 'o'], Token.char '(',
        Token.tok_identifier ['a'], Token.tok_identifier ['b'], Token.char ')',
        Token.tok_identifier ['a'], Token.char '+', Token.tok_identifier ['b'],
        Token.tok_eof] := rfl

theorem gettokN_example_unclosed :
    gettokN strtodExact 5 (LexState.init "(1+2".toList) =
      [Token.char '(', Token.tok_number 1, Token.char '+', Token.tok_number 2,
        Token.tok_eof] := by
  rw [← strtodExact_one, ← strtodExact_two]
  rfl

theorem gettokN_example_parenthesised :
    gettokN strtodExact 6 (LexState.init "(1+2)".toList) =
      [Token.char '(', Token.tok_number 1, Token.char '+', Token.tok_number 2,
        Token.char ')', Token.tok_eof] := by
  rw [← strtodExact_one, ← strtodExact_two]
  rfl

theorem gettokN_example_dangling :
    gettokN strtodExact 3 (LexState.init "1+".toList) =
      [Token.tok_number 1, Token.char '+', Token.tok_eof] ∧
    gettokN strtodExact 5 (LexState.init "1+2*".toList) =
      [Token.tok_number 1, Token.char '+', Token.tok_number 2, Token.char '*',
        Token.tok_eof] ∧
    gettokN strtodExact 6 (LexState.init "f(1+)".toList) =
      [Token.tok_identifier ['f'], Token.char '(', Token.tok_number 1, Token.char '+',
        Token.char ')', Token.tok_eof] := by
  rw [← strtodExact_one, ← strtodExact_two]
  exact ⟨rfl, rfl, rfl⟩

/-! ## Precedence and associativity (C1, C2) -/

theorem atomAST_some {a : Token D} {x : ExprAST D} (h : atomAST a = some x) :
    (∃ v, a = Token.tok_number v ∧ x = ExprAST.NumberExprAST v) ∨
      (∃ s, a = Token.tok_identifier s ∧ x = ExprAST.VariableExprAST s) := by
  cases a <;> simp [atomAST] at h
  · right; exact ⟨_, rfl, h.symm⟩
  · left; exact ⟨_, rfl, h.symm⟩

theorem mem_tableOperators {c : Char} (h : c ∈ tableOperators) :
    c = '*' ∨ c = '-' ∨ c = '+' ∨ c = '<' := by
  simpa [tableOperators, mainBinopPrecedence_eq] using h

theorem precedence_star : precedence (Token.char '*' : Token D) = 40 := rfl

theorem precedence_minus : precedence (Token.char '-' : Token D) = 20 := rfl

theorem precedence_plus : precedence (Token.char '+' : Token D) = 20 := rfl

theorem precedence_less : precedence (Token.char '<' : Token D) = 10 := rfl

/-- C1: with the table of `main`, for atomic primaries `a`, `b`, `c` and operators `op1`,
`op2` of the table with `prec op1 < prec op2`, `ParseExpression` on the tokens
`a op1 b op2 c` followed by the end of the input returns
`BinaryExprAST op1 a (BinaryExprAST op2 b c)`, with the end of the input as current token,
for every amount of fuel from 5 on. -/
theorem C1_higher_precedence_binds_tighter (a b c : Token D) (x y z : ExprAST D)
    (op1 op2 : Char) (err : List String) (fuel : Nat)
    (ha : atomAST a = some x) (hb : atomAST b = some y) (hc : atomAST c = some z)
    (h1 : op1 ∈ tableOperators) (h2 : op2 ∈ tableOperators)
    (hlt : precedence (Token.char op1 : Token D) < precedence (Token.char op2 : Token D)) :
    ParseExpression (fuel + 5) ⟨[a, Token.char op1, b, Token.char op2, c],
        mainBinopPrecedence, err⟩ =
      some (some (ExprAST.BinaryExprAST op1 x (ExprAST.BinaryExprAST op2 y z)),
        ⟨[], mainBinopPrecedence, err⟩) := by
  rcases atomAST_some ha with ⟨v, rfl, rfl⟩ | ⟨v, rfl, rfl⟩ <;>
  rcases atomAST_some hb with ⟨v, rfl, rfl⟩ | ⟨v, rfl, rfl⟩ <;>
  rcases atomAST_some hc with ⟨v, rfl, rfl⟩ | ⟨v, rfl, rfl⟩ <;>
  rcases mem_tableOperators h1 with rfl | rfl | rfl | rfl <;>
  rcases mem_tableOperators h2 with rfl | rfl | rfl | rfl <;>
  first
    | rfl
    | (simp only [precedence_star, precedence_minus, precedence_plus, precedence_less] at hlt
       omega)

/-- C2: with the table of `main`, for atomic primaries `a`, `b`, `c` and operators `op1`,
`op2` of the table with `prec op1 ≥ prec op2`, `ParseExpression` on the tokens
`a op1 b op2 c` followed by the end of the input returns
`BinaryExprAST op2 (BinaryExprAST op1 a b) c`, with the end of the input as current token,
for every amount of fuel from 5 on. -/
theorem C2_equal_precedence_left_assoc (a b c : Token D) (x y z : ExprAST D)
    (op1 op2 : Char) (err : List String) (fuel : Nat)
    (ha : atomAST a = some x) (hb : atomAST b = some y) (hc : atomAST c = some z)
    (h1 : op1 ∈ tableOperators) (h2 : op2 ∈ tableOperators)
    (hge : precedence (Token.char op2 : Token D) ≤ precedence (Token.char op1 : Token D)) :
    ParseExpression (fuel + 5) ⟨[a, Token.char op1, b, Token.char op2, c],
        mainBinopPrecedence, err⟩ =
      some (some (ExprAST.BinaryExprAST op2 (ExprAST.BinaryExprAST op1 x y) z),
        ⟨[], mainBinopPrecedence, err⟩) := by
  rcases atomAST_some ha with ⟨v, rfl, rfl⟩ | ⟨v, rfl, rfl⟩ <;>
  rcases atomAST_some hb with ⟨v, rfl, rfl⟩ | ⟨v, rfl, rfl⟩ <;>
  rcases atomAST_some hc with ⟨v, rfl, rfl⟩ | ⟨v, rfl, rfl⟩ <;>
  rcases mem_tableOperators h1 with rfl | rfl | rfl | rfl <;>
  rcases mem_tableOperators h2 with rfl | rfl | rfl | rfl <;>
  first
    | rfl
    | (simp only [precedence_star, precedence_minus, precedence_plus, precedence_less] at hge
       omega)

/-- Witness of C1 on the text `1+2*3`: its tokens, and the tree parsed from them. -/
theorem C1_witness :
    gettokN strtodExact 6 (LexState.init "1+2*3".toList) =
      [Token.tok_number 1, Token.char '+', Token.tok_number 2, Token.char '*',
        Token.tok_number 3, Token.tok_eof] ∧
    precedence (Token.char '+' : Token ℚ) < precedence (Token.char '*' : Token ℚ) ∧
    ParseExpression 5 ⟨[Token.tok_number (1 : ℚ), Token.char '+', Token.tok_number 2,
        Token.char '*', Token.tok_number 3], mainBinopPrecedence, []⟩ =
      some (some (ExprAST.BinaryExprAST '+' (ExprAST.NumberExprAST 1)
        (ExprAST.BinaryExprAST '*' (ExprAST.NumberExprAST 2) (ExprAST.NumberExprAST 3))),
        ⟨[], mainBinopPrecedence, []⟩) :=
  ⟨gettokN_example_precedence, by rw [precedence_plus, precedence_star]; decide,
    C1_higher_precedence_binds_tighter _ _ _ _ _ _ '+' '*' [] 0 rfl rfl rfl (by decide)
      (by decide) (by rw [precedence_plus, precedence_star]; decide)⟩

/-- Witness of C2 on the text `1-2-3`: its tokens, and the tree parsed from them. -/
theorem C2_witness :
    gettokN strtodExact 6 (LexState.init "1-2-3".toList) =
      [Token.tok_number 1, Token.char '-', Token.tok_number 2, Token.char '-',
        Token.tok_number 3, Token.tok_eof] ∧
    precedence (Token.char '-' : Token ℚ) ≤ precedence (Token.char '-' : Token ℚ) ∧
    ParseExpression 5 ⟨[Token.tok_number (1 : ℚ), Token.char '-', Token.tok_number 2,
        Token.char '-', Token.tok_number 3], mainBinopPrecedence, []⟩ =
      some (some (ExprAST.BinaryExprAST '-'
        (ExprAST.BinaryExprAST '-' (ExprAST.NumberExprAST 1) (ExprAST.NumberExprAST 2))
        (ExprAST.NumberExprAST 3)), ⟨[], mainBinopPrecedence, []⟩) :=
  ⟨gettokN_example_associativity, le_refl _,
    C2_equal_precedence_left_assoc _ _ _ _ _ _ '-' '-' [] 0 rfl rfl rfl (by decide)
      (by decide) (le_refl _)⟩

/-! ## Calls (C3) -/

theorem fuel_mono {n k : Nat} (h : n ≤ k) :
    (∀ (st : State D) r, ParseParenExpr n st = some r → ParseParenExpr k st = some r) ∧
    (∀ (s : List Char) (st : State D) r,
      ParseIdentifierExpr n s st = some r → ParseIdentifierExpr k s st = some r) ∧
    (∀ (A : List (ExprAST D)) (st : State D) r,
      ParseIdentifierExpr_loop n A st = some r → ParseIdentifierExpr_loop k A st = some r) ∧
    (∀ (st : State D) r, ParsePrimary n st = some r → ParsePrimary k st = some r) ∧
    (∀ (st : State D) r, ParseExpression n st = some r → ParseExpression k st = some r) ∧
    (∀ (p : Int) (L : ExprAST D) (st : State D) r,
      ParseBinOpRHS n p L st = some r → ParseBinOpRHS k p L st = some r) := by
  induction h with
  | refl => exact ⟨fun _ _ h => h, fun _ _ _ h => h, fun _ _ _ h => h, fun _ _ h => h,
      fun _ _ h => h, fun _ _ _ _ h => h⟩
  | step _ ih =>
    obtain ⟨h1, h2, h3, h4, h5, h6⟩ := ih
    obtain ⟨s1, s2, s3, s4, s5, s6⟩ := fuel_succ (D := D) _
    exact ⟨fun st r h => s1 st r (h1 st r h), fun s st r h => s2 s st r (h2 s st r h),
      fun A st r h => s3 A st r (h3 A st r h), fun st r h => s4 st r (h4 st r h),
      fun st r h => s5 st r (h5 st r h), fun p L st r h => s6 p L st r (h6 p L st r h)⟩

theorem ParseExpression_mono {n k : Nat} {st : State D} {r : Option (ExprAST D) × State D}
    (h : ParseExpression n st = some r) (hk : n ≤ k) : ParseExpression k st = some r :=
  (fuel_mono hk).2.2.2.2.1 st r h

/-- A successful `ParseExpression` that consumed exactly `E` does the same on `E` followed
by any stream that agrees with what followed `E`. -/
theorem ParseExpression_transfer {n : Nat} {E r : List (Token D)} {m m' : List (Char × Int)}
    {err err' : List String} {e : ExprAST D} (hm : DefaultTable m)
    (h : ParseExpression n ⟨E ++ r, m, err⟩ = some (some e, ⟨r, m', err'⟩)) :
    err' = err ∧ DefaultTable m' ∧
    ∀ s2 m2 err2, Agree r s2 → DefaultTable m2 → ∃ m2', DefaultTable m2' ∧
      ParseExpression n ⟨E ++ s2, m2, err2⟩ = some (some e, ⟨s2, m2', err2⟩) := by
  obtain ⟨pre, rest, m'', hst, htoks, hm'', -, rep⟩ :=
    (local_all (D := D) n).2.2.2.2.1 _ _ _ _ _ hm h
  simp only [State.mk.injEq] at hst
  obtain ⟨rfl, rfl, rfl⟩ := hst
  have : E = pre := List.append_cancel_right htoks
  subst this
  exact ⟨rfl, hm'', rep⟩

/-- Tokens that can start a primary expression. -/
theorem ParseExpression_start {n : Nat} {st st' : State D} {e : ExprAST D}
    (h : ParseExpression n st = some (some e, st')) :
    (CurTok st).isChar ')' = false ∧ (CurTok st).isChar ',' = false ∧ st.toks ≠ [] := by
  cases n with
  | zero => simp [ParseExpression] at h
  | succ n =>
    rw [ParseExpression] at h
    cases n with
    | zero => simp [ParsePrimary] at h
    | succ n =>
      rw [ParsePrimary] at h
      have hne : st.toks ≠ [] → True := fun _ => trivial
      cases hc : CurTok st with
      | tok_identifier s =>
        refine ⟨rfl, rfl, ?_⟩
        intro h0; simp [CurTok, h0] at hc
      | tok_number v =>
        refine ⟨rfl, rfl, ?_⟩
        intro h0; simp [CurTok, h0] at hc
      | char c =>
        simp only [hc] at h
        cases hp : c == '(' with
        | false => simp [hp, LogError] at h
        | true =>
          have : c = '(' := by simpa using hp
          subst this
          refine ⟨rfl, rfl, ?_⟩
          intro h0; simp [CurTok, h0] at hc
      | tok_eof => simp [hc, LogError] at h
      | tok_def => simp [hc, LogError] at h
      | tok_extern => simp [hc, LogError] at h

theorem argTokens_cons_cons (E F : List (Token D)) (Es : List (List (Token D))) :
    argTokens (E :: F :: Es) = E ++ Token.char ',' :: argTokens (F :: Es) := rfl

/-- The argument loop on `e1 , ... , en )` with `n ≥ 1`. -/
theorem ParseIdentifierExpr_loop_args (ps : List (List (Token D) × ExprAST D)) :
    ∀ (p : List (Token D) × ExprAST D), (∀ q ∈ p :: ps, ArgParses q.1 q.2) →
    ∀ (A : List (ExprAST D)) (rest : List (Token D)) (m : List (Char × Int))
      (err : List String), DefaultTable m →
    ∃ fuel m', DefaultTable m' ∧ ∀ k, fuel ≤ k →
      ParseIdentifierExpr_loop k A
          ⟨argTokens ((p :: ps).map Prod.fst) ++ Token.char ')' :: rest, m, err⟩ =
        some (some (A ++ (p :: ps).map Prod.snd), ⟨Token.char ')' :: rest, m', err⟩) := by
  induction ps with
  | nil =>
    intro p hp A rest m err hm
    obtain ⟨f0, m', hm', h0⟩ := hp p (List.mem_cons_self _ _) (Token.char ')') rest m err
      (Or.inr rfl) hm
    refine ⟨f0 + 1, m', hm', ?_⟩
    intro k hk
    obtain ⟨k', rfl⟩ : ∃ k', k = k' + 1 := ⟨k - 1, by omega⟩
    have h1 := ParseExpression_mono h0 (by omega : f0 ≤ k')
    rw [ParseIdentifierExpr_loop]
    simp only [List.map_cons, List.map_nil, argTokens]
    rw [h1]
    simp [CurTok, Token.isChar]
  | cons q qs ih =>
    intro p hp A rest m err hm
    obtain ⟨f0, m1, hm1, h0⟩ := hp p (List.mem_cons_self _ _) (Token.char ',')
      (argTokens ((q :: qs).map Prod.fst) ++ Token.char ')' :: rest) m err (Or.inl rfl) hm
    obtain ⟨f1, m', hm', h1⟩ := ih q (fun x hx => hp x (List.mem_cons_of_mem _ hx))
      (A ++ [p.2]) rest m1 err hm1
    refine ⟨max f0 f1 + 1, m', hm', ?_⟩
    intro k hk
    obtain ⟨k', rfl⟩ : ∃ k', k = k' + 1 := ⟨k - 1, by omega⟩
    have h2 := ParseExpression_mono h0 (by omega : f0 ≤ k')
    have h3 := h1 k' (by omega)
    rw [ParseIdentifierExpr_loop]
    simp only [List.map_cons, argTokens_cons_cons, List.append_assoc, List.cons_append] at h2 h3 ⊢
    rw [h2]
    simp only [getNextToken_mk, List.tail_cons]
    rw [h3]
    simp [CurTok, Token.isChar]

/-- C3: for an identifier `f` and argument token sequences `e1 .. en` (`n ≥ 0`) such that
`ParseExpression` on `ei` followed by `,` or `)` returns `ai` and stops at that token,
`ParseIdentifierExpr` on `f ( e1 , ... , en )` returns `CallExprAST f [a1, ..., an]` with the
arguments in source order and leaves as current token the one after the `)`, for every
amount of fuel from some bound on; on `f ( )` it returns `CallExprAST f []`; and on an
identifier that is not followed by `(` (the stream `s` after it starts with another token,
or is at the end of the input) it returns `VariableExprAST f` and leaves the token after the
identifier current. -/
theorem C3_call_parsing (f : List Char) (args : List (List (Token D) × ExprAST D))
    (hargs : ∀ q ∈ args, ArgParses q.1 q.2) (rest : List (Token D))
    (m : List (Char × Int)) (err : List String) (hm : DefaultTable m) :
    (∃ fuel m', DefaultTable m' ∧ ∀ k, fuel ≤ k →
      ParseIdentifierExpr k f
          ⟨Token.tok_identifier f :: Token.char '(' ::
            (argTokens (args.map Prod.fst) ++ Token.char ')' :: rest), m, err⟩ =
        some (some (ExprAST.CallExprAST f (args.map Prod.snd)), ⟨rest, m', err⟩)) ∧
    (∀ k, ParseIdentifierExpr (k + 1) f
          ⟨Token.tok_identifier f :: Token.char '(' :: Token.char ')' :: rest, m, err⟩ =
        some (some (ExprAST.CallExprAST f []), ⟨rest, m, err⟩)) ∧
    (∀ k (s : List (Token D)), (CurTok (⟨s, m, err⟩ : State D)).isChar '(' = false →
      ParseIdentifierExpr (k + 1) f ⟨Token.tok_identifier f :: s, m, err⟩ =
        some (some (ExprAST.VariableExprAST f), ⟨s, m, err⟩)) := by
  refine ⟨?_, ?_, ?_⟩
  · cases args with
    | nil =>
      refine ⟨1, m, hm, ?_⟩
      intro k hk
      obtain ⟨k', rfl⟩ : ∃ k', k = k' + 1 := ⟨k - 1, by omega⟩
      rw [ParseIdentifierExpr]
      simp [getNextToken_mk, CurTok, Token.isChar, argTokens]
    | cons p ps =>
      obtain ⟨f0, m', hm', h0⟩ := ParseIdentifierExpr_loop_args ps p hargs [] rest m err hm
      refine ⟨f0 + 1, m', hm', ?_⟩
      intro k hk
      obtain ⟨k', rfl⟩ : ∃ k', k = k' + 1 := ⟨k - 1, by omega⟩
      have h1 := h0 k' (by omega)
      have hne : (CurTok (⟨argTokens ((p :: ps).map Prod.fst) ++ Token.char ')' :: rest, m,
          err⟩ : State D)).isChar ')' = false := by
        obtain ⟨f1, m1, -, h2⟩ := hargs p (List.mem_cons_self _ _) (Token.char ')') rest m err
          (Or.inr rfl) hm
        have h3 := ParseExpression_start h2
        obtain ⟨a, r, hp1⟩ : ∃ a r, p.1 = a :: r := by
          cases hp1 : p.1 with
          | nil => rw [hp1] at h3; simp [CurTok, Token.isChar] at h3
          | cons a r => exact ⟨a, r, rfl⟩
        rw [hp1] at h3
        cases ps with
        | nil => simpa [argTokens, hp1, CurTok] using h3.1
        | cons q qs => simpa [argTokens, hp1, CurTok] using h3.1
      rw [ParseIdentifierExpr]
      simp only [getNextToken_mk, List.tail_cons]
      simp only [hne, h1]
      simp [CurTok, Token.isChar, getNextToken_mk]
  · intro k
    rw [ParseIdentifierExpr]
    simp [getNextToken_mk, CurTok, Token.isChar]
  · intro k s hs
    rw [ParseIdentifierExpr]
    simp only [getNextToken_mk, List.tail_cons, hs]
    simp

theorem ArgParses_of_run {E : List (Token D)} {a : ExprAST D} (n : Nat)
    (m' : List (Char × Int))
    (h : ParseExpression n ⟨E ++ [Token.char ')'], mainBinopPrecedence, []⟩ =
      some (some a, ⟨[Token.char ')'], m', []⟩)) : ArgParses E a := by
  intro t rest m err ht hm
  obtain ⟨-, -, rep⟩ := ParseExpression_transfer DefaultTable_main h
  have hA : Agree [Token.char ')'] (t :: rest) := by
    rcases ht with rfl | rfl
    · exact Or.inr ⟨rfl, rfl⟩
    · exact Or.inl rfl
  obtain ⟨m2, hm2, h2⟩ := rep (t :: rest) m err hA hm
  exact ⟨n, m2, hm2, h2⟩

/-- Witness of C3 on the text `foo(1, 2+3)`: its tokens, the two arguments, and the call
parsed from the tokens. -/
theorem C3_witness :
    gettokN strtodExact 9 (LexState.init "foo(1, 2+3)".toList) =
      [Token.tok_identifier ['f', 'o', 'o'], Token.char '(', Token.tok_number 1,
        Token.char ',', Token.tok_number 2, Token.char '+', Token.tok_number 3,
        Token.char ')', Token.tok_eof] ∧
    ArgParses [Token.tok_number (1 : ℚ)] (ExprAST.NumberExprAST 1) ∧
    ArgParses [Token.tok_number (2 : ℚ), Token.char '+', Token.tok_number 3]
      (ExprAST.BinaryExprAST '+' (ExprAST.NumberExprAST 2) (ExprAST.NumberExprAST 3)) ∧
    ∃ fuel m', DefaultTable m' ∧ ∀ k, fuel ≤ k →
      ParseIdentifierExpr k ['f', 'o', 'o']
          ⟨[Token.tok_identifier ['f', 'o', 'o'], Token.char '(', Token.tok_number (1 : ℚ),
            Token.char ',', Token.tok_number 2, Token.char '+', Token.tok_number 3,
            Token.char ')'], mainBinopPrecedence, []⟩ =
        some (some (ExprAST.CallExprAST ['f', 'o', 'o'] [ExprAST.NumberExprAST 1,
          ExprAST.BinaryExprAST '+' (ExprAST.NumberExprAST 2) (ExprAST.NumberExprAST 3)]),
          ⟨[], m', []⟩) :=
  have h1 : ArgParses [Token.tok_number (1 : ℚ)] (ExprAST.NumberExprAST 1) :=
    ArgParses_of_run 3 (mapIndex mainBinopPrecedence ')').2 rfl
  have h2 : ArgParses [Token.tok_number (2 : ℚ), Token.char '+', Token.tok_number 3]
      (ExprAST.BinaryExprAST '+' (ExprAST.NumberExprAST 2) (ExprAST.NumberExprAST 3)) :=
    ArgParses_of_run 4 (mapIndex mainBinopPrecedence ')').2 rfl
  ⟨gettokN_example_call, h1, h2,
    (C3_call_parsing ['f', 'o', 'o']
      [([Token.tok_number (1 : ℚ)], ExprAST.NumberExprAST 1),
        ([Token.tok_number (2 : ℚ), Token.char '+', Token.tok_number 3],
          ExprAST.BinaryExprAST '+' (ExprAST.NumberExprAST 2) (ExprAST.NumberExprAST 3))]
      (by
        intro q hq
        simp only [List.mem_cons, List.mem_singleton, List.not_mem_nil, or_false] at hq
        rcases hq with rfl | rfl
        · exact h1
        · exact h2)
      [] mainBinopPrecedence [] DefaultTable_main).1⟩

/-! ## Prototypes and definitions (C4, C5) -/

theorem ParsePrototype_loop_identifier (A : List (List Char)) (t : Token D) (s : List Char)
    (r : List (Token D)) :
    ParsePrototype_loop A (t :: Token.tok_identifier s :: r) =
      ParsePrototype_loop (A ++ [s]) (Token.tok_identifier s :: r) := rfl

theorem ParsePrototype_loop_char (A : List (List Char)) (t : Token D) (c : Char)
    (r : List (Token D)) :
    ParsePrototype_loop A (t :: Token.char c :: r) = (A, Token.char c :: r) := rfl

theorem ParsePrototype_loop_names (names : List (List Char)) :
    ∀ (ArgNames : List (List Char)) (t : Token D) (rest : List (Token D)),
      ParsePrototype_loop ArgNames
          (t :: (names.map Token.tok_identifier ++ Token.char ')' :: rest)) =
        (ArgNames ++ names, Token.char ')' :: rest) := by
  induction names with
  | nil =>
    intro A t rest
    rw [List.map_nil, List.nil_append, ParsePrototype_loop_char, List.append_nil]
  | cons x xs ih =>
    intro A t rest
    rw [List.map_cons, List.cons_append, ParsePrototype_loop_identifier, ih,
      List.append_assoc, List.singleton_append]

/-- What the parameter loop of `ParsePrototype` does on any stream: it collects the
identifiers that follow the current token and stops at the first other token. -/
theorem ParsePrototype_loop_spec (tl : List (Token D)) :
    ∀ (A : List (List Char)) (t : Token D),
      ∃ names rest, tl = names.map Token.tok_identifier ++ rest ∧
        ParsePrototype_loop A (t :: tl) = (A ++ names, rest) := by
  induction tl with
  | nil => intro A t; exact ⟨[], [], rfl, by simp [ParsePrototype_loop]⟩
  | cons u r ih =>
    intro A t
    cases u with
    | tok_identifier s =>
      obtain ⟨names, rest, h1, h2⟩ := ih (A ++ [s]) (Token.tok_identifier s)
      refine ⟨s :: names, rest, by rw [h1]; rfl, ?_⟩
      rw [ParsePrototype_loop_identifier, h2, List.append_assoc, List.singleton_append]
    | tok_eof => exact ⟨[], _, rfl, by simp [ParsePrototype_loop]⟩
    | tok_def => exact ⟨[], _, rfl, by simp [ParsePrototype_loop]⟩
    | tok_extern => exact ⟨[], _, rfl, by simp [ParsePrototype_loop]⟩
    | tok_number v => exact ⟨[], _, rfl, by simp [ParsePrototype_loop]⟩
    | char c => exact ⟨[], _, rfl, by simp [ParsePrototype_loop]⟩

/-- A successful `ParsePrototype` has read `f ( n1 ... nk )`, and nothing else. -/
theorem ParsePrototype_inv {toks : List (Token D)} {m : List (Char × Int)} {err : List String}
    {p : PrototypeAST} {st' : State D} (h : ParsePrototype ⟨toks, m, err⟩ = (some p, st')) :
    ∃ f names rest, toks = Token.tok_identifier f :: Token.char '(' ::
        (names.map Token.tok_identifier ++ Token.char ')' :: rest) ∧
      p = ⟨f, names⟩ ∧ st' = ⟨rest, m, err⟩ := by
  rw [ParsePrototype] at h
  cases hc : CurTok (⟨toks, m, err⟩ : State D) with
  | tok_identifier f =>
    simp only [hc, getNextToken_mk] at h
    have ht := headD_eq_cons (s := toks) hc (by simp)
    cases ho : (CurTok (⟨toks.tail, m, err⟩ : State D)).isChar '(' with
    | false => simp [ho, LogErrorP, LogError] at h
    | true =>
      simp only [ho, Bool.not_true, Bool.false_eq_true, if_false] at h
      have ht2 := cons_of_isChar ho
      obtain ⟨names, rest, h1, h2⟩ := ParsePrototype_loop_spec toks.tail.tail []
        (Token.char '(' : Token D)
      rw [← ht2] at h2
      simp only [h2, List.nil_append] at h
      cases hcl : (CurTok (⟨rest, m, err⟩ : State D)).isChar ')' with
      | false => simp [hcl, LogErrorP, LogError] at h
      | true =>
        simp only [hcl, Bool.not_true, Bool.false_eq_true, if_false, getNextToken_mk,
          Prod.mk.injEq, Option.some.injEq] at h
        have hr := cons_of_isChar hcl
        refine ⟨f, names, rest.tail, ?_, h.1.symm, h.2.symm⟩
        rw [ht, ht2, h1, hr]
        simp
  | tok_eof => simp [hc, LogErrorP, LogError] at h
  | tok_def => simp [hc, LogErrorP, LogError] at h
  | tok_extern => simp [hc, LogErrorP, LogError] at h
  | tok_number v => simp [hc, LogErrorP, LogError] at h
  | char c => simp [hc, LogErrorP, LogError] at h

/-- The function `ParsePrototype` on the tokens `f ( n1 ... nk )`. -/
theorem ParsePrototype_tokens (f : List Char) (names : List (List Char))
    (rest : List (Token D)) (m : List (Char × Int)) (err : List String) :
    ParsePrototype ⟨Token.tok_identifier f :: Token.char '(' ::
        (names.map Token.tok_identifier ++ Token.char ')' :: rest), m, err⟩ =
      (some ⟨f, names⟩, ⟨rest, m, err⟩) := by
  simp only [ParsePrototype, CurTok_mk, List.headD_cons, getNextToken_mk, List.tail_cons,
    Token.isChar, beq_self_eq_true, Bool.not_true, Bool.false_eq_true, if_false,
    ParsePrototype_loop_names, List.nil_append]

/-- C4: when `ParsePrototype` parses the tokens `P` to the prototype `p` and
`ParseExpression` parses the tokens `E` to the body `b` (each as a whole input), then
`ParseDefinition` on `def P E` returns `FunctionAST p b`; the same holds when more input
`rest` follows, provided the prototype stops after `P` and the body after `E`; when the
prototype fails, `ParseDefinition` returns a null pointer; and when the body fails, it
returns a null pointer as well, never a function holding the prototype. -/
theorem C4_definition_parsing (fuel : Nat) :
    (∀ (P E : List (Token D)) (p : PrototypeAST) (b : ExprAST D)
        (m m1 m2 : List (Char × Int)) (err err1 err2 : List String),
      ParsePrototype ⟨P, m, err⟩ = (some p, ⟨[], m1, err1⟩) →
      ParseExpression fuel ⟨E, m1, err1⟩ = some (some b, ⟨[], m2, err2⟩) →
      ParseDefinition fuel ⟨Token.tok_def :: (P ++ E), m, err⟩ =
        some (some ⟨p, b⟩, ⟨[], m2, err2⟩)) ∧
    (∀ (P E rest : List (Token D)) (p : PrototypeAST) (b : ExprAST D)
        (m m1 m2 : List (Char × Int)) (err err1 err2 : List String),
      ParsePrototype ⟨P ++ (E ++ rest), m, err⟩ = (some p, ⟨E ++ rest, m1, err1⟩) →
      ParseExpression fuel ⟨E ++ rest, m1, err1⟩ = some (some b, ⟨rest, m2, err2⟩) →
      ParseDefinition fuel ⟨Token.tok_def :: (P ++ (E ++ rest)), m, err⟩ =
        some (some ⟨p, b⟩, ⟨rest, m2, err2⟩)) ∧
    (∀ (st st1 : State D), ParsePrototype (getNextToken st) = (none, st1) →
      ParseDefinition fuel st = some (none, st1)) ∧
    (∀ (st st1 st2 : State D) (p : PrototypeAST),
      ParsePrototype (getNextToken st) = (some p, st1) →
      ParseExpression fuel st1 = some (none, st2) →
      ParseDefinition fuel st = some (none, st2)) := by
  refine ⟨?_, ?_, ?_, ?_⟩
  · intro P E p b m m1 m2 err err1 err2 hP hE
    obtain ⟨f, names, rest, rfl, rfl, hst⟩ := ParsePrototype_inv hP
    simp only [State.mk.injEq] at hst
    obtain ⟨rfl, rfl, rfl⟩ := hst
    have hPE := ParsePrototype_tokens f names E m1 err1
    simp only [ParseDefinition, getNextToken_mk, List.tail_cons, List.cons_append,
      List.append_assoc, List.nil_append, hPE, hE]
  · intro P E rest p b m m1 m2 err err1 err2 hP hE
    simp only [ParseDefinition, getNextToken_mk, List.tail_cons, hP, hE]
  · intro st st1 hP
    simp only [ParseDefinition, hP]
  · intro st st1 st2 p hP hE
    simp only [ParseDefinition, hP, hE]

/-- Witness of C4 on the text `def foo(a b) a+b`: its tokens, and the definition parsed
from them. -/
theorem C4_witness :
    gettokN strtodExact 10 (LexState.init "def foo(a b) a+b".toList) =
      [Token.tok_def, Token.tok_identifier ['f', 'o', 'o'], Token.char '(',
        Token.tok_identifier ['a'], Token.tok_identifier ['b'], Token.char ')',
        Token.tok_identifier ['a'], Token.char '+', Token.tok_identifier ['b'],
        Token.tok_eof] ∧
    ParseDefinition 4
        ⟨[Token.tok_def, Token.tok_identifier ['f', 'o', 'o'], Token.char '(',
          Token.tok_identifier ['a'], Token.tok_identifier ['b'], Token.char ')',
          Token.tok_identifier ['a'], Token.char '+', (Token.tok_identifier ['b'] : Token ℚ)],
          mainBinopPrecedence, []⟩ =
      some (some ⟨⟨['f', 'o', 'o'], [['a'], ['b']]⟩,
        ExprAST.BinaryExprAST '+' (ExprAST.VariableExprAST ['a'])
          (ExprAST.VariableExprAST ['b'])⟩, ⟨[], mainBinopPrecedence, []⟩) :=
  ⟨gettokN_example_definition,
    (C4_definition_parsing 4).1
      [Token.tok_identifier ['f', 'o', 'o'], Token.char '(', Token.tok_identifier ['a'],
        Token.tok_identifier ['b'], Token.char ')']
      [Token.tok_identifier ['a'], Token.char '+', Token.tok_identifier ['b']]
      ⟨['f', 'o', 'o'], [['a'], ['b']]⟩ _ mainBinopPrecedence mainBinopPrecedence
      mainBinopPrecedence [] [] [] rfl rfl⟩

/-- C5: for every identifier `f` and every list of identifiers `n1 .. nk` (`k ≥ 0`,
duplicates allowed), `ParsePrototype` on the tokens `f ( n1 ... nk )` without commas, and
`ParseExtern` on those tokens after the keyword, return `PrototypeAST f [n1, ..., nk]` with
the names in source order, write nothing to `stderr` and leave as current token the one
after the `)`.  The scanner turns the text `extern sin(x)` into such tokens. -/
theorem C5_prototype_parsing (f : List Char) (names : List (List Char))
    (rest : List (Token D)) (m : List (Char × Int)) (err : List String) :
    ParsePrototype ⟨Token.tok_identifier f :: Token.char '(' ::
        (names.map Token.tok_identifier ++ Token.char ')' :: rest), m, err⟩ =
      (some ⟨f, names⟩, ⟨rest, m, err⟩) ∧
    ParseExtern ⟨Token.tok_extern :: Token.tok_identifier f :: Token.char '(' ::
        (names.map Token.tok_identifier ++ Token.char ')' :: rest), m, err⟩ =
      (some ⟨f, names⟩, ⟨rest, m, err⟩) ∧
    (∀ strtod : List Char → D,
      gettokN strtod 6 (LexState.init "extern sin(x)".toList) =
        [Token.tok_extern, Token.tok_identifier ['s', 'i', 'n'], Token.char '(',
          Token.tok_identifier ['x'], Token.char ')', Token.tok_eof]) := by
  refine ⟨ParsePrototype_tokens f names rest m err, ?_, fun _ => rfl⟩
  rw [ParseExtern, getNextToken_mk]
  exact ParsePrototype_tokens f names rest m err

/-! ## Parentheses (C6, C7) -/

/-- C6, as stated, fails: the token sequence `1` is parsed successfully by `ParseExpression`
(as a whole input), `+` is a token other than `)`, and yet on `( 1` followed by `+ 2 )`
`ParseParenExpr` succeeds; and on `( 1` followed by `+` and the end of the input it fails
with another diagnostic than `expected ')'`. -/
theorem C6_counterexample :
    ParseExpression 3 ⟨[Token.tok_number (1 : ℚ)], mainBinopPrecedence, []⟩ =
      some (some (ExprAST.NumberExprAST 1), ⟨[], mainBinopPrecedence, []⟩) ∧
    (Token.char '+' : Token ℚ).isChar ')' = false ∧
    ParseParenExpr 5 ⟨[Token.char '(', Token.tok_number (1 : ℚ), Token.char '+',
        Token.tok_number 2, Token.char ')'], mainBinopPrecedence, []⟩ =
      some (some (ExprAST.BinaryExprAST '+' (ExprAST.NumberExprAST 1)
        (ExprAST.NumberExprAST 2)), ⟨[], (mapIndex mainBinopPrecedence ')').2, []⟩) ∧
    ParseParenExpr 5 ⟨[Token.char '(', Token.tok_number (1 : ℚ), Token.char '+'],
        mainBinopPrecedence, []⟩ =
      some (none, ⟨[], mainBinopPrecedence,
        ["Erro: Unkown token when expecting an expression\n"]⟩) :=
  ⟨rfl, rfl, rfl, rfl⟩

/-- C6, amended: when `ParseExpression` on the tokens `E` followed by the stream `rest`
returns a tree having consumed exactly `E`, and `rest` does not start with `)` (another
token, or the end of the input), then `ParseParenExpr`, and hence `ParsePrimary` and
`ParseExpression`, on `( E` followed by `rest` return a null pointer, write the diagnostic
`expected ')'` and nothing else to `stderr`, and leave the offending token current.  This is
so in particular when `E` is parsed successfully as a whole input and `rest` is the end of
the input or starts with a token other than `)` that is neither an operator of the table
nor `(`. -/
theorem C6_missing_close_paren (fuel : Nat) (E : List (Token D)) (e : ExprAST D)
    (m m' : List (Char × Int)) (err err' : List String) :
    (∀ rest : List (Token D),
      ParseExpression fuel ⟨E ++ rest, m, err⟩ = some (some e, ⟨rest, m', err'⟩) →
      (CurTok (⟨rest, m', err'⟩ : State D)).isChar ')' = false →
      ParseParenExpr (fuel + 1) ⟨Token.char '(' :: (E ++ rest), m, err⟩ =
        some (none, ⟨rest, m', err' ++ ["Erro: expected ')'\n"]⟩) ∧
      ParsePrimary (fuel + 2) ⟨Token.char '(' :: (E ++ rest), m, err⟩ =
        some (none, ⟨rest, m', err' ++ ["Erro: expected ')'\n"]⟩) ∧
      ParseExpression (fuel + 3) ⟨Token.char '(' :: (E ++ rest), m, err⟩ =
        some (none, ⟨rest, m', err' ++ ["Erro: expected ')'\n"]⟩)) ∧
    (DefaultTable m →
      ParseExpression fuel ⟨E, m, err⟩ = some (some e, ⟨[], m', err'⟩) →
      ∀ rest : List (Token D),
        precedence (CurTok (⟨rest, m, err⟩ : State D)) = -1 →
        (CurTok (⟨rest, m, err⟩ : State D)).isChar '(' = false →
        (CurTok (⟨rest, m, err⟩ : State D)).isChar ')' = false →
        ∃ m2, DefaultTable m2 ∧
          ParseParenExpr (fuel + 1) ⟨Token.char '(' :: (E ++ rest), m, err⟩ =
            some (none, ⟨rest, m2, err ++ ["Erro: expected ')'\n"]⟩) ∧
          ParsePrimary (fuel + 2) ⟨Token.char '(' :: (E ++ rest), m, err⟩ =
            some (none, ⟨rest, m2, err ++ ["Erro: expected ')'\n"]⟩) ∧
          ParseExpression (fuel + 3) ⟨Token.char '(' :: (E ++ rest), m, err⟩ =
            some (none, ⟨rest, m2, err ++ ["Erro: expected ')'\n"]⟩)) := by
  have key : ∀ (rest : List (Token D)) (m1 : List (Char × Int)) (err1 : List String),
      ParseExpression fuel ⟨E ++ rest, m, err⟩ = some (some e, ⟨rest, m1, err1⟩) →
      (CurTok (⟨rest, m1, err1⟩ : State D)).isChar ')' = false →
      ParseParenExpr (fuel + 1) ⟨Token.char '(' :: (E ++ rest), m, err⟩ =
        some (none, ⟨rest, m1, err1 ++ ["Erro: expected ')'\n"]⟩) ∧
      ParsePrimary (fuel + 2) ⟨Token.char '(' :: (E ++ rest), m, err⟩ =
        some (none, ⟨rest, m1, err1 ++ ["Erro: expected ')'\n"]⟩) ∧
      ParseExpression (fuel + 3) ⟨Token.char '(' :: (E ++ rest), m, err⟩ =
        some (none, ⟨rest, m1, err1 ++ ["Erro: expected ')'\n"]⟩) := by
    intro rest m1 err1 h hrest
    have h1 : ParseParenExpr (fuel + 1) ⟨Token.char '(' :: (E ++ rest), m, err⟩ =
        some (none, ⟨rest, m1, err1 ++ ["Erro: expected ')'\n"]⟩) := by
      rw [ParseParenExpr, getNextToken_mk]
      simp only [List.tail_cons, h, hrest]
      rfl
    have h2 : ParsePrimary (fuel + 2) ⟨Token.char '(' :: (E ++ rest), m, err⟩ =
        some (none, ⟨rest, m1, err1 ++ ["Erro: expected ')'\n"]⟩) := by
      rw [ParsePrimary]
      simp only [CurTok_mk, List.headD_cons, beq_self_eq_true, if_true]
      exact h1
    refine ⟨h1, h2, ?_⟩
    rw [ParseExpression, h2]
  refine ⟨fun rest h hrest => key rest m' err' h hrest, ?_⟩
  intro hm h rest hprec hopen hclose
  have h0 : ParseExpression fuel ⟨E ++ [], m, err⟩ = some (some e, ⟨[], m', err'⟩) := by
    rw [List.append_nil]; exact h
  obtain ⟨-, -, rep⟩ := ParseExpression_transfer hm h0
  obtain ⟨m2, hm2, h2⟩ := rep rest m err (Or.inr ⟨hprec, hopen⟩) hm
  exact ⟨m2, hm2, key rest m2 err h2 hclose⟩

/-- Witness of C6 on the text `(1+2`: its tokens, and the failure of `ParseParenExpr` on
them. -/
theorem C6_witness :
    gettokN strtodExact 5 (LexState.init "(1+2".toList) =
      [Token.char '(', Token.tok_number 1, Token.char '+', Token.tok_number 2,
        Token.tok_eof] ∧
    ParseParenExpr 5 ⟨[Token.char '(', Token.tok_number (1 : ℚ), Token.char '+',
        Token.tok_number 2], mainBinopPrecedence, []⟩ =
      some (none, ⟨[], mainBinopPrecedence, ["Erro: expected ')'\n"]⟩) :=
  ⟨gettokN_example_unclosed,
    ((C6_missing_close_paren 4 [Token.tok_number (1 : ℚ), Token.char '+', Token.tok_number 2]
      (ExprAST.BinaryExprAST '+' (ExprAST.NumberExprAST 1) (ExprAST.NumberExprAST 2))
      mainBinopPrecedence mainBinopPrecedence [] []).1 [] rfl rfl).1⟩

/-- C7: when `ParseExpression` on the tokens `E` followed by `)` returns the tree `e` and
stops at that `)`, then `ParsePrimary` on `( E )` returns exactly `e`, with no node for the
parentheses, and leaves as current token the one after the `)`; and `ParseExpression` on
`( E )` as a whole input and on `E` as a whole input both return `e`, with the end of the
input as current token and nothing written to `stderr`. -/
theorem C7_parentheses_no_node (fuel : Nat) (E rest : List (Token D)) (e : ExprAST D)
    (m m' : List (Char × Int)) (err err' : List String) (hm : DefaultTable m)
    (h : ParseExpression fuel ⟨E ++ Token.char ')' :: rest, m, err⟩ =
      some (some e, ⟨Token.char ')' :: rest, m', err'⟩)) :
    ParsePrimary (fuel + 2) ⟨Token.char '(' :: (E ++ Token.char ')' :: rest), m, err⟩ =
      some (some e, ⟨rest, m', err'⟩) ∧
    (∃ m1, ParseExpression (fuel + 3) ⟨Token.char '(' :: (E ++ [Token.char ')']), m, err⟩ =
      some (some e, ⟨[], m1, err⟩)) ∧
    (∃ m2, ParseExpression fuel ⟨E, m, err⟩ = some (some e, ⟨[], m2, err⟩)) := by
  obtain ⟨-, -, rep⟩ := ParseExpression_transfer hm h
  refine ⟨?_, ?_, ?_⟩
  · rw [ParsePrimary]
    simp only [CurTok_mk, List.headD_cons, beq_self_eq_true, if_true]
    rw [ParseParenExpr, getNextToken_mk]
    simp only [List.tail_cons, h]
    rfl
  · obtain ⟨m1, hm1, h1⟩ := rep [Token.char ')'] m err (Or.inl rfl) hm
    obtain ⟨m2, -, hG⟩ := GetTokPrecedence_eq (D := D) [] m1 err hm1
    refine ⟨m2, ?_⟩
    have hP : ParsePrimary (fuel + 2) ⟨Token.char '(' :: (E ++ [Token.char ')']), m, err⟩ =
        some (some e, ⟨[], m1, err⟩) := by
      rw [ParsePrimary]
      simp only [CurTok_mk, List.headD_cons, beq_self_eq_true, if_true]
      rw [ParseParenExpr, getNextToken_mk]
      simp only [List.tail_cons, h1]
      rfl
    rw [ParseExpression, hP]
    simp only
    rw [ParseBinOpRHS, hG]
    rfl
  · obtain ⟨m2, -, h2⟩ := rep [] m err (Or.inr ⟨rfl, rfl⟩) hm
    rw [List.append_nil] at h2
    exact ⟨m2, h2⟩

/-- Witness of C7 on the text `(1+2)`: its tokens, and the tree parsed from them. -/
theorem C7_witness :
    gettokN strtodExact 6 (LexState.init "(1+2)".toList) =
      [Token.char '(', Token.tok_number 1, Token.char '+', Token.tok_number 2,
        Token.char ')', Token.tok_eof] ∧
    ParsePrimary 6 ⟨[Token.char '(', Token.tok_number (1 : ℚ), Token.char '+',
        Token.tok_number 2, Token.char ')'], mainBinopPrecedence, []⟩ =
      some (some (ExprAST.BinaryExprAST '+' (ExprAST.NumberExprAST 1)
        (ExprAST.NumberExprAST 2)), ⟨[], (mapIndex mainBinopPrecedence ')').2, []⟩) :=
  ⟨gettokN_example_parenthesised,
    (C7_parentheses_no_node 4 [Token.tok_number (1 : ℚ), Token.char '+', Token.tok_number 2] []
      (ExprAST.BinaryExprAST '+' (ExprAST.NumberExprAST 1) (ExprAST.NumberExprAST 2))
      mainBinopPrecedence (mapIndex mainBinopPrecedence ')').2 [] [] DefaultTable_main rfl).1⟩

/-! ## Words (C8) -/

theorem isspace_of_isalpha {c : Char} (h : isalpha c = true) : isspace c = false := by
  simp only [isalpha, Bool.or_eq_true, Bool.and_eq_true, decide_eq_true_eq] at h
  simp only [isspace, Bool.or_eq_false_iff, Bool.and_eq_false_iff, decide_eq_false_iff_not,
    beq_eq_false_iff_ne, ne_eq]
  omega

theorem skipSpaces_not_space {c : Char} (h : isspace c = false) (input : List Char) :
    skipSpaces (some c) input = (some c, input) := by
  cases input <;> simp [skipSpaces, h]

theorem skipSpaces_init (c : Char) (cs : List Char) (h : isspace c = false) :
    skipSpaces (some ' ') (c :: cs) = (some c, cs) := by
  have h0 : isspace ' ' = true := by decide
  rw [skipSpaces, if_pos h0, skipSpaces_not_space h]

theorem readIdentifier_all (cs : List Char) (h : cs.all isalnum = true) :
    ∀ acc, readIdentifier acc cs = (acc ++ cs, none, []) := by
  induction cs with
  | nil => intro acc; simp [readIdentifier]
  | cons d ds ih =>
    intro acc
    simp only [List.all_cons, Bool.and_eq_true] at h
    rw [readIdentifier, if_pos h.1, ih h.2]
    simp

/-- C8: for every word `w` matching `[a-zA-Z][a-zA-Z0-9]*`, the calls of `gettok` on the
input `w` from the initial scanner state return exactly one token and then `tok_eof` for
ever; the token is `tok_def` if `w` is `def`, `tok_extern` if `w` is `extern`, and otherwise
`tok_identifier` with the text `w`.  In particular `Def`, `define`, `def1` and `externs` are
identifiers. -/
theorem C8_word_classification (strtod : List Char → D) (w : List Char)
    (hw : isWord w = true) :
    (∀ n, gettokN strtod (n + 1) (LexState.init w) =
      (if w = ['d', 'e', 'f'] then Token.tok_def
        else if w = ['e', 'x', 't', 'e', 'r', 'n'] then Token.tok_extern
        else Token.tok_identifier w) :: List.replicate n Token.tok_eof) ∧
    gettokN strtod 2 (LexState.init "Def".toList) =
      [Token.tok_identifier "Def".toList, Token.tok_eof] ∧
    gettokN strtod 2 (LexState.init "define".toList) =
      [Token.tok_identifier "define".toList, Token.tok_eof] ∧
    gettokN strtod 2 (LexState.init "def1".toList) =
      [Token.tok_identifier "def1".toList, Token.tok_eof] ∧
    gettokN strtod 2 (LexState.init "externs".toList) =
      [Token.tok_identifier "externs".toList, Token.tok_eof] := by
  refine ⟨?_, rfl, rfl, rfl, rfl⟩
  intro n
  cases w with
  | nil => simp [isWord] at hw
  | cons c cs =>
    simp only [isWord, Bool.and_eq_true] at hw
    have h1 : gettokAux strtod 1 (LexState.init (c :: cs)) =
        some ((if c :: cs = ['d', 'e', 'f'] then Token.tok_def
          else if c :: cs = ['e', 'x', 't', 'e', 'r', 'n'] then Token.tok_extern
          else Token.tok_identifier (c :: cs)), ⟨none, []⟩) := by
      rw [gettokAux]
      simp only [LexState.init, skipSpaces_init c cs (isspace_of_isalpha hw.1), hw.1, if_true,
        readIdentifier_all cs hw.2, List.singleton_append]
      split
      · rfl
      · split <;> rfl
    rw [gettokN, gettok_eq strtod 1 _ _ h1, gettokN_eof]

/-- Witness of C8 on the word `foo1`. -/
theorem C8_witness :
    isWord "foo1".toList = true ∧
    gettokN strtodExact 3 (LexState.init "foo1".toList) =
      [Token.tok_identifier "foo1".toList, Token.tok_eof, Token.tok_eof] :=
  ⟨by decide, (C8_word_classification strtodExact "foo1".toList (by decide)).1 2⟩

/-! ## Numeric literals (C9) -/

theorem isspace_of_isNumChar {c : Char} (h : isNumChar c = true) : isspace c = false := by
  simp only [isNumChar, isdigit, Bool.or_eq_true, Bool.and_eq_true, decide_eq_true_eq,
    beq_iff_eq] at h
  simp only [isspace, Bool.or_eq_false_iff, Bool.and_eq_false_iff, decide_eq_false_iff_not,
    beq_eq_false_iff_ne, ne_eq]
  rcases h with h | h
  · omega
  · subst h; decide

theorem isalpha_of_isNumChar {c : Char} (h : isNumChar c = true) : isalpha c = false := by
  simp only [isNumChar, isdigit, Bool.or_eq_true, Bool.and_eq_true, decide_eq_true_eq,
    beq_iff_eq] at h
  simp only [isalpha, Bool.or_eq_false_iff, Bool.and_eq_false_iff, decide_eq_false_iff_not]
  rcases h with h | h
  · omega
  · subst h; decide

theorem readNumber_all (cs : List Char) (h : cs.all isNumChar = true) :
    ∀ acc c, readNumber acc c cs = (acc ++ c :: cs, none, []) := by
  induction cs with
  | nil => intro acc c; simp [readNumber]
  | cons d ds ih =>
    intro acc c
    simp only [List.all_cons, Bool.and_eq_true] at h
    have hd : (isdigit d || d == '.') = true := h.1
    rw [readNumber, if_pos hd, ih h.2]
    simp

/-- C9: for every numeric literal `s` made of digits and at most one decimal point, the
calls of `gettok` on the input `s` from the initial scanner state return exactly one
`tok_number` and then `tok_eof` for ever, and the value of the number is what `strtod`
returns for the whole of `s`: the scanner takes the whole run of digits and points as one
literal and hands all of it to `strtod`. -/
theorem C9_numeric_literal (strtod : List Char → D) (s : List Char)
    (hs : isNumeral s = true) (n : Nat) :
    gettokN strtod (n + 1) (LexState.init s) =
      Token.tok_number (strtod s) :: List.replicate n Token.tok_eof := by
  simp only [isNumeral, Bool.and_eq_true, Bool.not_eq_true', decide_eq_true_eq] at hs
  obtain ⟨⟨hne, hall⟩, -⟩ := hs
  cases s with
  | nil => simp at hne
  | cons c cs =>
    simp only [List.all_cons, Bool.and_eq_true] at hall
    have hd : (isdigit c || c == '.') = true := hall.1
    have h1 : gettokAux strtod 1 (LexState.init (c :: cs)) =
        some (Token.tok_number (strtod (c :: cs)), ⟨none, []⟩) := by
      rw [gettokAux]
      simp only [LexState.init, skipSpaces_init c cs (isspace_of_isNumChar hall.1),
        isalpha_of_isNumChar hall.1, Bool.false_eq_true, if_false, hd, if_true,
        readNumber_all cs hall.2, List.nil_append]
    rw [gettokN, gettok_eq strtod 1 _ _ h1, gettokN_eof]

/-- Witness of C9 on the text `1.5`. -/
theorem C9_witness :
    isNumeral "1.5".toList = true ∧
    gettokN strtodExact 2 (LexState.init "1.5".toList) =
      [Token.tok_number (strtodExact "1.5".toList), Token.tok_eof] ∧
    strtodExact "1.5".toList = 3 / 2 :=
  ⟨by decide, C9_numeric_literal strtodExact "1.5".toList (by decide) 1,
    by
      have h : strtodExact "1.5".toList = ((15 : Nat) : ℚ) / 10 ^ 1 := rfl
      rw [h]; norm_num⟩

/-! ## Comments (C10) -/

theorem skipComment_line (c t : List Char) (hc : ∀ x ∈ c, x ≠ '\n' ∧ x ≠ '\r') :
    skipComment (c ++ '\n' :: t) = (some '\n', t) := by
  induction c with
  | nil => rfl
  | cons x xs ih =>
    have hx := hc x (List.mem_cons_self _ _)
    have h1 : (x != '\n' && x != '\r') = true := by simp [hx.1, hx.2]
    rw [List.cons_append, skipComment, if_pos h1]
    exact ih (fun y hy => hc y (List.mem_cons_of_mem _ hy))

theorem skipComment_end (c : List Char) (hc : ∀ x ∈ c, x ≠ '\n' ∧ x ≠ '\r') :
    skipComment c = (none, []) := by
  induction c with
  | nil => rfl
  | cons x xs ih =>
    have hx := hc x (List.mem_cons_self _ _)
    have h1 : (x != '\n' && x != '\r') = true := by simp [hx.1, hx.2]
    rw [skipComment, if_pos h1]
    exact ih (fun y hy => hc y (List.mem_cons_of_mem _ hy))

theorem gettokAux_newline (strtod : List Char → D) (fuel : Nat) (t : List Char) :
    gettokAux strtod fuel ⟨some '\n', t⟩ = gettokAux strtod fuel (LexState.init t) := by
  cases fuel with
  | zero => rfl
  | succ n =>
    have h : skipSpaces (some '\n') t = skipSpaces (some ' ') t := by
      cases t <;> rfl
    rw [gettokAux, gettokAux]
    simp only [LexState.init, h]

theorem gettokAux_comment (strtod : List Char → D) (fuel : Nat) (c t : List Char)
    (hc : ∀ x ∈ c, x ≠ '\n' ∧ x ≠ '\r') :
    gettokAux strtod (fuel + 1) (LexState.init ('#' :: (c ++ '\n' :: t))) =
      gettokAux strtod fuel (LexState.init t) := by
  rw [gettokAux, ← gettokAux_newline]
  have h0 : skipSpaces (some ' ') ('#' :: (c ++ '\n' :: t)) = (some '#', c ++ '\n' :: t) :=
    skipSpaces_init _ _ (by decide)
  have h1 : isalpha '#' = false := by decide
  have h2 : (isdigit '#' || '#' == '.') = false := by decide
  simp only [LexState.init, h0, h1, h2, Bool.false_eq_true, if_false, beq_self_eq_true,
    if_true, skipComment_line c t hc]

/-- C10: for every string `c` without newline and carriage return and every string `t`,
every call of `gettok` on the input `#c\nt` returns the token that the same call returns on
the input `t`, so the comment gives no token and what follows the newline is scanned as
usual; and on the input `#c`, with no newline at the end, every call returns `tok_eof`. -/
theorem C10_comments_invisible (strtod : List Char → D) (c t : List Char)
    (hc : ∀ x ∈ c, x ≠ '\n' ∧ x ≠ '\r') :
    (∀ n, gettokN strtod n (LexState.init ('#' :: (c ++ '\n' :: t))) =
      gettokN strtod n (LexState.init t)) ∧
    (∀ n, gettokN strtod n (LexState.init ('#' :: c)) = List.replicate n Token.tok_eof) := by
  constructor
  · intro n
    obtain ⟨r, hr⟩ := gettokAux_isSome strtod ((LexState.init t).input.length + 1)
      (LexState.init t) (Nat.lt_succ_self _)
    have h1 := gettok_eq strtod _ _ _ hr
    have h2 := gettok_eq strtod _ _ _ ((gettokAux_comment strtod _ c t hc).trans hr)
    cases n with
    | zero => rfl
    | succ n => rw [gettokN, gettokN, h1, h2]
  · intro n
    have h0 : skipSpaces (some ' ') ('#' :: c) = (some '#', c) :=
      skipSpaces_init _ _ (by decide)
    have h1 : isalpha '#' = false := by decide
    have h2 : (isdigit '#' || '#' == '.') = false := by decide
    have h : gettokAux strtod 1 (LexState.init ('#' :: c)) =
        some (Token.tok_eof, ⟨none, []⟩) := by
      rw [gettokAux]
      simp only [LexState.init, h0, h1, h2, Bool.false_eq_true, if_false, beq_self_eq_true,
        if_true, skipComment_end c hc]
    cases n with
    | zero => rfl
    | succ n => rw [gettokN, gettok_eq strtod 1 _ _ h, gettokN_eof]; rfl

/-- Witness of C10 on the inputs `# sum\nx+1` and `# sum`. -/
theorem C10_witness :
    gettokN strtodExact 4 (LexState.init "# sum\nx+1".toList) =
      gettokN strtodExact 4 (LexState.init "x+1".toList) ∧
    gettokN strtodExact 4 (LexState.init "x+1".toList) =
      [Token.tok_identifier ['x'], Token.char '+', Token.tok_number (strtodExact ['1']),
        Token.tok_eof] ∧
    gettokN strtodExact 2 (LexState.init "# sum".toList) = [Token.tok_eof, Token.tok_eof] :=
  have h := C10_comments_invisible strtodExact " sum".toList "x+1".toList (by decide)
  ⟨h.1 4, rfl, h.2 2⟩

/-! ## The scanner is total and makes progress (C11) -/

theorem skipSpaces_pending (input : List Char) :
    ∀ (l : Option Char) (c : Char) (rest : List Char),
      skipSpaces l input = (some c, rest) →
      isspace c = false ∧ rest.length + 1 ≤ pending ⟨l, input⟩ := by
  induction input with
  | nil =>
    intro l c rest h
    cases l with
    | none => simp [skipSpaces] at h
    | some d =>
      simp only [skipSpaces] at h
      split at h
      · simp at h
      · rename_i hd
        simp only [Prod.mk.injEq, Option.some.injEq] at h
        obtain ⟨rfl, rfl⟩ := h
        simp [pending, hd]
  | cons x xs ih =>
    intro l c rest h
    cases l with
    | none => simp [skipSpaces] at h
    | some d =>
      simp only [skipSpaces] at h
      split at h
      · rename_i hd
        obtain ⟨h1, h2⟩ := ih _ _ _ h
        refine ⟨h1, ?_⟩
        simp only [pending, hd, if_true, List.length_cons] at h2 ⊢
        split at h2 <;> omega
      · rename_i hd
        simp only [Prod.mk.injEq, Option.some.injEq] at h
        obtain ⟨rfl, rfl⟩ := h
        simp [pending, hd]

theorem pending_le (l : Option Char) (input : List Char) :
    pending ⟨l, input⟩ ≤ input.length + (if l.isSome then 1 else 0) := by
  cases l with
  | none => simp [pending]
  | some c => simp only [pending, Option.isSome_some, if_true]; split <;> omega

theorem readIdentifier_length (input : List Char) :
    ∀ (acc I : List Char) (l : Option Char) (rest : List Char),
      readIdentifier acc input = (I, l, rest) →
      rest.length + (if l.isSome then 1 else 0) ≤ input.length := by
  induction input with
  | nil =>
    intro acc I l rest h
    simp only [readIdentifier, Prod.mk.injEq] at h
    obtain ⟨-, rfl, rfl⟩ := h
    simp
  | cons x xs ih =>
    intro acc I l rest h
    simp only [readIdentifier] at h
    split at h
    · have := ih _ _ _ _ h
      simp only [List.length_cons]; omega
    · simp only [Prod.mk.injEq] at h
      obtain ⟨-, rfl, rfl⟩ := h
      simp

theorem readNumber_length (input : List Char) :
    ∀ (acc : List Char) (c : Char) (N : List Char) (l : Option Char) (rest : List Char),
      readNumber acc c input = (N, l, rest) →
      rest.length + (if l.isSome then 1 else 0) ≤ input.length := by
  induction input with
  | nil =>
    intro acc c N l rest h
    simp only [readNumber, Prod.mk.injEq] at h
    obtain ⟨-, rfl, rfl⟩ := h
    simp
  | cons x xs ih =>
    intro acc c N l rest h
    simp only [readNumber] at h
    split at h
    · have := ih _ _ _ _ _ h
      simp only [List.length_cons]; omega
    · simp only [Prod.mk.injEq] at h
      obtain ⟨-, rfl, rfl⟩ := h
      simp

theorem skipComment_isspace (input : List Char) (c : Char) (rest : List Char)
    (h : skipComment input = (some c, rest)) : isspace c = true := by
  induction input with
  | nil => simp [skipComment] at h
  | cons d ds ih =>
    simp only [skipComment] at h
    split at h
    · exact ih h
    · rename_i hd
      simp only [Prod.mk.injEq, Option.some.injEq] at h
      rw [← h.1]
      simp only [Bool.and_eq_true, bne_iff_ne, ne_eq, not_and_or, not_not] at hd
      rcases hd with rfl | rfl <;> decide

/-- What one call of the body of `gettok` does to the scanner state: a token other than
`tok_eof` uses up at least one pending character, and `tok_eof` leaves `LastChar == EOF`. -/
theorem gettokAux_progress (strtod : List Char → D) (fuel : Nat) :
    ∀ (st st' : LexState) (t : Token D), gettokAux strtod fuel st = some (t, st') →
      (t ≠ Token.tok_eof → pending st' < pending st) ∧
      (t = Token.tok_eof → st'.LastChar = none) := by
  induction fuel with
  | zero => intro st st' t h; simp [gettokAux] at h
  | succ n ih =>
    intro st st' t h
    rw [gettokAux] at h
    rcases hsk : skipSpaces st.LastChar st.input with ⟨_ | c, input⟩ <;> simp only [hsk] at h
    · simp only [Option.some.injEq, Prod.mk.injEq] at h
      obtain ⟨rfl, rfl⟩ := h
      exact ⟨fun h => absurd rfl h, fun _ => rfl⟩
    · obtain ⟨hc, hlen⟩ := skipSpaces_pending _ _ _ _ hsk
      replace hlen : input.length + 1 ≤ pending st := hlen
      by_cases ha : isalpha c = true
      · simp only [ha, if_true] at h
        rcases hri : readIdentifier [c] input with ⟨I, L, inp⟩
        have hl := readIdentifier_length _ _ _ _ _ hri
        have hp := pending_le L inp
        simp only [hri] at h
        split_ifs at h <;>
          (simp only [Option.some.injEq, Prod.mk.injEq] at h
           obtain ⟨rfl, rfl⟩ := h
           exact ⟨fun _ => by omega, fun h => by simp at h⟩)
      · simp only [ha, if_false] at h
        by_cases hd : (isdigit c || c == '.') = true
        · simp only [hd, if_true] at h
          rcases hrn : readNumber [] c input with ⟨N, L, inp⟩
          have hl := readNumber_length _ _ _ _ _ _ hrn
          have hp := pending_le L inp
          simp only [hrn, Option.some.injEq, Prod.mk.injEq] at h
          obtain ⟨rfl, rfl⟩ := h
          exact ⟨fun _ => by omega, fun h => by simp at h⟩
        · simp only [hd, if_false] at h
          by_cases hh : (c == '#') = true
          · simp only [hh, if_true] at h
            rcases hs : skipComment input with ⟨_ | c', inp⟩ <;> simp only [hs] at h
            · cases h
              exact ⟨fun h => absurd rfl h, fun _ => rfl⟩
            · obtain ⟨h1, h2⟩ := ih _ _ _ h
              refine ⟨fun ht => ?_, h2⟩
              have h3 := h1 ht
              have h4 := skipComment_length _ _ _ hs
              have h5 := skipComment_isspace _ _ _ hs
              have h6 : pending ⟨some c', inp⟩ = inp.length := by simp [pending, h5]
              omega
          · simp only [hh, if_false] at h
            rcases hg : getchar input with ⟨L, inp⟩
            have hl : inp.length + (if L.isSome then 1 else 0) ≤ input.length := by
              cases input with
              | nil => simp only [getchar, Prod.mk.injEq] at hg; obtain ⟨rfl, rfl⟩ := hg; simp
              | cons x xs =>
                simp only [getchar, Prod.mk.injEq] at hg; obtain ⟨rfl, rfl⟩ := hg; simp
            have hp := pending_le L inp
            simp only [hg, Option.some.injEq, Prod.mk.injEq] at h
            obtain ⟨rfl, rfl⟩ := h
            exact ⟨fun _ => by omega, fun h => by simp at h⟩

theorem gettok_spec (strtod : List Char → D) (st : LexState) :
    gettokAux strtod (st.input.length + 1) st = some (gettok strtod st) := by
  obtain ⟨r, hr⟩ := gettokAux_isSome strtod (st.input.length + 1) st (Nat.lt_succ_self _)
  rw [gettok_eq strtod _ st r hr, hr]

theorem gettok_EOF (strtod : List Char → D) (input : List Char) :
    gettok strtod ⟨none, input⟩ = (Token.tok_eof, ⟨none, input⟩) := by
  apply gettok_eq strtod 1
  cases input <;> rfl

theorem gettokN_EOF (strtod : List Char → D) (input : List Char) (n : Nat) :
    gettokN strtod n ⟨none, input⟩ = List.replicate n Token.tok_eof := by
  induction n with
  | zero => rfl
  | succ n ih => rw [gettokN, gettok_EOF, ih]; rfl

theorem gettok_progress (strtod : List Char → D) (st : LexState) :
    ((gettok strtod st).1 ≠ Token.tok_eof → pending (gettok strtod st).2 < pending st) ∧
    ((gettok strtod st).1 = Token.tok_eof → (gettok strtod st).2.LastChar = none) :=
  gettokAux_progress strtod _ st _ _ (gettok_spec strtod st)

theorem gettokN_after_eof (strtod : List Char → D) (st : LexState)
    (h : (gettok strtod st).1 = Token.tok_eof) (n : Nat) :
    gettokN strtod n (gettok strtod st).2 = List.replicate n Token.tok_eof := by
  have h1 := (gettok_progress strtod st).2 h
  rcases hst : (gettok strtod st).2 with ⟨l, input⟩
  rw [hst] at h1
  simp only at h1
  subst h1
  exact gettokN_EOF strtod input n

theorem gettokN_succ (strtod : List Char → D) (n : Nat) (st : LexState) :
    gettokN strtod (n + 1) st =
      (gettok strtod st).1 :: gettokN strtod n (gettok strtod st).2 := rfl

theorem gettokN_of_eof (strtod : List Char → D) (st : LexState)
    (h : (gettok strtod st).1 = Token.tok_eof) (n : Nat) :
    gettokN strtod n st = List.replicate n Token.tok_eof := by
  cases n with
  | zero => rfl
  | succ n => rw [gettokN_succ, h, gettokN_after_eof strtod st h]; rfl

theorem gettokN_bound (strtod : List Char → D) (n : Nat) :
    ∀ st : LexState, pending st ≤ n →
      ∃ k, k ≤ n ∧ Token.tok_eof ∉ gettokN strtod k st ∧
        ∀ j, gettokN strtod (k + j) st =
          gettokN strtod k st ++ List.replicate j Token.tok_eof := by
  induction n with
  | zero =>
    intro st hp
    have h0 : (gettok strtod st).1 = Token.tok_eof := by
      by_contra hne
      have := (gettok_progress strtod st).1 hne
      omega
    refine ⟨0, le_refl _, by simp [gettokN], ?_⟩
    intro j
    rw [Nat.zero_add, gettokN_of_eof strtod st h0]
    rfl
  | succ n ih =>
    intro st hp
    by_cases h0 : (gettok strtod st).1 = Token.tok_eof
    · refine ⟨0, Nat.zero_le _, by simp [gettokN], ?_⟩
      intro j
      rw [Nat.zero_add, gettokN_of_eof strtod st h0]
      rfl
    · have hlt := (gettok_progress strtod st).1 h0
      obtain ⟨k, hk, hnot, hall⟩ := ih (gettok strtod st).2 (by omega)
      refine ⟨k + 1, by omega, ?_, ?_⟩
      · rw [gettokN_succ]
        intro hmem
        rcases List.mem_cons.mp hmem with h | h
        · exact h0 h.symm
        · exact hnot h
      · intro j
        have : k + 1 + j = (k + j) + 1 := by omega
        rw [this, gettokN_succ, hall j, gettokN_succ]
        rfl

/-- C11: the scanner is total and makes progress.  The body of `gettok` never runs out of
the fuel `input.length + 1`, so every call returns a token (the type has no error result);
a returned token other than `tok_eof` uses up at least one pending character, hence on an
input of `n` characters at most `n` tokens come before `tok_eof`; once `tok_eof` has been
returned every later call returns `tok_eof`; and a character that is not white space, not
alphabetic, not a digit, not `.` and not `#` is returned as the token of that character. -/
theorem C11_lexer_total_progress (strtod : List Char → D) :
    (∀ st : LexState, gettokAux strtod (st.input.length + 1) st = some (gettok strtod st)) ∧
    (∀ st : LexState, (gettok strtod st).1 ≠ Token.tok_eof →
      pending (gettok strtod st).2 < pending st) ∧
    (∀ input : List Char, ∃ k, k ≤ input.length ∧
      Token.tok_eof ∉ gettokN strtod k (LexState.init input) ∧
      ∀ j, gettokN strtod (k + j) (LexState.init input) =
        gettokN strtod k (LexState.init input) ++ List.replicate j Token.tok_eof) ∧
    (∀ st : LexState, (gettok strtod st).1 = Token.tok_eof →
      ∀ n, gettokN strtod n (gettok strtod st).2 = List.replicate n Token.tok_eof) ∧
    (∀ (c : Char) (rest : List Char), isspace c = false → isalpha c = false →
      isdigit c = false → c ≠ '.' → c ≠ '#' →
      gettok strtod (LexState.init (c :: rest)) = (Token.char c, ⟨rest.head?, rest.tail⟩)) := by
  refine ⟨gettok_spec strtod, fun st => (gettok_progress strtod st).1, ?_,
    gettokN_after_eof strtod, ?_⟩
  · intro input
    exact gettokN_bound strtod input.length (LexState.init input)
      (by simp [pending, LexState.init, isspace])
  · intro c rest hs ha hd hp hh
    apply gettok_eq strtod 1
    rw [gettokAux]
    have hd' : (isdigit c || c == '.') = false := by simp [hd, hp]
    have hh' : (c == '#') = false := by simp [hh]
    simp only [LexState.init, skipSpaces_init c rest hs, ha, hd', hh', Bool.false_eq_true,
      if_false]
    cases rest <;> rfl

/-- Witness of C11 on the text `;x`: the token `;` is the character itself, it uses up a
pending character, and the third call returns `tok_eof`. -/
theorem C11_witness :
    gettok strtodExact (LexState.init ";x".toList) = (Token.char ';', ⟨some 'x', []⟩) ∧
    pending (gettok strtodExact (LexState.init ";x".toList)).2 <
      pending (LexState.init ";x".toList) ∧
    gettokN strtodExact 3 (LexState.init ";x".toList) =
      [Token.char ';', Token.tok_identifier ['x'], Token.tok_eof] :=
  ⟨(C11_lexer_total_progress strtodExact).2.2.2.2 ';' ['x'] (by decide) (by decide)
      (by decide) (by decide) (by decide),
    (C11_lexer_total_progress strtodExact).2.1 _
      (by
        rw [show gettok strtodExact (LexState.init ";x".toList) =
          (Token.char ';', ⟨some 'x', []⟩) from rfl]
        exact fun h => Token.noConfusion h),
    rfl⟩


/-! ## Top-level expressions (C12) -/

/-- C12: when `ParseExpression` succeeds with the tree `e`, `ParseTopLevelExpr` returns the
function whose prototype has the empty name and no parameters and whose body is `e`, in the
state `ParseExpression` left.  When `ParseExpression` returns a null pointer,
`ParseTopLevelExpr` does NOT return a null pointer: control flows off the end of the
function, and what the caller receives is undefined. -/
theorem C12_top_level_wrapping (fuel : Nat) (st st' : State D) :
    (∀ e : ExprAST D, ParseExpression fuel st = some (some e, st') →
      ParseTopLevelExpr fuel st = some (Returned.value (some ⟨⟨[], []⟩, e⟩), st')) ∧
    (ParseExpression fuel st = some (none, st') →
      ParseTopLevelExpr fuel st = some (Returned.undefined, st') ∧
      ParseTopLevelExpr fuel st ≠ some (Returned.value none, st')) := by
  constructor
  · intro e h
    simp only [ParseTopLevelExpr, h]
  · intro h
    simp only [ParseTopLevelExpr, h]
    exact ⟨trivial, fun h => by simp at h⟩

/-- Evaluation of `ParseTopLevelExpr` for C12: on the tokens of `1+2` it returns the
anonymous function; on the token `)` the expression fails and no `return` is reached. -/
theorem C12_witness :
    ParseTopLevelExpr 4 ⟨[Token.tok_number (1 : ℚ), Token.char '+', Token.tok_number 2],
        mainBinopPrecedence, []⟩ =
      some (Returned.value (some ⟨⟨[], []⟩, ExprAST.BinaryExprAST '+'
        (ExprAST.NumberExprAST 1) (ExprAST.NumberExprAST 2)⟩), ⟨[], mainBinopPrecedence, []⟩) ∧
    ParseTopLevelExpr 2 ⟨[(Token.char ')' : Token ℚ)], mainBinopPrecedence, []⟩ =
      some (Returned.undefined, ⟨[Token.char ')'], mainBinopPrecedence,
        ["Erro: Unkown token when expecting an expression\n"]⟩) :=
  ⟨(C12_top_level_wrapping 4
      ⟨[Token.tok_number (1 : ℚ), Token.char '+', Token.tok_number 2], mainBinopPrecedence, []⟩
      ⟨[], mainBinopPrecedence, []⟩).1 _ rfl,
    ((C12_top_level_wrapping 2 ⟨[(Token.char ')' : Token ℚ)], mainBinopPrecedence, []⟩
      ⟨[Token.char ')'], mainBinopPrecedence,
        ["Erro: Unkown token when expecting an expression\n"]⟩).2 rfl).1⟩

/-! ## Precedence look-up (C13) -/

theorem lookup_main (c : Char) (h1 : c ≠ '*') (h2 : c ≠ '-') (h3 : c ≠ '+') (h4 : c ≠ '<') :
    mainBinopPrecedence.lookup c = none := by
  have e1 : (c == '*') = false := by simpa using h1
  have e2 : (c == '-') = false := by simpa using h2
  have e3 : (c == '+') = false := by simpa using h3
  have e4 : (c == '<') = false := by simpa using h4
  rw [mainBinopPrecedence_eq]
  simp only [List.lookup, e1, e2, e3, e4]

/-- C13: with the table of `main`, `GetTokPrecedence` returns 10 for `<`, 20 for `+`, 20 for
`-`, 40 for `*`, and -1 for every other token: `tok_eof`, the two keywords, identifiers,
numbers, every other character, ASCII (such as `(`, `)`, `,`, `;`, `/`, NUL) or not.  The
result is never 0, and it is positive only for the four operators. -/
theorem C13_precedence_lookup (t : Token D) (rest : List (Token D)) (err : List String) :
    (GetTokPrecedence ⟨t :: rest, mainBinopPrecedence, err⟩).1 =
      (if t.isChar '<' then 10 else if t.isChar '+' then 20 else if t.isChar '-' then 20
        else if t.isChar '*' then 40 else -1) ∧
    (GetTokPrecedence ⟨t :: rest, mainBinopPrecedence, err⟩).1 ≠ 0 ∧
    (0 < (GetTokPrecedence ⟨t :: rest, mainBinopPrecedence, err⟩).1 →
      t = Token.char '<' ∨ t = Token.char '+' ∨ t = Token.char '-' ∨ t = Token.char '*') ∧
    (GetTokPrecedence (⟨[], mainBinopPrecedence, err⟩ : State D)).1 = -1 ∧
    (∀ c ∈ ['(', ')', ',', ';', '/', Char.ofNat 0],
      (GetTokPrecedence (⟨Token.char c :: rest, mainBinopPrecedence, err⟩ : State D)).1 = -1) := by
  have key : (GetTokPrecedence ⟨t :: rest, mainBinopPrecedence, err⟩).1 =
      (if t.isChar '<' then 10 else if t.isChar '+' then 20 else if t.isChar '-' then 20
        else if t.isChar '*' then 40 else -1) := by
    cases t with
    | char c =>
      by_cases h4 : c = '<'
      · subst h4; rfl
      by_cases h3 : c = '+'
      · subst h3; rfl
      by_cases h2 : c = '-'
      · subst h2; rfl
      by_cases h1 : c = '*'
      · subst h1; rfl
      simp only [GetTokPrecedence, CurTok_mk, List.headD_cons, Token.isascii, Token.toChar,
        mapIndex, lookup_main c h1 h2 h3 h4, Token.isChar, beq_iff_eq, h1, h2, h3, h4,
        if_false]
      split <;> rfl
    | _ => rfl
  refine ⟨key, ?_, ?_, rfl, ?_⟩
  · rw [key]; split_ifs <;> decide
  · rw [key]
    intro h
    split_ifs at h with a b c d
    · left; exact isChar_eq a
    · right; left; exact isChar_eq b
    · right; right; left; exact isChar_eq c
    · right; right; right; exact isChar_eq d
    · exact absurd h (by decide)
  · intro c hc
    simp only [List.mem_cons, List.mem_singleton, List.not_mem_nil, or_false] at hc
    rcases hc with rfl | rfl | rfl | rfl | rfl | rfl <;> rfl

/-- Witness of C13 on the token `*`, and on the token `;`. -/
theorem C13_witness :
    (GetTokPrecedence (⟨[Token.char '*'], mainBinopPrecedence, []⟩ : State ℚ)).1 = 40 ∧
    (GetTokPrecedence (⟨[Token.char ';'], mainBinopPrecedence, []⟩ : State ℚ)).1 = -1 ∧
    ((Token.char '*' : Token ℚ) = Token.char '<' ∨
      (Token.char '*' : Token ℚ) = Token.char '+' ∨
      (Token.char '*' : Token ℚ) = Token.char '-' ∨
      (Token.char '*' : Token ℚ) = Token.char '*') :=
  ⟨(C13_precedence_lookup (Token.char '*') [] []).1,
    (C13_precedence_lookup (Token.char ';') [] []).1,
    (C13_precedence_lookup (Token.char '*') [] []).2.2.1 (by decide)⟩

/-! ## A token that starts no primary expression (C15) -/

/-- C15, as stated, fails: on the token `)` the function `ParsePrimary` does not write the
message `unexpected token when expecting an expression`; the text in the source is
`Unkown token when expecting an expression`. -/
theorem C15_counterexample :
    ParsePrimary 1 ⟨[(Token.char ')' : Token ℚ)], mainBinopPrecedence, []⟩ =
      some (none, ⟨[Token.char ')'], mainBinopPrecedence,
        ["Erro: Unkown token when expecting an expression\n"]⟩) ∧
    ParsePrimary 1 ⟨[(Token.char ')' : Token ℚ)], mainBinopPrecedence, []⟩ ≠
      some (LogError "unexpected token when expecting an expression"
        ⟨[(Token.char ')' : Token ℚ)], mainBinopPrecedence, []⟩) :=
  ⟨rfl, fun h => absurd (congrArg (Option.map (fun p => p.2.stderr)) h) (by decide)⟩

/-- C15, amended: whenever the current token is neither an identifier, nor a number, nor
`(`, the function `ParsePrimary` returns a null pointer, writes to `stderr` the one
diagnostic `Unkown token when expecting an expression` (as the source spells it), and
consumes no token: the token stream and the table are those of the entry. -/
theorem C15_primary_bad_token (fuel : Nat) (st : State D)
    (hid : ∀ s, CurTok st ≠ Token.tok_identifier s)
    (hnum : ∀ v, CurTok st ≠ Token.tok_number v)
    (hopen : (CurTok st).isChar '(' = false) :
    ParsePrimary (fuel + 1) st =
      some (none, { st with stderr := st.stderr ++
        ["Erro: Unkown token when expecting an expression\n"] }) ∧
    ParsePrimary (fuel + 1) st =
      some (LogError "Unkown token when expecting an expression" st) := by
  have h : ParsePrimary (fuel + 1) st =
      some (LogError "Unkown token when expecting an expression" st) := by
    rw [ParsePrimary]
    cases hc : CurTok st with
    | tok_identifier s => exact absurd hc (hid s)
    | tok_number v => exact absurd hc (hnum v)
    | char c =>
      rw [hc] at hopen
      have : (c == '(') = false := hopen
      simp only [this, Bool.false_eq_true, if_false]
    | tok_eof => rfl
    | tok_def => rfl
    | tok_extern => rfl
  exact ⟨h, h⟩

/-- Witness of C15 on the token `;` followed by `x`. -/
theorem C15_witness :
    ParsePrimary 1 ⟨[Token.char ';', (Token.tok_identifier ['x'] : Token ℚ)],
        mainBinopPrecedence, []⟩ =
      some (none, ⟨[Token.char ';', Token.tok_identifier ['x']], mainBinopPrecedence,
        ["Erro: Unkown token when expecting an expression\n"]⟩) :=
  (C15_primary_bad_token 0
    ⟨[Token.char ';', (Token.tok_identifier ['x'] : Token ℚ)], mainBinopPrecedence, []⟩
    (fun _ h => Token.noConfusion h) (fun _ h => Token.noConfusion h) rfl).1

/-! ## The table does not influence parsing (C14) -/

theorem bool_cases (b : Bool) : b = false ∨ b = true := by
  cases b
  · exact Or.inl rfl
  · exact Or.inr rfl

theorem SameUpToTable_none {α : Type} :
    SameUpToTable (none : Option (Option α × State D)) none := Or.inl ⟨rfl, rfl⟩

theorem SameUpToTable_some {α : Type} (a : Option α) (toks : List (Token D))
    {m m2 : List (Char × Int)} (err : List String) (hm : DefaultTable m)
    (hm2 : DefaultTable m2) :
    SameUpToTable (some (a, (⟨toks, m, err⟩ : State D))) (some (a, ⟨toks, m2, err⟩)) :=
  Or.inr ⟨a, toks, m, m2, err, rfl, rfl, hm, hm2⟩

theorem table_all (n : Nat) :
    (∀ (toks : List (Token D)) (m m2 : List (Char × Int)) (err : List String),
      DefaultTable m → DefaultTable m2 →
      SameUpToTable (ParseParenExpr n ⟨toks, m, err⟩) (ParseParenExpr n ⟨toks, m2, err⟩)) ∧
    (∀ (s : List Char) (toks : List (Token D)) (m m2 : List (Char × Int)) (err : List String),
      DefaultTable m → DefaultTable m2 →
      SameUpToTable (ParseIdentifierExpr n s ⟨toks, m, err⟩)
        (ParseIdentifierExpr n s ⟨toks, m2, err⟩)) ∧
    (∀ (A : List (ExprAST D)) (toks : List (Token D)) (m m2 : List (Char × Int))
        (err : List String), DefaultTable m → DefaultTable m2 →
      SameUpToTable (ParseIdentifierExpr_loop n A ⟨toks, m, err⟩)
        (ParseIdentifierExpr_loop n A ⟨toks, m2, err⟩)) ∧
    (∀ (toks : List (Token D)) (m m2 : List (Char × Int)) (err : List String),
      DefaultTable m → DefaultTable m2 →
      SameUpToTable (ParsePrimary n ⟨toks, m, err⟩) (ParsePrimary n ⟨toks, m2, err⟩)) ∧
    (∀ (toks : List (Token D)) (m m2 : List (Char × Int)) (err : List String),
      DefaultTable m → DefaultTable m2 →
      SameUpToTable (ParseExpression n ⟨toks, m, err⟩) (ParseExpression n ⟨toks, m2, err⟩)) ∧
    (∀ (p : Int) (L : ExprAST D) (toks : List (Token D)) (m m2 : List (Char × Int))
        (err : List String), DefaultTable m → DefaultTable m2 →
      SameUpToTable (ParseBinOpRHS n p L ⟨toks, m, err⟩)
        (ParseBinOpRHS n p L ⟨toks, m2, err⟩)) := by
  induction n with
  | zero =>
    exact ⟨fun _ _ _ _ _ _ => SameUpToTable_none, fun _ _ _ _ _ _ _ => SameUpToTable_none,
      fun _ _ _ _ _ _ _ => SameUpToTable_none, fun _ _ _ _ _ _ => SameUpToTable_none,
      fun _ _ _ _ _ _ => SameUpToTable_none, fun _ _ _ _ _ _ _ _ => SameUpToTable_none⟩
  | succ n ih =>
    obtain ⟨ihParen, ihId, ihLoop, ihPrim, ihExpr, ihRHS⟩ := ih
    refine ⟨?_, ?_, ?_, ?_, ?_, ?_⟩
    · intro toks m m2 err hm hm2
      simp only [ParseParenExpr, getNextToken_mk]
      rcases ihExpr toks.tail m m2 err hm hm2 with ⟨h1, h2⟩ | ⟨a, t, m', m2', e, h1, h2, hm', hm2'⟩
      · rw [h1, h2]; exact SameUpToTable_none
      · rw [h1, h2]
        cases a with
        | none => exact SameUpToTable_some _ _ _ hm' hm2'
        | some V =>
          simp only [CurTok_mk]
          rcases bool_cases ((t.headD Token.tok_eof).isChar ')') with hc | hc <;>
            simp only [hc, Bool.not_true, Bool.not_false, Bool.false_eq_true, if_true, if_false]
          · exact SameUpToTable_some _ _ _ hm' hm2'
          · exact SameUpToTable_some _ _ _ hm' hm2'
    · intro s toks m m2 err hm hm2
      simp only [ParseIdentifierExpr, getNextToken_mk, CurTok_mk]
      rcases bool_cases ((toks.tail.headD Token.tok_eof).isChar '(') with ho | ho <;>
        simp only [ho, Bool.not_true, Bool.not_false, Bool.false_eq_true, if_true, if_false]
      · exact SameUpToTable_some _ _ _ hm hm2
      · rcases bool_cases ((toks.tail.tail.headD Token.tok_eof).isChar ')') with hc | hc <;>
          simp only [hc, Bool.not_true, Bool.not_false, Bool.false_eq_true, if_true, if_false]
        · rcases ihLoop [] toks.tail.tail m m2 err hm hm2 with
            ⟨h1, h2⟩ | ⟨a, t, m', m2', e, h1, h2, hm', hm2'⟩
          · rw [h1, h2]; exact SameUpToTable_none
          · rw [h1, h2]
            cases a with
            | none => exact SameUpToTable_some _ _ _ hm' hm2'
            | some Args => exact SameUpToTable_some _ _ _ hm' hm2'
        · exact SameUpToTable_some _ _ _ hm hm2
    · intro A toks m m2 err hm hm2
      simp only [ParseIdentifierExpr_loop]
      rcases ihExpr toks m m2 err hm hm2 with ⟨h1, h2⟩ | ⟨a, t, m', m2', e, h1, h2, hm', hm2'⟩
      · rw [h1, h2]; exact SameUpToTable_none
      · rw [h1, h2]
        cases a with
        | none => exact SameUpToTable_some _ _ _ hm' hm2'
        | some Arg =>
          simp only [CurTok_mk, getNextToken_mk]
          rcases bool_cases ((t.headD Token.tok_eof).isChar ')') with hc | hc <;>
            simp only [hc, Bool.not_true, Bool.not_false, Bool.false_eq_true, if_true, if_false]
          · rcases bool_cases ((t.headD Token.tok_eof).isChar ',') with hk | hk <;>
              simp only [hk, Bool.not_true, Bool.not_false, Bool.false_eq_true, if_true, if_false]
            · exact SameUpToTable_some _ _ _ hm' hm2'
            · exact ihLoop _ _ _ _ _ hm' hm2'
          · exact SameUpToTable_some _ _ _ hm' hm2'
    · intro toks m m2 err hm hm2
      simp only [ParsePrimary, CurTok_mk]
      cases hc : toks.headD Token.tok_eof with
      | tok_identifier s => exact ihId _ _ _ _ _ hm hm2
      | tok_number v => exact SameUpToTable_some _ _ _ hm hm2
      | char c =>
        rcases bool_cases (c == '(') with hp | hp <;>
          simp only [hp, Bool.not_true, Bool.not_false, Bool.false_eq_true, if_true, if_false]
        · exact SameUpToTable_some _ _ _ hm hm2
        · exact ihParen _ _ _ _ hm hm2
      | tok_eof => exact SameUpToTable_some _ _ _ hm hm2
      | tok_def => exact SameUpToTable_some _ _ _ hm hm2
      | tok_extern => exact SameUpToTable_some _ _ _ hm hm2
    · intro toks m m2 err hm hm2
      simp only [ParseExpression]
      rcases ihPrim toks m m2 err hm hm2 with ⟨h1, h2⟩ | ⟨a, t, m', m2', e, h1, h2, hm', hm2'⟩
      · rw [h1, h2]; exact SameUpToTable_none
      · rw [h1, h2]
        cases a with
        | none => exact SameUpToTable_some _ _ _ hm' hm2'
        | some LHS => exact ihRHS _ _ _ _ _ _ hm' hm2'
    · intro p L toks m m2 err hm hm2
      simp only [ParseBinOpRHS]
      obtain ⟨m1, hm1, hG⟩ := GetTokPrecedence_eq toks m err hm
      obtain ⟨m3, hm3, hG2⟩ := GetTokPrecedence_eq toks m2 err hm2
      rw [hG, hG2]
      simp only [getNextToken_mk, CurTok_mk]
      by_cases hlt : precedence (toks.headD Token.tok_eof) < p
      · simp only [hlt, if_true]
        exact SameUpToTable_some _ _ _ hm1 hm3
      · simp only [hlt, if_false]
        rcases ihPrim toks.tail m1 m3 err hm1 hm3 with
          ⟨h1, h2⟩ | ⟨a, t, m', m2', e, h1, h2, hm', hm2'⟩
        · rw [h1, h2]; exact SameUpToTable_none
        · rw [h1, h2]
          cases a with
          | none => exact SameUpToTable_some _ _ _ hm' hm2'
          | some RHS =>
            obtain ⟨m4, hm4, hG3⟩ := GetTokPrecedence_eq t m' e hm'
            obtain ⟨m5, hm5, hG4⟩ := GetTokPrecedence_eq t m2' e hm2'
            simp only [hG3, hG4]
            by_cases hlt2 : precedence (toks.headD Token.tok_eof) <
                precedence (t.headD Token.tok_eof)
            · simp only [hlt2, if_true]
              rcases ihRHS (precedence (toks.headD Token.tok_eof) + 1) RHS t m4 m5 e hm4 hm5
                with ⟨h1, h2⟩ | ⟨a, t', m6, m7, e', h1, h2, hm6, hm7⟩
              · rw [h1, h2]; exact SameUpToTable_none
              · rw [h1, h2]
                cases a with
                | none => exact SameUpToTable_some _ _ _ hm6 hm7
                | some RHS2 => exact ihRHS _ _ _ _ _ _ hm6 hm7
            · simp only [hlt2, if_false]
              exact ihRHS _ _ _ _ _ _ hm4 hm5

theorem ParsePrototype_loop_length (A : List (List Char)) (toks : List (Token D)) :
    (ParsePrototype_loop A toks).2.length ≤ toks.length := by
  cases toks with
  | nil => exact Nat.le_refl _
  | cons t tl =>
    obtain ⟨names, rest, h1, h2⟩ := ParsePrototype_loop_spec tl A t
    rw [h2, h1]
    simp only [List.length_cons, List.length_append, List.length_map]
    omega

/-- The function `ParsePrototype` neither reads nor writes the table, and never lengthens
the token stream. -/
theorem ParsePrototype_frame (toks : List (Token D)) (err : List String) :
    ∃ (p : Option PrototypeAST) (toks' : List (Token D)) (err' : List String),
      toks'.length ≤ toks.length ∧
      ∀ m, ParsePrototype (⟨toks, m, err⟩ : State D) = (p, ⟨toks', m, err'⟩) := by
  cases hc : toks.headD Token.tok_eof with
  | tok_identifier f =>
    rcases bool_cases ((toks.tail.headD Token.tok_eof).isChar '(') with ho | ho
    · refine ⟨none, toks.tail, err ++ ["Erro: " ++ "Expected '(' in prototype" ++ "\n"], by simp,
        fun m => ?_⟩
      simp only [ParsePrototype, CurTok_mk, hc, getNextToken_mk, ho, Bool.not_false, if_true,
        LogErrorP, LogError]
    · rcases hl : ParsePrototype_loop [] toks.tail with ⟨A, r⟩
      have hlen : r.length ≤ toks.tail.length := by
        have := ParsePrototype_loop_length [] toks.tail
        rw [hl] at this
        exact this
      have hlen2 : toks.tail.length ≤ toks.length := by simp
      rcases bool_cases ((r.headD Token.tok_eof).isChar ')') with hcl | hcl
      · refine ⟨none, r, err ++ ["Erro: " ++ "Expected ')' in prototype" ++ "\n"], by omega,
          fun m => ?_⟩
        simp only [ParsePrototype, CurTok_mk, hc, getNextToken_mk, ho, Bool.not_true,
          Bool.false_eq_true, if_false, hl, hcl, Bool.not_false, if_true, LogErrorP, LogError]
      · refine ⟨some ⟨f, A⟩, r.tail, err, ?_, fun m => ?_⟩
        · have : r.tail.length ≤ r.length := by simp
          omega
        · simp only [ParsePrototype, CurTok_mk, hc, getNextToken_mk, ho, Bool.not_true,
            Bool.false_eq_true, if_false, hl, hcl]
  | tok_eof =>
    exact ⟨none, toks, err ++ ["Erro: " ++ "Expected function name in prototype" ++ "\n"],
      Nat.le_refl _, fun m => by
      simp only [ParsePrototype, CurTok_mk, hc, LogErrorP, LogError]⟩
  | tok_def =>
    exact ⟨none, toks, err ++ ["Erro: " ++ "Expected function name in prototype" ++ "\n"],
      Nat.le_refl _, fun m => by
      simp only [ParsePrototype, CurTok_mk, hc, LogErrorP, LogError]⟩
  | tok_extern =>
    exact ⟨none, toks, err ++ ["Erro: " ++ "Expected function name in prototype" ++ "\n"],
      Nat.le_refl _, fun m => by
      simp only [ParsePrototype, CurTok_mk, hc, LogErrorP, LogError]⟩
  | tok_number v =>
    exact ⟨none, toks, err ++ ["Erro: " ++ "Expected function name in prototype" ++ "\n"],
      Nat.le_refl _, fun m => by
      simp only [ParsePrototype, CurTok_mk, hc, LogErrorP, LogError]⟩
  | char c =>
    exact ⟨none, toks, err ++ ["Erro: " ++ "Expected function name in prototype" ++ "\n"],
      Nat.le_refl _, fun m => by
      simp only [ParsePrototype, CurTok_mk, hc, LogErrorP, LogError]⟩

theorem ParseDefinition_table (fuel : Nat) (toks : List (Token D)) (m m2 : List (Char × Int))
    (err : List String) (hm : DefaultTable m) (hm2 : DefaultTable m2) :
    SameUpToTable (ParseDefinition fuel ⟨toks, m, err⟩) (ParseDefinition fuel ⟨toks, m2, err⟩) := by
  obtain ⟨p, toks', err', -, hp⟩ := ParsePrototype_frame toks.tail err
  simp only [ParseDefinition, getNextToken_mk, hp]
  cases p with
  | none => exact SameUpToTable_some _ _ _ hm hm2
  | some Proto =>
    simp only
    rcases (table_all fuel).2.2.2.2.1 toks' m m2 err' hm hm2 with
      ⟨h1, h2⟩ | ⟨a, t, m', m2', e, h1, h2, hm', hm2'⟩
    · rw [h1, h2]; exact SameUpToTable_none
    · rw [h1, h2]
      cases a with
      | none => exact SameUpToTable_some _ _ _ hm' hm2'
      | some E => exact SameUpToTable_some _ _ _ hm' hm2'

theorem GetTokPrecedence_table (st : State D) (h : (CurTok st).isascii = true) :
    (GetTokPrecedence st).2 =
      { st with BinopPrecedence := (mapIndex st.BinopPrecedence (CurTok st).toChar).2 } := by
  unfold GetTokPrecedence
  simp only [h, Bool.not_true, Bool.false_eq_true, if_false]
  split <;> rfl

theorem mapIndex_lookup (m : List (Char × Int)) (k : Char) :
    (mapIndex m k).2.lookup k = some (mapIndex m k).1 := by
  unfold mapIndex
  cases h : m.lookup k with
  | some v => exact h
  | none => simp [List.lookup_cons]

theorem lookups_default (ts : List (Token D)) :
    ∀ m, DefaultTable m →
      (lookups ts m).1 = ts.map precedence ∧ DefaultTable (lookups ts m).2 := by
  induction ts with
  | nil => intro m hm; exact ⟨rfl, hm⟩
  | cons t ts ih =>
    intro m hm
    obtain ⟨m', hm', hG⟩ := GetTokPrecedence_eq [t] m [] hm
    simp only [lookups, hG, List.map_cons, List.headD_cons]
    exact ⟨by rw [(ih m' hm').1], (ih m' hm').2⟩

theorem SameUpToTable_left {α : Type} {r r2 : Option (Option α × State D)}
    (h : SameUpToTable r r2) {a : Option α} {st' : State D} (hr : r = some (a, st')) :
    DefaultTable st'.BinopPrecedence := by
  rcases h with ⟨h1, -⟩ | ⟨b, t, m, m2, e, h1, -, hm, -⟩
  · rw [h1] at hr; cases hr
  · rw [h1] at hr; cases hr; exact hm

/-- C14: the look-up writes the table: after `GetTokPrecedence` on an ASCII token the table
has an entry for that token, a new entry `0` when there was none.  Yet in every sequence of
look-ups that starts from the table of `main`, each value returned is the value the untouched
table of `main` gives for that token, and the table stays a default table.  Hence parsing is
repeatable: `ParseExpression` and `ParseDefinition` leave a default table behind, and from
any default table they return the same tree or the same failure, with the same remaining
tokens and the same diagnostics, as from the table of `main`. -/
theorem C14_parsing_repeatable :
    (∀ st : State D, (CurTok st).isascii = true →
      (GetTokPrecedence st).2.BinopPrecedence.lookup (CurTok st).toChar ≠ none ∧
      (st.BinopPrecedence.lookup (CurTok st).toChar = none →
        (GetTokPrecedence st).2.BinopPrecedence =
          ((CurTok st).toChar, 0) :: st.BinopPrecedence)) ∧
    (∀ ts : List (Token D),
      (lookups ts mainBinopPrecedence).1 =
        ts.map (fun t => (GetTokPrecedence (⟨[t], mainBinopPrecedence, []⟩ : State D)).1) ∧
      DefaultTable (lookups ts mainBinopPrecedence).2) ∧
    (∀ (fuel : Nat) (st : State D) (r : Option (ExprAST D)) (st' : State D),
      DefaultTable st.BinopPrecedence → ParseExpression fuel st = some (r, st') →
      DefaultTable st'.BinopPrecedence) ∧
    (∀ (fuel : Nat) (st : State D) (r : Option (FunctionAST D)) (st' : State D),
      DefaultTable st.BinopPrecedence → ParseDefinition fuel st = some (r, st') →
      DefaultTable st'.BinopPrecedence) ∧
    (∀ m : List (Char × Int), DefaultTable m →
      ∀ (fuel : Nat) (toks : List (Token D)) (err : List String),
        SameUpToTable (ParseExpression fuel ⟨toks, m, err⟩)
          (ParseExpression fuel ⟨toks, mainBinopPrecedence, err⟩) ∧
        SameUpToTable (ParseDefinition fuel ⟨toks, m, err⟩)
          (ParseDefinition fuel ⟨toks, mainBinopPrecedence, err⟩)) := by
  refine ⟨?_, ?_, ?_, ?_, ?_⟩
  · intro st h
    rw [GetTokPrecedence_table st h]
    refine ⟨?_, ?_⟩
    · simp only [mapIndex_lookup]
      exact fun h => Option.noConfusion h
    · intro hn
      simp only [mapIndex, hn]
  · intro ts
    exact lookups_default ts _ DefaultTable_main
  · rintro fuel ⟨toks, m, err⟩ r st' hm h
    exact SameUpToTable_left ((table_all fuel).2.2.2.2.1 toks m m err hm hm) h
  · rintro fuel ⟨toks, m, err⟩ r st' hm h
    exact SameUpToTable_left (ParseDefinition_table fuel toks m m err hm hm) h
  · intro m hm fuel toks err
    exact ⟨(table_all fuel).2.2.2.2.1 toks m _ err hm DefaultTable_main,
      ParseDefinition_table fuel toks m _ err hm DefaultTable_main⟩

/-- Witness of C14: asking about `)` inserts the entry `(')', 0)`; the look-ups of
`) + ) *` return `-1, 20, -1, 40`; and `1 + 2` parses from the table with the inserted entry
as it does from the table of `main`. -/
theorem C14_witness :
    (GetTokPrecedence (⟨[Token.char ')'], mainBinopPrecedence, []⟩ : State ℚ)).2.BinopPrecedence =
      (')', 0) :: mainBinopPrecedence ∧
    (lookups [(Token.char ')' : Token ℚ), Token.char '+', Token.char ')', Token.char '*']
      mainBinopPrecedence).1 = [-1, 20, -1, 40] ∧
    SameUpToTable
      (ParseExpression 4 ⟨[(Token.tok_number 1 : Token ℚ), Token.char '+', Token.tok_number 2],
        (')', 0) :: mainBinopPrecedence, []⟩)
      (ParseExpression 4 ⟨[(Token.tok_number 1 : Token ℚ), Token.char '+', Token.tok_number 2],
        mainBinopPrecedence, []⟩) :=
  ⟨((C14_parsing_repeatable.1
      (⟨[Token.char ')'], mainBinopPrecedence, []⟩ : State ℚ) rfl).2 rfl),
    ((C14_parsing_repeatable.2.1
      [(Token.char ')' : Token ℚ), Token.char '+', Token.char ')', Token.char '*']).1.trans rfl),
    (C14_parsing_repeatable.2.2.2.2 ((')', 0) :: mainBinopPrecedence)
      (DefaultTable_mapIndex DefaultTable_main ')') 4
      [(Token.tok_number 1 : Token ℚ), Token.char '+', Token.tok_number 2] []).1⟩

/-! ## No parse function lengthens the token stream -/

theorem GetTokPrecedence_toks (st : State D) : (GetTokPrecedence st).2.toks = st.toks := by
  unfold GetTokPrecedence
  split
  · rfl
  · split
    split <;> rfl

theorem GetTokPrecedence_toks_of {st st1 : State D} {tp : Int}
    (h : GetTokPrecedence st = (tp, st1)) : st1.toks = st.toks := by
  have := GetTokPrecedence_toks st
  rw [h] at this
  exact this

theorem getNextToken_length (st : State D) :
    (getNextToken st).toks.length = st.toks.length - 1 := by
  simp [getNextToken]

theorem toks_ne_nil_of_isChar {st : State D} {c : Char} (h : (CurTok st).isChar c = true) :
    1 ≤ st.toks.length := by
  rcases st with ⟨toks, m, err⟩
  cases toks with
  | nil => simp [CurTok, Token.isChar] at h
  | cons a r => simp

theorem length_all (n : Nat) :
    (∀ (st : State D) r st', ParseParenExpr n st = some (r, st') →
      st'.toks.length ≤ st.toks.length ∧ (r ≠ none → st'.toks.length < st.toks.length)) ∧
    (∀ (s : List Char) (st : State D) r st', ParseIdentifierExpr n s st = some (r, st') →
      st'.toks.length ≤ st.toks.length ∧
        (r ≠ none → 1 ≤ st.toks.length → st'.toks.length < st.toks.length)) ∧
    (∀ (A : List (ExprAST D)) (st : State D) r st',
      ParseIdentifierExpr_loop n A st = some (r, st') → st'.toks.length ≤ st.toks.length) ∧
    (∀ (st : State D) r st', ParsePrimary n st = some (r, st') →
      st'.toks.length ≤ st.toks.length ∧ (r ≠ none → st'.toks.length < st.toks.length)) ∧
    (∀ (st : State D) r st', ParseExpression n st = some (r, st') →
      st'.toks.length ≤ st.toks.length ∧ (r ≠ none → st'.toks.length < st.toks.length)) ∧
    (∀ (p : Int) (L : ExprAST D) (st : State D) r st',
      ParseBinOpRHS n p L st = some (r, st') → st'.toks.length ≤ st.toks.length) := by
  induction n with
  | zero =>
    refine ⟨?_, ?_, ?_, ?_, ?_, ?_⟩ <;> intros <;>
      simp_all [ParseParenExpr, ParseIdentifierExpr, ParseIdentifierExpr_loop, ParsePrimary,
        ParseExpression, ParseBinOpRHS]
  | succ n ih =>
    obtain ⟨ihParen, ihId, ihLoop, ihPrim, ihExpr, ihRHS⟩ := ih
    refine ⟨?_, ?_, ?_, ?_, ?_, ?_⟩
    · intro st r st' h
      rw [ParseParenExpr] at h
      have hn := getNextToken_length st
      cases hE : ParseExpression n (getNextToken st) with
      | none => simp [hE] at h
      | some x =>
        rcases x with ⟨a, st1⟩
        rw [hE] at h
        obtain ⟨h1, h2⟩ := ihExpr _ _ _ hE
        cases a with
        | none =>
          cases h
          exact ⟨by omega, fun h => absurd rfl h⟩
        | some V =>
          have h3 := h2 (fun h => Option.noConfusion h)
          have hn1 := getNextToken_length st1
          rcases bool_cases ((CurTok st1).isChar ')') with hc | hc <;>
            simp only [hc, Bool.not_true, Bool.not_false, Bool.false_eq_true, if_true,
              if_false] at h <;> cases h
          · exact ⟨by simp only [LogError]; omega, fun h => absurd rfl h⟩
          · exact ⟨by omega, fun _ => by omega⟩
    · intro s st r st' h
      rw [ParseIdentifierExpr] at h
      have hn := getNextToken_length st
      have hn1 := getNextToken_length (getNextToken st)
      simp only at h
      rcases bool_cases ((CurTok (getNextToken st)).isChar '(') with ho | ho <;>
        simp only [ho, Bool.not_true, Bool.not_false, Bool.false_eq_true, if_true,
          if_false] at h
      · cases h
        exact ⟨by omega, fun _ _ => by omega⟩
      · have h1 := toks_ne_nil_of_isChar ho
        rcases bool_cases ((CurTok (getNextToken (getNextToken st))).isChar ')') with hc | hc <;>
          simp only [hc, Bool.not_true, Bool.not_false, Bool.false_eq_true, if_true,
            if_false] at h
        · cases hE : ParseIdentifierExpr_loop n [] (getNextToken (getNextToken st)) with
          | none => simp [hE] at h
          | some x =>
            rcases x with ⟨a, st1⟩
            rw [hE] at h
            have h2 := ihLoop _ _ _ _ hE
            cases a with
            | none =>
              cases h
              exact ⟨by omega, fun h => absurd rfl h⟩
            | some Args =>
              cases h
              have hn2 := getNextToken_length st1
              exact ⟨by omega, fun _ _ => by omega⟩
        · cases h
          have hn2 := getNextToken_length (getNextToken (getNextToken st))
          exact ⟨by omega, fun _ _ => by omega⟩
    · intro A st r st' h
      rw [ParseIdentifierExpr_loop] at h
      cases hE : ParseExpression n st with
      | none => simp [hE] at h
      | some x =>
        rcases x with ⟨a, st1⟩
        rw [hE] at h
        obtain ⟨h1, h2⟩ := ihExpr _ _ _ hE
        cases a with
        | none => cases h; exact h1
        | some Arg =>
          simp only at h
          rcases bool_cases ((CurTok st1).isChar ')') with hc | hc <;>
            simp only [hc, Bool.not_true, Bool.not_false, Bool.false_eq_true, if_true,
              if_false] at h
          · rcases bool_cases ((CurTok st1).isChar ',') with hk | hk <;>
              simp only [hk, Bool.not_true, Bool.not_false, Bool.false_eq_true, if_true,
                if_false] at h
            · cases h; exact h1
            · have h3 := ihLoop _ _ _ _ h
              have hn := getNextToken_length st1
              omega
          · cases h; exact h1
    · intro st r st' h
      rw [ParsePrimary] at h
      cases hc : CurTok st with
      | tok_identifier s =>
        simp only [hc] at h
        obtain ⟨h1, h2⟩ := ihId _ _ _ _ h
        have h3 : 1 ≤ st.toks.length := by
          rcases st with ⟨toks, m, err⟩
          cases toks with
          | nil => simp [CurTok] at hc
          | cons a r => simp
        exact ⟨h1, fun hr => h2 hr h3⟩
      | tok_number v =>
        simp only [hc, ParseNumberExpr] at h
        cases h
        have h3 : 1 ≤ st.toks.length := by
          rcases st with ⟨toks, m, err⟩
          cases toks with
          | nil => simp [CurTok] at hc
          | cons a r => simp
        have hn := getNextToken_length st
        exact ⟨by omega, fun _ => by omega⟩
      | char c =>
        simp only [hc] at h
        rcases bool_cases (c == '(') with hp | hp <;>
          simp only [hp, Bool.false_eq_true, if_true, if_false] at h
        · cases h
          exact ⟨Nat.le_refl _, fun h => absurd rfl h⟩
        · exact ihParen _ _ _ h
      | tok_eof =>
        simp only [hc] at h
        cases h
        exact ⟨Nat.le_refl _, fun h => absurd rfl h⟩
      | tok_def =>
        simp only [hc] at h
        cases h
        exact ⟨Nat.le_refl _, fun h => absurd rfl h⟩
      | tok_extern =>
        simp only [hc] at h
        cases h
        exact ⟨Nat.le_refl _, fun h => absurd rfl h⟩
    · intro st r st' h
      rw [ParseExpression] at h
      cases hE : ParsePrimary n st with
      | none => simp [hE] at h
      | some x =>
        rcases x with ⟨a, st1⟩
        rw [hE] at h
        obtain ⟨h1, h2⟩ := ihPrim _ _ _ hE
        cases a with
        | none => cases h; exact ⟨h1, fun h => absurd rfl h⟩
        | some LHS =>
          have h3 := h2 (fun h => Option.noConfusion h)
          have h4 := ihRHS _ _ _ _ _ h
          exact ⟨by omega, fun _ => by omega⟩
    · intro p L st r st' h
      rw [ParseBinOpRHS] at h
      rcases hG : GetTokPrecedence st with ⟨tp, st1⟩
      have ht1 := GetTokPrecedence_toks_of hG
      simp only [hG] at h
      by_cases hlt : tp < p
      · simp only [hlt, if_true] at h
        cases h
        rw [ht1]
      · simp only [hlt, if_false] at h
        have hn := getNextToken_length st1
        cases hE : ParsePrimary n (getNextToken st1) with
        | none => simp [hE] at h
        | some x =>
          rcases x with ⟨a, st2⟩
          rw [hE] at h
          obtain ⟨h1, h2⟩ := ihPrim _ _ _ hE
          cases a with
          | none => cases h; rw [ht1] at hn; omega
          | some RHS =>
            simp only at h
            rcases hG2 : GetTokPrecedence st2 with ⟨np, st3⟩
            have ht3 := GetTokPrecedence_toks_of hG2
            simp only [hG2] at h
            rw [ht1] at hn
            by_cases hlt2 : tp < np
            · simp only [hlt2, if_true] at h
              cases hR : ParseBinOpRHS n (tp + 1) RHS st3 with
              | none => simp [hR] at h
              | some y =>
                rcases y with ⟨b, st4⟩
                rw [hR] at h
                have h4 := ihRHS _ _ _ _ _ hR
                rw [ht3] at h4
                cases b with
                | none => cases h; omega
                | some RHS2 =>
                  have h5 := ihRHS _ _ _ _ _ h
                  omega
            · simp only [hlt2, if_false] at h
              have h5 := ihRHS _ _ _ _ _ h
              rw [ht3] at h5
              omega

/-! ## Enough fuel gives a result -/

theorem ParsePrimary_nil (k : Nat) (m : List (Char × Int)) (err : List String) :
    ParsePrimary (k + 1) (⟨[], m, err⟩ : State D) =
      some (LogError "Unkown token when expecting an expression" ⟨[], m, err⟩) := by
  rw [ParsePrimary]
  rfl

theorem ParseExpression_nil (k : Nat) (m : List (Char × Int)) (err : List String) :
    ParseExpression (k + 2) (⟨[], m, err⟩ : State D) =
      some (LogError "Unkown token when expecting an expression" ⟨[], m, err⟩) := by
  rw [ParseExpression, ParsePrimary_nil]
  rfl

theorem total_all (n : Nat) :
    (∀ (st : State D), 4 * st.toks.length + 3 ≤ n → ∃ r, ParseParenExpr n st = some r) ∧
    (∀ (s : List Char) (st : State D), 4 * st.toks.length + 3 ≤ n →
      ∃ r, ParseIdentifierExpr n s st = some r) ∧
    (∀ (A : List (ExprAST D)) (st : State D), 4 * st.toks.length + 6 ≤ n →
      ∃ r, ParseIdentifierExpr_loop n A st = some r) ∧
    (∀ (st : State D), 4 * st.toks.length + 4 ≤ n → ∃ r, ParsePrimary n st = some r) ∧
    (∀ (st : State D), 4 * st.toks.length + 5 ≤ n → ∃ r, ParseExpression n st = some r) ∧
    (∀ (p : Int) (L : ExprAST D) (st : State D), 4 * st.toks.length + 5 ≤ n →
      ∃ r, ParseBinOpRHS n p L st = some r) := by
  induction n with
  | zero =>
    refine ⟨?_, ?_, ?_, ?_, ?_, ?_⟩ <;> intros <;> omega
  | succ n ih =>
    obtain ⟨ihParen, ihId, ihLoop, ihPrim, ihExpr, ihRHS⟩ := ih
    obtain ⟨-, -, -, lenPrim, lenExpr, lenRHS⟩ := length_all (D := D) n
    refine ⟨?_, ?_, ?_, ?_, ?_, ?_⟩
    · intro st hf
      rw [ParseParenExpr]
      have hE : ∃ x, ParseExpression n (getNextToken st) = some x := by
        rcases st with ⟨toks, m, err⟩
        cases toks with
        | nil =>
          obtain ⟨k, rfl⟩ : ∃ k, n = k + 2 := ⟨n - 2, by simp at hf; omega⟩
          exact ⟨_, ParseExpression_nil k m err⟩
        | cons a r =>
          apply ihExpr
          simp only [getNextToken_mk, List.tail_cons, List.length_cons] at hf ⊢
          omega
      obtain ⟨⟨a, st1⟩, hx⟩ := hE
      rw [hx]
      cases a with
      | none => exact ⟨_, rfl⟩
      | some V =>
        simp only
        split <;> exact ⟨_, rfl⟩
    · intro s st hf
      rw [ParseIdentifierExpr]
      have hn := getNextToken_length st
      have hn1 := getNextToken_length (getNextToken st)
      simp only
      rcases bool_cases ((CurTok (getNextToken st)).isChar '(') with ho | ho <;>
        simp only [ho, Bool.not_true, Bool.not_false, Bool.false_eq_true, if_true, if_false]
      · exact ⟨_, rfl⟩
      · have h1 := toks_ne_nil_of_isChar ho
        rcases bool_cases ((CurTok (getNextToken (getNextToken st))).isChar ')') with hc | hc <;>
          simp only [hc, Bool.not_true, Bool.not_false, Bool.false_eq_true, if_true, if_false]
        · obtain ⟨⟨a, st1⟩, hx⟩ := ihLoop [] (getNextToken (getNextToken st)) (by omega)
          rw [hx]
          cases a with
          | none => exact ⟨_, rfl⟩
          | some Args => exact ⟨_, rfl⟩
        · exact ⟨_, rfl⟩
    · intro A st hf
      rw [ParseIdentifierExpr_loop]
      obtain ⟨⟨a, st1⟩, hx⟩ := ihExpr st (by omega)
      rw [hx]
      obtain ⟨h1, h2⟩ := lenExpr _ _ _ hx
      cases a with
      | none => exact ⟨_, rfl⟩
      | some Arg =>
        have h3 := h2 (fun h => Option.noConfusion h)
        have hn := getNextToken_length st1
        simp only
        rcases bool_cases ((CurTok st1).isChar ')') with hc | hc <;>
          simp only [hc, Bool.not_true, Bool.not_false, Bool.false_eq_true, if_true, if_false]
        · rcases bool_cases ((CurTok st1).isChar ',') with hk | hk <;>
            simp only [hk, Bool.not_true, Bool.not_false, Bool.false_eq_true, if_true, if_false]
          · exact ⟨_, rfl⟩
          · exact ihLoop _ _ (by omega)
        · exact ⟨_, rfl⟩
    · intro st hf
      rw [ParsePrimary]
      cases hc : CurTok st with
      | tok_identifier s => exact ihId _ _ (by omega)
      | tok_number v => exact ⟨_, rfl⟩
      | char c =>
        simp only
        rcases bool_cases (c == '(') with hp | hp <;>
          simp only [hp, Bool.false_eq_true, if_true, if_false]
        · exact ⟨_, rfl⟩
        · exact ihParen _ (by omega)
      | tok_eof => exact ⟨_, rfl⟩
      | tok_def => exact ⟨_, rfl⟩
      | tok_extern => exact ⟨_, rfl⟩
    · intro st hf
      rw [ParseExpression]
      obtain ⟨⟨a, st1⟩, hx⟩ := ihPrim st (by omega)
      rw [hx]
      obtain ⟨h1, h2⟩ := lenPrim _ _ _ hx
      cases a with
      | none => exact ⟨_, rfl⟩
      | some LHS =>
        have h3 := h2 (fun h => Option.noConfusion h)
        exact ihRHS _ _ _ (by omega)
    · intro p L st hf
      rw [ParseBinOpRHS]
      rcases hG : GetTokPrecedence st with ⟨tp, st1⟩
      have ht1 := GetTokPrecedence_toks_of hG
      simp only
      by_cases hlt : tp < p
      · simp only [hlt, if_true]
        exact ⟨_, rfl⟩
      · simp only [hlt, if_false]
        have hn := getNextToken_length st1
        rw [ht1] at hn
        obtain ⟨⟨a, st2⟩, hx⟩ := ihPrim (getNextToken st1) (by omega)
        rw [hx]
        obtain ⟨h1, h2⟩ := lenPrim _ _ _ hx
        cases a with
        | none => exact ⟨_, rfl⟩
        | some RHS =>
          have h3 := h2 (fun h => Option.noConfusion h)
          simp only
          rcases hG2 : GetTokPrecedence st2 with ⟨np, st3⟩
          have ht3 := GetTokPrecedence_toks_of hG2
          simp only
          by_cases hlt2 : tp < np
          · simp only [hlt2, if_true]
            obtain ⟨⟨b, st4⟩, hy⟩ := ihRHS (tp + 1) RHS st3 (by rw [ht3]; omega)
            rw [hy]
            have h4 := lenRHS _ _ _ _ _ hy
            rw [ht3] at h4
            cases b with
            | none => exact ⟨_, rfl⟩
            | some RHS2 => exact ihRHS _ _ _ (by omega)
          · simp only [hlt2, if_false]
            exact ihRHS _ _ _ (by rw [ht3]; omega)

/-! ## The parser terminates (C20) -/

/-- C20: on every token stream each of the mutually recursive functions `ParseExpression`,
`ParsePrimary`, `ParseParenExpr`, `ParseIdentifierExpr` (with its argument loop) and
`ParseBinOpRHS` returns a result once the fuel, which bounds the depth of the calls and the
turns of the loops, exceeds four times the number of tokens left by six; a successful
`ParsePrimary` has consumed at least one token, and `ParseExpression` and `ParseBinOpRHS`
never lengthen the stream.  The parameter loop of `ParsePrototype` stops after one turn per
identifier that follows the current token, and `ParsePrototype` never lengthens the stream. -/
theorem C20_parser_terminates (st : State D) (fuel : Nat)
    (h : 4 * st.toks.length + 6 ≤ fuel) :
    (∃ r, ParseExpression fuel st = some r) ∧
    (∃ r, ParsePrimary fuel st = some r) ∧
    (∃ r, ParseParenExpr fuel st = some r) ∧
    (∀ IdentifierStr, ∃ r, ParseIdentifierExpr fuel IdentifierStr st = some r) ∧
    (∀ Args, ∃ r, ParseIdentifierExpr_loop fuel Args st = some r) ∧
    (∀ ExprPrec LHS, ∃ r, ParseBinOpRHS fuel ExprPrec LHS st = some r) ∧
    (∀ e st', ParsePrimary fuel st = some (some e, st') →
      st'.toks.length < st.toks.length) ∧
    (∀ r st', ParseExpression fuel st = some (r, st') → st'.toks.length ≤ st.toks.length) ∧
    (∀ ExprPrec LHS r st', ParseBinOpRHS fuel ExprPrec LHS st = some (r, st') →
      st'.toks.length ≤ st.toks.length) ∧
    (∀ ArgNames, ∃ names rest, st.toks.tail = names.map Token.tok_identifier ++ rest ∧
      ParsePrototype_loop ArgNames st.toks = (ArgNames ++ names, rest)) ∧
    (ParsePrototype st).2.toks.length ≤ st.toks.length := by
  obtain ⟨t1, t2, t3, t4, t5, t6⟩ := total_all (D := D) fuel
  obtain ⟨-, -, -, l4, l5, l6⟩ := length_all (D := D) fuel
  refine ⟨t5 st (by omega), t4 st (by omega), t1 st (by omega), fun s => t2 s st (by omega),
    fun A => t3 A st (by omega), fun p L => t6 p L st (by omega),
    fun e st' he => (l4 st _ st' he).2 (fun h => Option.noConfusion h),
    fun r st' he => (l5 st r st' he).1, fun p L r st' he => l6 p L st r st' he, ?_, ?_⟩
  · intro A
    rcases st with ⟨toks, m, err⟩
    cases toks with
    | nil => exact ⟨[], [], rfl, by simp [ParsePrototype_loop]⟩
    | cons t tl => exact ParsePrototype_loop_spec tl A t
  · rcases st with ⟨toks, m, err⟩
    obtain ⟨p, toks', err', hl, hp⟩ := ParsePrototype_frame toks err
    rw [hp m]
    exact hl

/-- Witness of C20 on the tokens `1 + 2`, three tokens and fuel 18. -/
theorem C20_witness :
    ∃ r, ParseExpression 18
      ⟨[(Token.tok_number 1 : Token ℚ), Token.char '+', Token.tok_number 2],
        mainBinopPrecedence, []⟩ = some r :=
  (C20_parser_terminates
    ⟨[(Token.tok_number 1 : Token ℚ), Token.char '+', Token.tok_number 2],
      mainBinopPrecedence, []⟩ 18 (by decide)).1

/-! ## The driving loop (C16) -/

theorem CurTok_ne_eof_length {st : State D} (h : CurTok st ≠ Token.tok_eof) :
    1 ≤ st.toks.length := by
  rcases st with ⟨toks, m, err⟩
  cases toks with
  | nil => exact absurd rfl h
  | cons a r => simp

theorem ParseDefinition_total (fuel : Nat) (st : State D)
    (hf : 4 * st.toks.length + 5 ≤ fuel) :
    ∃ r st', ParseDefinition fuel st = some (r, st') ∧
      st'.toks.length ≤ (getNextToken st).toks.length := by
  rcases st with ⟨toks, m, err⟩
  obtain ⟨p, toks', err', hl, hp⟩ := ParsePrototype_frame toks.tail err
  simp only [ParseDefinition, getNextToken_mk, hp]
  have hn : toks.tail.length ≤ toks.length := by simp
  cases p with
  | none => exact ⟨_, _, rfl, hl⟩
  | some Proto =>
    simp only
    obtain ⟨⟨a, st1⟩, hx⟩ := (total_all fuel).2.2.2.2.1 (⟨toks', m, err'⟩ : State D)
      (by simp only at hf ⊢; omega)
    have h1 := ((length_all fuel).2.2.2.2.1 _ _ _ hx).1
    rw [hx]
    cases a with
    | none => exact ⟨_, _, rfl, by simp only at h1 ⊢; omega⟩
    | some E => exact ⟨_, _, rfl, by simp only at h1 ⊢; omega⟩

theorem HandleDefinition_total (fuel : Nat) (st : State D)
    (hf : 4 * st.toks.length + 5 ≤ fuel) :
    ∃ st', HandleDefinition fuel st = some st' ∧
      st'.toks.length ≤ (getNextToken st).toks.length := by
  obtain ⟨r, st1, h, hl⟩ := ParseDefinition_total fuel st hf
  rw [HandleDefinition, h]
  cases r with
  | none =>
    have := getNextToken_length st1
    exact ⟨_, rfl, by omega⟩
  | some F => exact ⟨_, rfl, hl⟩

theorem HandleDefinition_length (fuel : Nat) (st st' : State D)
    (h : HandleDefinition fuel st = some st') :
    st'.toks.length ≤ (getNextToken st).toks.length := by
  rcases st with ⟨toks, m, err⟩
  obtain ⟨p, toks', err', hl, hp⟩ := ParsePrototype_frame toks.tail err
  simp only [HandleDefinition, ParseDefinition, getNextToken_mk, hp] at h ⊢
  cases p with
  | none =>
    simp only [Option.some.injEq] at h
    subst h
    have : toks'.tail.length ≤ toks'.length := by simp
    simp only [getNextToken_mk]
    omega
  | some Proto =>
    simp only at h
    cases hx : ParseExpression fuel (⟨toks', m, err'⟩ : State D) with
    | none => simp [hx] at h
    | some x =>
      rcases x with ⟨a, st1⟩
      have h1 := ((length_all fuel).2.2.2.2.1 _ _ _ hx).1
      rw [hx] at h
      cases a with
      | none =>
        simp only [Option.some.injEq] at h
        subst h
        have := getNextToken_length st1
        simp only at h1
        omega
      | some E =>
        simp only [Option.some.injEq] at h
        subst h
        simp only [fprintf_stderr] at h1 ⊢
        omega

theorem HandleExtern_length (st : State D) :
    (HandleExtern st).toks.length ≤ (getNextToken st).toks.length := by
  rcases st with ⟨toks, m, err⟩
  obtain ⟨p, toks', err', hl, hp⟩ := ParsePrototype_frame toks.tail err
  simp only [HandleExtern, ParseExtern, getNextToken_mk, hp]
  cases p with
  | none =>
    have : toks'.tail.length ≤ toks'.length := by simp
    simp only [getNextToken_mk]
    omega
  | some Proto => exact hl

theorem HandleTopLevelExpression_cases (fuel : Nat) (st : State D) :
    (ParseExpression fuel st = none ∧ HandleTopLevelExpression fuel st = none) ∨
    (∃ e st', ParseExpression fuel st = some (some e, st') ∧
      HandleTopLevelExpression fuel st =
        some (Outcome.returned (fprintf_stderr "Parsed a top-level expr\n" st'))) ∨
    (∃ st', ParseExpression fuel st = some (none, st') ∧
      HandleTopLevelExpression fuel st = some (Outcome.undefinedBehaviour st')) := by
  rw [HandleTopLevelExpression, ParseTopLevelExpr]
  cases hx : ParseExpression fuel st with
  | none => exact Or.inl ⟨rfl, rfl⟩
  | some x =>
    rcases x with ⟨a, st1⟩
    cases a with
    | none => exact Or.inr (Or.inr ⟨st1, rfl, rfl⟩)
    | some E => exact Or.inr (Or.inl ⟨E, st1, rfl, rfl⟩)

theorem MainLoop_top_level (fuel : Nat) (st : State D) (hd : CurTok st ≠ Token.tok_eof)
    (hdef : CurTok st ≠ Token.tok_def) (hext : CurTok st ≠ Token.tok_extern)
    (hsemi : (CurTok st).isChar ';' = false) :
    MainLoop (fuel + 1) st =
      match HandleTopLevelExpression fuel (fprintf_stderr "ready> " st) with
      | none => none
      | some (Outcome.returned st) => MainLoop fuel st
      | some (Outcome.undefinedBehaviour st) => some (Outcome.undefinedBehaviour st) := by
  rw [MainLoop]
  have hcur : CurTok (fprintf_stderr "ready> " st) = CurTok st := rfl
  rw [hcur]
  cases hc : CurTok st with
  | tok_eof => exact absurd hc hd
  | tok_def => exact absurd hc hdef
  | tok_extern => exact absurd hc hext
  | tok_identifier s => rfl
  | tok_number v => rfl
  | char c =>
    rw [hc] at hsemi
    simp only [hsemi, Bool.false_eq_true, if_false]

theorem MainLoop_semicolon (fuel : Nat) (st : State D) (h : (CurTok st).isChar ';' = true) :
    MainLoop (fuel + 1) st = MainLoop fuel (getNextToken (fprintf_stderr "ready> " st)) := by
  rw [MainLoop]
  have hcur : CurTok (fprintf_stderr "ready> " st) = CurTok st := rfl
  rw [hcur, isChar_eq h]
  rfl

theorem MainLoop_total (fuel : Nat) :
    ∀ st : State D, 4 * st.toks.length + 7 ≤ fuel →
      ∃ o, MainLoop fuel st = some o ∧
        ((∃ st', o = Outcome.returned st' ∧ CurTok st' = Token.tok_eof) ∨
          ∃ st', o = Outcome.undefinedBehaviour st') := by
  induction fuel with
  | zero => intro st hf; omega
  | succ fuel ih =>
    intro st hf
    have hcur : CurTok (fprintf_stderr "ready> " st) = CurTok st := rfl
    have htoks : (fprintf_stderr "ready> " st).toks = st.toks := rfl
    by_cases hd : CurTok st = Token.tok_eof
    · refine ⟨Outcome.returned (fprintf_stderr "ready> " st), ?_, Or.inl ⟨_, rfl, hd⟩⟩
      rw [MainLoop, hcur, hd]
    · have hl := CurTok_ne_eof_length hd
      have hn := getNextToken_length (fprintf_stderr "ready> " st)
      rw [htoks] at hn
      by_cases hdef : CurTok st = Token.tok_def
      · obtain ⟨st1, h1, hl1⟩ := HandleDefinition_total fuel (fprintf_stderr "ready> " st)
          (by rw [htoks]; omega)
        obtain ⟨o, ho, hend⟩ := ih st1 (by omega)
        refine ⟨o, ?_, hend⟩
        rw [MainLoop, hcur, hdef]
        simp only [h1]
        exact ho
      · by_cases hext : CurTok st = Token.tok_extern
        · have hl1 := HandleExtern_length (fprintf_stderr "ready> " st)
          obtain ⟨o, ho, hend⟩ := ih (HandleExtern (fprintf_stderr "ready> " st)) (by omega)
          refine ⟨o, ?_, hend⟩
          rw [MainLoop, hcur, hext]
          exact ho
        · rcases bool_cases ((CurTok st).isChar ';') with hsemi | hsemi
          · rw [MainLoop_top_level fuel st hd hdef hext hsemi]
            rcases HandleTopLevelExpression_cases fuel (fprintf_stderr "ready> " st) with
              ⟨h1, -⟩ | ⟨e, st1, h1, h2⟩ | ⟨st1, h1, h2⟩
            · obtain ⟨r, hr⟩ := (total_all fuel).2.2.2.2.1 (fprintf_stderr "ready> " st)
                (by rw [htoks]; omega)
              rw [h1] at hr
              cases hr
            · have h3 := ((length_all fuel).2.2.2.2.1 _ _ _ h1).2
                (fun h => Option.noConfusion h)
              rw [htoks] at h3
              obtain ⟨o, ho, hend⟩ := ih (fprintf_stderr "Parsed a top-level expr\n" st1)
                (by
                  have : (fprintf_stderr "Parsed a top-level expr\n" st1).toks = st1.toks := rfl
                  rw [this]; omega)
              refine ⟨o, ?_, hend⟩
              rw [h2]
              exact ho
            · refine ⟨Outcome.undefinedBehaviour st1, ?_, Or.inr ⟨_, rfl⟩⟩
              rw [h2]
          · rw [MainLoop_semicolon fuel st hsemi]
            exact ih _ (by omega)

/-- C16, what the code guarantees: `MainLoop` returns as soon as `CurTok` is `tok_eof`; a
`;` is skipped; `HandleDefinition` and `HandleExtern`, started on `def` and `extern`, leave
fewer tokens than they found, whether the parse succeeded or failed; a successful top-level
expression leaves fewer tokens.  But a failed top-level expression is not followed by
`getNextToken`: `ParseTopLevelExpr` flows off its end without a `return`, so the run has
undefined behaviour.  With enough fuel `MainLoop` therefore ends in one of two ways: it
returns with `tok_eof` as the current token, or it reaches that undefined behaviour; on the
input `)` it is the second. -/
theorem C16_main_loop_progress :
    (∀ (fuel : Nat) (st : State D), CurTok st = Token.tok_eof →
      MainLoop (fuel + 1) st = some (Outcome.returned (fprintf_stderr "ready> " st))) ∧
    (∀ (fuel : Nat) (st : State D), (CurTok st).isChar ';' = true →
      MainLoop (fuel + 1) st = MainLoop fuel (getNextToken (fprintf_stderr "ready> " st)) ∧
      (getNextToken (fprintf_stderr "ready> " st)).toks.length < st.toks.length) ∧
    (∀ (fuel : Nat) (st st' : State D), CurTok st = Token.tok_def →
      HandleDefinition fuel st = some st' → st'.toks.length < st.toks.length) ∧
    (∀ st : State D, CurTok st = Token.tok_extern →
      (HandleExtern st).toks.length < st.toks.length) ∧
    (∀ (fuel : Nat) (st st' : State D),
      HandleTopLevelExpression fuel st = some (Outcome.returned st') →
      st'.toks.length < st.toks.length) ∧
    (∀ (fuel : Nat) (st st' : State D), ParseExpression fuel st = some (none, st') →
      HandleTopLevelExpression fuel st = some (Outcome.undefinedBehaviour st')) ∧
    (∀ (fuel : Nat) (st : State D), 4 * st.toks.length + 7 ≤ fuel →
      ∃ o, MainLoop fuel st = some o ∧
        ((∃ st', o = Outcome.returned st' ∧ CurTok st' = Token.tok_eof) ∨
          ∃ st', o = Outcome.undefinedBehaviour st')) ∧
    (∀ fuel : Nat, main (fuel + 4) [(Token.char ')' : Token D)] =
      some (Outcome.undefinedBehaviour ⟨[Token.char ')'], mainBinopPrecedence,
        ["Ready --> ", "ready> ", "Erro: Unkown token when expecting an expression\n"]⟩)) := by
  refine ⟨?_, ?_, ?_, ?_, ?_, ?_, MainLoop_total, ?_⟩
  · intro fuel st h
    have hcur : CurTok (fprintf_stderr "ready> " st) = CurTok st := rfl
    rw [MainLoop, hcur, h]
  · intro fuel st h
    refine ⟨MainLoop_semicolon fuel st h, ?_⟩
    have h1 := toks_ne_nil_of_isChar h
    have hn := getNextToken_length (fprintf_stderr "ready> " st)
    have htoks : (fprintf_stderr "ready> " st).toks = st.toks := rfl
    rw [htoks] at hn
    omega
  · intro fuel st st' hc h
    have h1 := HandleDefinition_length fuel st st' h
    have h2 := CurTok_ne_eof_length
      (show CurTok st ≠ Token.tok_eof from by rw [hc]; exact fun h => Token.noConfusion h)
    have hn := getNextToken_length st
    omega
  · intro st hc
    have h1 := HandleExtern_length st
    have h2 := CurTok_ne_eof_length
      (show CurTok st ≠ Token.tok_eof from by rw [hc]; exact fun h => Token.noConfusion h)
    have hn := getNextToken_length st
    omega
  · intro fuel st st' h
    rcases HandleTopLevelExpression_cases fuel st with
      ⟨-, h2⟩ | ⟨e, st1, h1, h2⟩ | ⟨st1, -, h2⟩
    · rw [h2] at h; cases h
    · rw [h2] at h
      cases h
      exact ((length_all fuel).2.2.2.2.1 _ _ _ h1).2 (fun h => Option.noConfusion h)
    · rw [h2] at h; cases h
  · intro fuel st st' h
    rw [HandleTopLevelExpression, ParseTopLevelExpr, h]
  · intro fuel
    rfl

/-- Witness of C16: on the tokens `1 ;` the loop ends, and on `)` the run has undefined
behaviour. -/
theorem C16_witness :
    (∃ o, MainLoop 15 ⟨[(Token.tok_number 1 : Token ℚ), Token.char ';'], mainBinopPrecedence,
        ["Ready --> "]⟩ = some o ∧
      ((∃ st', o = Outcome.returned st' ∧ CurTok st' = Token.tok_eof) ∨
        ∃ st', o = Outcome.undefinedBehaviour st')) ∧
    main 4 [(Token.char ')' : Token ℚ)] =
      some (Outcome.undefinedBehaviour ⟨[Token.char ')'], mainBinopPrecedence,
        ["Ready --> ", "ready> ", "Erro: Unkown token when expecting an expression\n"]⟩) :=
  ⟨C16_main_loop_progress.2.2.2.2.2.2.1 15
      ⟨[(Token.tok_number 1 : Token ℚ), Token.char ';'], mainBinopPrecedence, ["Ready --> "]⟩
      (by decide),
    C16_main_loop_progress.2.2.2.2.2.2.2 0⟩

/-! ## A dangling operator (C17) -/

theorem ParsePrimary_agree {n k : Nat} {st : State D} {r r' : Option (ExprAST D) × State D}
    (h : ParsePrimary n st = some r) (h' : ParsePrimary k st = some r') : r = r' := by
  rcases Nat.le_total n k with hnk | hnk
  · have := (fuel_mono hnk).2.2.2.1 st r h
    rw [h'] at this
    exact (Option.some.inj this).symm
  · have := (fuel_mono hnk).2.2.2.1 st r' h'
    rw [h] at this
    exact Option.some.inj this

theorem ParseExpression_agree {n k : Nat} {st : State D} {r r' : Option (ExprAST D) × State D}
    (h : ParseExpression n st = some r) (h' : ParseExpression k st = some r') : r = r' := by
  rcases Nat.le_total n k with hnk | hnk
  · have := ParseExpression_mono h hnk
    rw [h'] at this
    exact (Option.some.inj this).symm
  · have := ParseExpression_mono h' hnk
    rw [h] at this
    exact Option.some.inj this

theorem FailsPrimary_iff (s : List (Token D)) :
    FailsPrimary s ↔ ∀ (n : Nat) (m : List (Char × Int)) (err : List String) r,
      DefaultTable m → ParsePrimary n ⟨s, m, err⟩ = some r → r.1 = none := by
  constructor
  · intro h n m err r hm hr
    obtain ⟨st', h'⟩ := h (4 * s.length + 4) m err hm (Nat.le_refl _)
    rw [ParsePrimary_agree hr h']
  · intro h fuel m err hm hf
    obtain ⟨⟨a, st'⟩, hr⟩ := (total_all fuel).2.2.2.1 (⟨s, m, err⟩ : State D) hf
    have := h fuel m err _ hm hr
    simp only at this
    subst this
    exact ⟨st', hr⟩

theorem FailsExpression_iff (s : List (Token D)) :
    FailsExpression s ↔ ∀ (n : Nat) (m : List (Char × Int)) (err : List String) r,
      DefaultTable m → ParseExpression n ⟨s, m, err⟩ = some r → r.1 = none := by
  constructor
  · intro h n m err r hm hr
    obtain ⟨st', h'⟩ := h (4 * s.length + 5) m err hm (Nat.le_refl _)
    rw [ParseExpression_agree hr h']
  · intro h fuel m err hm hf
    obtain ⟨⟨a, st'⟩, hr⟩ := (total_all fuel).2.2.2.2.1 (⟨s, m, err⟩ : State D) hf
    have := h fuel m err _ hm hr
    simp only at this
    subst this
    exact ⟨st', hr⟩

/-- An atomic primary in front of a token other than `(` is parsed to its tree. -/
theorem ParsePrimary_atom {n : Nat} {a : Token D} {x : ExprAST D} {s : List (Token D)}
    {m : List (Char × Int)} {err : List String} {r : Option (ExprAST D) × State D}
    (ha : atomAST a = some x) (hs : (s.headD Token.tok_eof).isChar '(' = false)
    (h : ParsePrimary n ⟨a :: s, m, err⟩ = some r) : r = (some x, ⟨s, m, err⟩) := by
  cases n with
  | zero => simp [ParsePrimary] at h
  | succ n =>
    rw [ParsePrimary] at h
    rcases atomAST_some ha with ⟨v, rfl, rfl⟩ | ⟨v, rfl, rfl⟩
    · simp only [CurTok_mk, List.headD_cons, ParseNumberExpr, getNextToken_mk, List.tail_cons,
        Option.some.injEq] at h
      exact h.symm
    · simp only [CurTok_mk, List.headD_cons] at h
      cases n with
      | zero => simp [ParseIdentifierExpr] at h
      | succ n =>
        rw [ParseIdentifierExpr] at h
        simp only [getNextToken_mk, List.tail_cons, CurTok_mk, hs, Bool.not_false, if_true,
          Option.some.injEq] at h
        exact h.symm

theorem precedence_tableOperator {o : Char} (h : o ∈ tableOperators) :
    0 < precedence (Token.char o : Token D) ∧ (Token.char o : Token D).isChar '(' = false := by
  rcases mem_tableOperators h with rfl | rfl | rfl | rfl
  · exact ⟨by rw [precedence_star]; decide, rfl⟩
  · exact ⟨by rw [precedence_minus]; decide, rfl⟩
  · exact ⟨by rw [precedence_plus]; decide, rfl⟩
  · exact ⟨by rw [precedence_less]; decide, rfl⟩

theorem binopTokens_dangling_head (ps : List (Char × Token D)) (op : Char)
    (rest : List (Token D)) (hps : ∀ x ∈ ps, x.1 ∈ tableOperators ∧ atomAST x.2 ≠ none)
    (hop : op ∈ tableOperators) :
    ∃ o, o ∈ tableOperators ∧
      (binopTokens ps ++ Token.char op :: rest).headD Token.tok_eof = Token.char o := by
  cases ps with
  | nil => exact ⟨op, hop, rfl⟩
  | cons x r =>
    rcases x with ⟨o, a⟩
    exact ⟨o, (hps _ (List.mem_cons_self _ _)).1, rfl⟩

/-- The loop of `ParseBinOpRHS` on `op1 p1 ... opk` followed by a stream on which
`ParsePrimary` fails: it returns a null pointer, or it stops in front of an operator of the
run whose precedence is below `ExprPrec`. -/
theorem dangling_rhs (rest : List (Token D)) (op : Char) (hop : op ∈ tableOperators)
    (hrest : ∀ (n : Nat) (m : List (Char × Int)) (err : List String) r,
      DefaultTable m → ParsePrimary n ⟨rest, m, err⟩ = some r → r.1 = none) (n : Nat) :
    ∀ (ps : List (Char × Token D)) (p : Int) (L : ExprAST D) (m : List (Char × Int))
      (err : List String) (res : Option (ExprAST D) × State D),
      (∀ x ∈ ps, x.1 ∈ tableOperators ∧ atomAST x.2 ≠ none) → DefaultTable m →
      ParseBinOpRHS n p L ⟨binopTokens ps ++ Token.char op :: rest, m, err⟩ = some res →
      res.1 = none ∨
        ∃ e ps2 m' err', res = (some e, ⟨binopTokens ps2 ++ Token.char op :: rest, m', err'⟩) ∧
          (∀ x ∈ ps2, x.1 ∈ tableOperators ∧ atomAST x.2 ≠ none) ∧ DefaultTable m' ∧
          precedence ((binopTokens ps2 ++ Token.char op :: rest).headD Token.tok_eof) < p := by
  induction n with
  | zero => intro ps p L m err res _ _ h; simp [ParseBinOpRHS] at h
  | succ n ih =>
    intro ps p L m err res hps hm h
    rw [ParseBinOpRHS] at h
    obtain ⟨m1, hm1, hG⟩ := GetTokPrecedence_eq (binopTokens ps ++ Token.char op :: rest) m err hm
    rw [hG] at h
    simp only at h
    by_cases hlt : precedence ((binopTokens ps ++ Token.char op :: rest).headD Token.tok_eof) < p
    · simp only [hlt, if_true, Option.some.injEq] at h
      exact Or.inr ⟨L, ps, m1, err, h.symm, hps, hm1, hlt⟩
    · simp only [hlt, if_false, getNextToken_mk] at h
      cases ps with
      | nil =>
        simp only [binopTokens, List.nil_append, List.tail_cons] at h
        cases hE : ParsePrimary n (⟨rest, m1, err⟩ : State D) with
        | none => simp [hE] at h
        | some x =>
          rcases x with ⟨a, st2⟩
          have ha := hrest n m1 err _ hm1 hE
          simp only at ha
          subst ha
          rw [hE] at h
          simp only [Option.some.injEq] at h
          left
          rw [← h]
      | cons x ps' =>
        rcases x with ⟨o, a⟩
        simp only [binopTokens, List.cons_append, List.tail_cons] at h
        have hx := hps _ (List.mem_cons_self _ _)
        have hps' : ∀ x ∈ ps', x.1 ∈ tableOperators ∧ atomAST x.2 ≠ none :=
          fun x hx => hps x (List.mem_cons_of_mem _ hx)
        obtain ⟨xa, hxa⟩ : ∃ xa, atomAST a = some xa := by
          cases hq : atomAST a with
          | none => exact absurd hq hx.2
          | some xa => exact ⟨xa, rfl⟩
        obtain ⟨o2, ho2, hhead⟩ := binopTokens_dangling_head ps' op rest hps' hop
        cases hE : ParsePrimary n
            (⟨a :: (binopTokens ps' ++ Token.char op :: rest), m1, err⟩ : State D) with
        | none => simp [hE] at h
        | some y =>
          have hy := ParsePrimary_atom hxa
            (by rw [hhead]; exact (precedence_tableOperator ho2).2) hE
          subst hy
          rw [hE] at h
          simp only at h
          obtain ⟨m2, hm2, hG2⟩ := GetTokPrecedence_eq
            (binopTokens ps' ++ Token.char op :: rest) m1 err hm1
          rw [hG2] at h
          simp only at h
          split at h
          · cases hR : ParseBinOpRHS n (precedence (Token.char o : Token D) + 1) xa
                (⟨binopTokens ps' ++ Token.char op :: rest, m2, err⟩ : State D) with
            | none => simp [hR, CurTok_mk] at h
            | some z =>
              simp only [CurTok_mk, List.headD_cons] at h
              rw [hR] at h
              rcases ih ps' _ _ m2 err z hps' hm2 hR with hz | ⟨e, ps2, m3, err3, hz, hps2, hm3, -⟩
              · rcases z with ⟨z1, z2⟩
                simp only at hz
                subst hz
                simp only [Option.some.injEq] at h
                left
                rw [← h]
              · subst hz
                simp only at h
                exact ih ps2 _ _ m3 err3 res hps2 hm3 h
          · simp only [CurTok_mk, List.headD_cons] at h
            exact ih ps' _ _ m2 err res hps' hm2 h

theorem dangling_expr (p0 : Token D) (ps : List (Char × Token D)) (op : Char)
    (rest : List (Token D)) (hp0 : atomAST p0 ≠ none)
    (hps : ∀ x ∈ ps, x.1 ∈ tableOperators ∧ atomAST x.2 ≠ none) (hop : op ∈ tableOperators)
    (hrest : FailsPrimary rest) :
    FailsExpression (p0 :: (binopTokens ps ++ Token.char op :: rest)) := by
  rw [FailsExpression_iff]
  rw [FailsPrimary_iff] at hrest
  intro n m err res hm h
  cases n with
  | zero => simp [ParseExpression] at h
  | succ n =>
    rw [ParseExpression] at h
    obtain ⟨x0, hx0⟩ : ∃ x0, atomAST p0 = some x0 := by
      cases hq : atomAST p0 with
      | none => exact absurd hq hp0
      | some x0 => exact ⟨x0, rfl⟩
    obtain ⟨o2, ho2, hhead⟩ := binopTokens_dangling_head ps op rest hps hop
    cases hE : ParsePrimary n
        (⟨p0 :: (binopTokens ps ++ Token.char op :: rest), m, err⟩ : State D) with
    | none => simp [hE] at h
    | some y =>
      have hy := ParsePrimary_atom hx0
        (by rw [hhead]; exact (precedence_tableOperator ho2).2) hE
      subst hy
      rw [hE] at h
      simp only at h
      rcases dangling_rhs rest op hop hrest n ps 0 x0 m err res hps hm h with
        hz | ⟨e, ps2, m3, err3, -, hps2, -, hlt⟩
      · exact hz
      · obtain ⟨o3, ho3, hhead3⟩ := binopTokens_dangling_head ps2 op rest hps2 hop
        rw [hhead3] at hlt
        have := (precedence_tableOperator (D := D) ho3).1
        omega

theorem FailsPrimary_of_head (rest : List (Token D))
    (hid : ∀ s, rest.headD Token.tok_eof ≠ Token.tok_identifier s)
    (hnum : ∀ v, rest.headD Token.tok_eof ≠ Token.tok_number v)
    (hopen : (rest.headD Token.tok_eof).isChar '(' = false) : FailsPrimary rest := by
  intro fuel m err _ hf
  obtain ⟨k, rfl⟩ : ∃ k, fuel = k + 1 := ⟨fuel - 1, by omega⟩
  refine ⟨(LogError "Unkown token when expecting an expression" ⟨rest, m, err⟩).2, ?_⟩
  rw [ParsePrimary, CurTok_mk]
  cases hc : rest.headD Token.tok_eof with
  | tok_identifier s => exact absurd hc (hid s)
  | tok_number v => exact absurd hc (hnum v)
  | char c =>
    rw [hc] at hopen
    have : (c == '(') = false := hopen
    simp only [this, Bool.false_eq_true, if_false]
    rfl
  | tok_eof => rfl
  | tok_def => rfl
  | tok_extern => rfl

theorem FailsExpression_of_primary (s : List (Token D)) (h : FailsPrimary s) :
    FailsExpression s := by
  rw [FailsExpression_iff]
  rw [FailsPrimary_iff] at h
  intro n m err res hm hr
  cases n with
  | zero => simp [ParseExpression] at hr
  | succ n =>
    rw [ParseExpression] at hr
    cases hE : ParsePrimary n (⟨s, m, err⟩ : State D) with
    | none => simp [hE] at hr
    | some y =>
      rcases y with ⟨a, st1⟩
      have ha := h n m err _ hm hE
      simp only at ha
      subst ha
      rw [hE] at hr
      simp only [Option.some.injEq] at hr
      rw [← hr]

theorem FailsPrimary_paren (s : List (Token D)) (h : FailsExpression s) :
    FailsPrimary (Token.char '(' :: s) := by
  rw [FailsPrimary_iff]
  rw [FailsExpression_iff] at h
  intro n m err res hm hr
  cases n with
  | zero => simp [ParsePrimary] at hr
  | succ n =>
    rw [ParsePrimary] at hr
    simp only [CurTok_mk, List.headD_cons, beq_self_eq_true, if_true] at hr
    cases n with
    | zero => simp [ParseParenExpr] at hr
    | succ n =>
      rw [ParseParenExpr] at hr
      simp only [getNextToken_mk, List.tail_cons] at hr
      cases hE : ParseExpression n (⟨s, m, err⟩ : State D) with
      | none => simp [hE] at hr
      | some y =>
        rcases y with ⟨a, st1⟩
        have ha := h n m err _ hm hE
        simp only at ha
        subst ha
        rw [hE] at hr
        simp only [Option.some.injEq] at hr
        rw [← hr]

theorem isChar_char (c d : Char) : (Token.char c : Token D).isChar d = (c == d) := rfl

theorem argTokens_cons_append (E : List (Token D)) (X : List (List (Token D)))
    (s : List (Token D)) :
    argTokens (E :: (X ++ [s])) = E ++ Token.char ',' :: argTokens (X ++ [s]) := by
  cases X <;> rfl

theorem dangling_args (s : List (Token D))
    (hs : ∀ (n : Nat) (m : List (Char × Int)) (err : List String) r,
      DefaultTable m → ParseExpression n ⟨s, m, err⟩ = some r → r.1 = none)
    (Es : List (List (Token D) × ExprAST D)) :
    (∀ q ∈ Es, ArgParses q.1 q.2) →
    ∀ (n : Nat) (A : List (ExprAST D)) (m : List (Char × Int)) (err : List String)
      (res : Option (List (ExprAST D)) × State D), DefaultTable m →
      ParseIdentifierExpr_loop n A ⟨argTokens (Es.map Prod.fst ++ [s]), m, err⟩ = some res →
      res.1 = none := by
  induction Es with
  | nil =>
    intro _ n A m err res hm h
    cases n with
    | zero => simp [ParseIdentifierExpr_loop] at h
    | succ n =>
      rw [ParseIdentifierExpr_loop] at h
      simp only [List.map_nil, List.nil_append, argTokens] at h
      cases hE : ParseExpression n (⟨s, m, err⟩ : State D) with
      | none => simp [hE] at h
      | some y =>
        rcases y with ⟨a, st1⟩
        have ha := hs n m err _ hm hE
        simp only at ha
        subst ha
        rw [hE] at h
        simp only [Option.some.injEq] at h
        rw [← h]
  | cons q Es ih =>
    intro hq n A m err res hm h
    cases n with
    | zero => simp [ParseIdentifierExpr_loop] at h
    | succ n =>
      rw [ParseIdentifierExpr_loop] at h
      simp only [List.map_cons, List.cons_append, argTokens_cons_append] at h
      obtain ⟨f0, m', hm', h0⟩ := hq q (List.mem_cons_self _ _) (Token.char ',')
        (argTokens (Es.map Prod.fst ++ [s])) m err (Or.inl rfl) hm
      cases hE : ParseExpression n
          (⟨q.1 ++ Token.char ',' :: argTokens (Es.map Prod.fst ++ [s]), m, err⟩ : State D) with
      | none => simp [hE] at h
      | some y =>
        have hy := ParseExpression_agree hE h0
        subst hy
        rw [hE] at h
        simp only [CurTok_mk, List.headD_cons, Token.isChar, getNextToken_mk,
          List.tail_cons] at h
        exact ih (fun x hx => hq x (List.mem_cons_of_mem _ hx)) n _ m' err res hm' h

theorem FailsPrimary_call (f : List Char) (Es : List (List (Token D) × ExprAST D))
    (s : List (Token D)) (hEs : ∀ q ∈ Es, ArgParses q.1 q.2) (hs : FailsExpression s)
    (hclose : Es = [] → (s.headD Token.tok_eof).isChar ')' = false) :
    FailsPrimary (Token.tok_identifier f :: Token.char '(' ::
      argTokens (Es.map Prod.fst ++ [s])) := by
  rw [FailsPrimary_iff]
  rw [FailsExpression_iff] at hs
  intro n m err res hm hr
  have hne : ((argTokens (Es.map Prod.fst ++ [s])).headD Token.tok_eof).isChar ')' = false := by
    cases Es with
    | nil => exact hclose rfl
    | cons q Es =>
      obtain ⟨f1, m1, -, h2⟩ := hEs q (List.mem_cons_self _ _) (Token.char ',') []
        m err (Or.inl rfl) hm
      have h3 := ParseExpression_start h2
      simp only [List.map_cons, List.cons_append, argTokens_cons_append]
      cases hq1 : q.1 with
      | nil => rw [hq1] at h3; simp [CurTok, Token.isChar] at h3
      | cons a r =>
        rw [hq1] at h3
        simpa [CurTok] using h3.1
  cases n with
  | zero => simp [ParsePrimary] at hr
  | succ n =>
    rw [ParsePrimary] at hr
    simp only [CurTok_mk, List.headD_cons] at hr
    cases n with
    | zero => simp [ParseIdentifierExpr] at hr
    | succ n =>
      rw [ParseIdentifierExpr] at hr
      simp only [getNextToken_mk, List.tail_cons, CurTok_mk, List.headD_cons, isChar_char,
        beq_self_eq_true, Bool.not_true, Bool.false_eq_true, if_false, hne, Bool.not_false,
        if_true] at hr
      cases hE : ParseIdentifierExpr_loop n []
          (⟨argTokens (Es.map Prod.fst ++ [s]), m, err⟩ : State D) with
      | none => simp [hE] at hr
      | some y =>
        rcases y with ⟨a, st1⟩
        have ha := dangling_args s hs Es hEs n [] m err _ hm hE
        simp only at ha
        subst ha
        rw [hE] at hr
        simp only [Option.some.injEq] at hr
        rw [← hr]

/-- C17: a dangling operator fails the whole expression.  On the tokens `p0 op1 p1 ... opk`
(`k ≥ 1`, atomic primaries, operators of the table) followed by a stream on which
`ParsePrimary` fails, `ParseExpression` returns a null pointer, whatever the precedences,
hence also when the failure happens inside the recursive call of `ParseBinOpRHS`.
`ParsePrimary` fails on every stream whose first token is neither an identifier, nor a
number, nor `(` (the end of the input, `)`, `,`, `;`, a keyword, an operator); and the
failure of an expression propagates outwards: `ParsePrimary` fails on `(` followed by a
stream on which `ParseExpression` fails, and on `f (` followed by arguments that parse, each
with its comma, and then such a stream; and `ParseExpression` fails wherever `ParsePrimary`
does.  So the failure holds at every nesting depth. -/
theorem C17_dangling_operator :
    (∀ (p0 : Token D) (ps : List (Char × Token D)) (op : Char) (rest : List (Token D)),
      atomAST p0 ≠ none → (∀ x ∈ ps, x.1 ∈ tableOperators ∧ atomAST x.2 ≠ none) →
      op ∈ tableOperators → FailsPrimary rest →
      FailsExpression (p0 :: (binopTokens ps ++ Token.char op :: rest))) ∧
    (∀ rest : List (Token D),
      (∀ s, rest.headD Token.tok_eof ≠ Token.tok_identifier s) →
      (∀ v, rest.headD Token.tok_eof ≠ Token.tok_number v) →
      (rest.headD Token.tok_eof).isChar '(' = false → FailsPrimary rest) ∧
    (∀ s : List (Token D), FailsExpression s → FailsPrimary (Token.char '(' :: s)) ∧
    (∀ (f : List Char) (Es : List (List (Token D) × ExprAST D)) (s : List (Token D)),
      (∀ q ∈ Es, ArgParses q.1 q.2) → FailsExpression s →
      (Es = [] → (s.headD Token.tok_eof).isChar ')' = false) →
      FailsPrimary (Token.tok_identifier f :: Token.char '(' ::
        argTokens (Es.map Prod.fst ++ [s]))) ∧
    (∀ s : List (Token D), FailsPrimary s → FailsExpression s) :=
  ⟨dangling_expr, FailsPrimary_of_head, FailsPrimary_paren, FailsPrimary_call,
    FailsExpression_of_primary⟩

/-- Witness of C17 on the texts `1+`, `1+2*` and `f(1+)`: their tokens; `ParseExpression`
fails on each, and returns the null pointer with the diagnostic of `ParsePrimary`. -/
theorem C17_witness :
    (gettokN strtodExact 3 (LexState.init "1+".toList) =
        [Token.tok_number 1, Token.char '+', Token.tok_eof] ∧
      gettokN strtodExact 5 (LexState.init "1+2*".toList) =
        [Token.tok_number 1, Token.char '+', Token.tok_number 2, Token.char '*',
          Token.tok_eof] ∧
      gettokN strtodExact 6 (LexState.init "f(1+)".toList) =
        [Token.tok_identifier ['f'], Token.char '(', Token.tok_number 1, Token.char '+',
          Token.char ')', Token.tok_eof]) ∧
    FailsExpression [(Token.tok_number 1 : Token ℚ), Token.char '+'] ∧
    FailsExpression [(Token.tok_number 1 : Token ℚ), Token.char '+', Token.tok_number 2,
      Token.char '*'] ∧
    FailsExpression [(Token.tok_identifier ['f'] : Token ℚ), Token.char '(',
      Token.tok_number 1, Token.char '+', Token.char ')'] ∧
    ParseExpression 3 ⟨[(Token.tok_number 1 : Token ℚ), Token.char '+'],
        mainBinopPrecedence, []⟩ =
      some (none, ⟨[], mainBinopPrecedence,
        ["Erro: Unkown token when expecting an expression\n"]⟩) ∧
    ParseExpression 4 ⟨[(Token.tok_number 1 : Token ℚ), Token.char '+', Token.tok_number 2,
        Token.char '*'], mainBinopPrecedence, []⟩ =
      some (none, ⟨[], mainBinopPrecedence,
        ["Erro: Unkown token when expecting an expression\n"]⟩) ∧
    ParseExpression 7 ⟨[(Token.tok_identifier ['f'] : Token ℚ), Token.char '(',
        Token.tok_number 1, Token.char '+', Token.char ')'], mainBinopPrecedence, []⟩ =
      some (none, ⟨[Token.char ')'], mainBinopPrecedence,
        ["Erro: Unkown token when expecting an expression\n"]⟩) :=
  ⟨gettokN_example_dangling,
    C17_dangling_operator.1 (Token.tok_number 1) [] '+' []
      (fun h => Option.noConfusion h) (fun x hx => absurd hx (List.not_mem_nil x)) (by decide)
      (C17_dangling_operator.2.1 [] (fun s h => Token.noConfusion h)
        (fun v h => Token.noConfusion h) rfl),
    C17_dangling_operator.1 (Token.tok_number 1) [('+', Token.tok_number 2)] '*' []
      (fun h => Option.noConfusion h)
      (fun x hx => by
        rw [List.mem_singleton] at hx
        subst hx
        exact ⟨by decide, fun h => Option.noConfusion h⟩)
      (by decide)
      (C17_dangling_operator.2.1 [] (fun s h => Token.noConfusion h)
        (fun v h => Token.noConfusion h) rfl),
    C17_dangling_operator.2.2.2.2 _
      (C17_dangling_operator.2.2.2.1 ['f'] [] [Token.tok_number 1, Token.char '+', Token.char ')']
        (fun q hq => absurd hq (List.not_mem_nil q))
        (C17_dangling_operator.1 (Token.tok_number 1) [] '+' [Token.char ')']
          (fun h => Option.noConfusion h) (fun x hx => absurd hx (List.not_mem_nil x))
          (by decide)
          (C17_dangling_operator.2.1 [Token.char ')'] (fun s h => Token.noConfusion h)
            (fun v h => Token.noConfusion h) rfl))
        (fun _ => rfl)),
    rfl, rfl, rfl⟩

/-! ## Precedence climbing (C18) -/

theorem binopTokens_append (x y : List (Char × Token D)) :
    binopTokens (x ++ y) = binopTokens x ++ binopTokens y := by
  induction x with
  | nil => rfl
  | cons a r ih =>
    rcases a with ⟨o, p⟩
    show Token.char o :: p :: binopTokens (r ++ y) = _
    rw [ih]
    rfl

theorem binopTokens_length (x : List (Char × Token D)) :
    (binopTokens x).length = 2 * x.length := by
  induction x with
  | nil => rfl
  | cons a r ih =>
    rcases a with ⟨o, p⟩
    simp only [binopTokens, List.length_cons, ih]
    omega

/-- An atomic primary is parsed to its tree; an identifier must not be followed by `(`. -/
theorem ParsePrimary_operand {n : Nat} {a : Token D} {s : List (Token D)}
    {m : List (Char × Int)} {err : List String} {r : Option (ExprAST D) × State D}
    (ha : atomAST a ≠ none)
    (hs : ∀ x, a = Token.tok_identifier x → (s.headD Token.tok_eof).isChar '(' = false)
    (h : ParsePrimary n ⟨a :: s, m, err⟩ = some r) :
    ∃ xa, r = (some xa, ⟨s, m, err⟩) ∧ inorder xa = [a] ∧ rootPrecedence xa = none ∧
      respectsPrecedence xa = true := by
  cases a with
  | tok_number v =>
    cases n with
    | zero => simp [ParsePrimary] at h
    | succ n =>
      rw [ParsePrimary] at h
      simp only [CurTok_mk, List.headD_cons, ParseNumberExpr, getNextToken_mk, List.tail_cons,
        Option.some.injEq] at h
      exact ⟨_, h.symm, rfl, rfl, rfl⟩
  | tok_identifier x =>
    exact ⟨_, ParsePrimary_atom (a := Token.tok_identifier x) (x := ExprAST.VariableExprAST x)
      rfl (hs x rfl) h, rfl, rfl, rfl⟩
  | tok_eof => exact absurd rfl ha
  | tok_def => exact absurd rfl ha
  | tok_extern => exact absurd rfl ha
  | char c => exact absurd rfl ha

theorem respectsPrecedence_node (o : Char) (L R : ExprAST D)
    (hL : respectsPrecedence L = true) (hR : respectsPrecedence R = true)
    (hl : ∀ q, rootPrecedence L = some q → precedence (Token.char o : Token D) ≤ q)
    (hr : ∀ q, rootPrecedence R = some q → precedence (Token.char o : Token D) < q) :
    respectsPrecedence (ExprAST.BinaryExprAST o L R) = true := by
  rw [respectsPrecedence, hL, hR]
  cases h1 : rootPrecedence R with
  | none =>
    cases h2 : rootPrecedence L with
    | none => rfl
    | some q => simpa using hl q h2
  | some q' =>
    cases h2 : rootPrecedence L with
    | none => simpa using hr q' h1
    | some q => simpa using ⟨hr q' h1, hl q h2⟩

theorem ChainOK_head_nil {rest : List (Token D)} (h : ChainOK [] rest) :
    precedence (rest.headD Token.tok_eof) = -1 := h

theorem climb_rhs (rest : List (Token D)) (n : Nat) :
    ∀ (ps : List (Char × Token D)) (p : Int) (L : ExprAST D) (m : List (Char × Int))
      (err : List String) (res : Option (ExprAST D) × State D),
      ChainOK ps rest → DefaultTable m → 0 ≤ p → respectsPrecedence L = true →
      (∀ q, rootPrecedence L = some q →
        precedence ((binopTokens ps ++ rest).headD Token.tok_eof) ≤ q) →
      ParseBinOpRHS n p L ⟨binopTokens ps ++ rest, m, err⟩ = some res →
      ∃ e ps1 ps2 m', ps = ps1 ++ ps2 ∧ res = (some e, ⟨binopTokens ps2 ++ rest, m', err⟩) ∧
        DefaultTable m' ∧ inorder e = inorder L ++ binopTokens ps1 ∧
        respectsPrecedence e = true ∧ (ps1 = [] → e = L) ∧
        (ps1 ≠ [] → ∃ q, rootPrecedence e = some q ∧ p ≤ q) ∧
        precedence ((binopTokens ps2 ++ rest).headD Token.tok_eof) < p ∧ ChainOK ps2 rest := by
  induction n with
  | zero => intro ps p L m err res _ _ _ _ _ h; simp [ParseBinOpRHS] at h
  | succ n ih =>
    intro ps p L m err res hok hm hp hL hLq h
    rw [ParseBinOpRHS] at h
    obtain ⟨m1, hm1, hG⟩ := GetTokPrecedence_eq (binopTokens ps ++ rest) m err hm
    rw [hG] at h
    simp only at h
    by_cases hlt : precedence ((binopTokens ps ++ rest).headD Token.tok_eof) < p
    · simp only [hlt, if_true, Option.some.injEq] at h
      exact ⟨L, [], ps, m1, rfl, h.symm, hm1, by simp [binopTokens], hL, fun _ => rfl,
        fun h => absurd rfl h, hlt, hok⟩
    · simp only [hlt, if_false, getNextToken_mk] at h
      cases ps with
      | nil =>
        have := ChainOK_head_nil hok
        simp only [binopTokens, List.nil_append] at hlt
        omega
      | cons x ps' =>
        rcases x with ⟨o, a⟩
        obtain ⟨ho, ha, hfollow, hok'⟩ := hok
        simp only [binopTokens, List.cons_append, List.tail_cons, List.headD_cons] at h hlt hLq
        -- what remains to do once the right operand `R` of `o` is known
        have key : ∀ (R : ExprAST D) (psA psB : List (Char × Token D)) (m3 : List (Char × Int)),
            ps' = psA ++ psB → DefaultTable m3 → inorder R = a :: binopTokens psA →
            respectsPrecedence R = true →
            (∀ q, rootPrecedence R = some q → precedence (Token.char o : Token D) < q) →
            precedence ((binopTokens psB ++ rest).headD Token.tok_eof) ≤
              precedence (Token.char o : Token D) →
            ChainOK psB rest →
            ParseBinOpRHS n p (ExprAST.BinaryExprAST o L R)
              ⟨binopTokens psB ++ rest, m3, err⟩ = some res →
            ∃ e ps1 ps2 m', (o, a) :: ps' = ps1 ++ ps2 ∧
              res = (some e, ⟨binopTokens ps2 ++ rest, m', err⟩) ∧
              DefaultTable m' ∧ inorder e = inorder L ++ binopTokens ps1 ∧
              respectsPrecedence e = true ∧ (ps1 = [] → e = L) ∧
              (ps1 ≠ [] → ∃ q, rootPrecedence e = some q ∧ p ≤ q) ∧
              precedence ((binopTokens ps2 ++ rest).headD Token.tok_eof) < p ∧
              ChainOK ps2 rest := by
          intro R psA psB m3 hsplit hm3 hinR hR hRq hnext hokB hrun
          have hnode := respectsPrecedence_node o L R hL hR hLq hRq
          obtain ⟨e, ps1, ps2, m', hs2, hres, hm', hin, hresp, hnil, hcons, hlt2, hok2⟩ :=
            ih psB p (ExprAST.BinaryExprAST o L R) m3 err res hokB hm3 hp hnode
              (by intro q hq
                  simp only [rootPrecedence, Option.some.injEq] at hq
                  rw [← hq]; exact hnext) hrun
          refine ⟨e, (o, a) :: (psA ++ ps1), ps2, m', ?_, hres, hm', ?_, hresp,
            fun h => absurd h (List.cons_ne_nil _ _), fun _ => ?_, hlt2, hok2⟩
          · rw [hsplit, hs2]; simp
          · rw [hin, inorder, hinR]
            simp only [binopTokens, binopTokens_append, List.append_assoc, List.cons_append]
          · by_cases hps1 : ps1 = []
            · rw [hnil hps1]
              exact ⟨_, rfl, by omega⟩
            · exact hcons hps1
        cases hE : ParsePrimary n (⟨a :: (binopTokens ps' ++ rest), m1, err⟩ : State D) with
        | none => simp [hE] at h
        | some y =>
          obtain ⟨xa, hy, hinxa, hrootxa, hrespxa⟩ := ParsePrimary_operand ha hfollow hE
          subst hy
          rw [hE] at h
          simp only at h
          obtain ⟨m2, hm2, hG2⟩ := GetTokPrecedence_eq (binopTokens ps' ++ rest) m1 err hm1
          rw [hG2] at h
          simp only [CurTok_mk, List.headD_cons] at h
          by_cases hlt2 : precedence (Token.char o : Token D) <
              precedence ((binopTokens ps' ++ rest).headD Token.tok_eof)
          · simp only [hlt2, if_true] at h
            cases hR : ParseBinOpRHS n (precedence (Token.char o : Token D) + 1) xa
                (⟨binopTokens ps' ++ rest, m2, err⟩ : State D) with
            | none => simp [hR] at h
            | some z =>
              rw [hR] at h
              obtain ⟨e', psA, psB, m3, hsplit, hz, hm3, hin', hresp', hnil', hcons', hlt3,
                  hokB⟩ := ih ps' _ xa m2 err z hok' hm2 (by omega) hrespxa
                    (by intro q hq; rw [hrootxa] at hq; cases hq) hR
              subst hz
              simp only at h
              refine key e' psA psB m3 hsplit hm3 (by rw [hin', hinxa]; rfl) hresp' ?_
                (by omega) hokB h
              intro q hq
              by_cases hpsA : psA = []
              · rw [hnil' hpsA, hrootxa] at hq; cases hq
              · obtain ⟨q', hq', hle⟩ := hcons' hpsA
                rw [hq'] at hq
                cases hq
                omega
          · simp only [hlt2, if_false] at h
            exact key xa [] ps' m2 rfl hm2 (by rw [hinxa]; rfl) hrespxa
              (by intro q hq; rw [hrootxa] at hq; cases hq) (by omega) hok' h

theorem ChainOK_of (rest : List (Token D)) (hrest : precedence (rest.headD Token.tok_eof) = -1) :
    ∀ ps : List (Char × Token D), (∀ x ∈ ps, x.1 ∈ tableOperators ∧ atomAST x.2 ≠ none) →
      (∀ s, (ps.map Prod.snd).getLast? = some (Token.tok_identifier s) →
        (rest.headD Token.tok_eof).isChar '(' = false) → ChainOK ps rest := by
  intro ps
  induction ps with
  | nil => intro _ _; exact hrest
  | cons x ps ih =>
    intro hps hlast
    rcases x with ⟨o, a⟩
    have hx := hps _ (List.mem_cons_self _ _)
    have hps' : ∀ x ∈ ps, x.1 ∈ tableOperators ∧ atomAST x.2 ≠ none :=
      fun x hx => hps x (List.mem_cons_of_mem _ hx)
    cases ps with
    | nil =>
      exact ⟨hx.1, hx.2, fun s hs => hlast s (by rw [hs]; rfl), hrest⟩
    | cons y ps' =>
      rcases y with ⟨o2, a2⟩
      refine ⟨hx.1, hx.2, fun s _ => ?_, ih hps' (fun s hs => hlast s ?_)⟩
      · exact (precedence_tableOperator (hps' _ (List.mem_cons_self _ _)).1).2
      · simp only [List.map_cons, List.getLast?_cons_cons] at hs ⊢
        exact hs

theorem ChainOK_first {ps : List (Char × Token D)} {rest : List (Token D)}
    (h : ChainOK ps rest) :
    ps = [] ∨ 0 < precedence ((binopTokens ps ++ rest).headD Token.tok_eof) := by
  cases ps with
  | nil => exact Or.inl rfl
  | cons x ps =>
    rcases x with ⟨o, a⟩
    exact Or.inr (precedence_tableOperator h.1).1

theorem ChainOK_follow {ps : List (Char × Token D)} {rest : List (Token D)}
    (h : ChainOK ps rest) : ((binopTokens ps ++ rest).headD Token.tok_eof).isChar '(' = false ∨
      ps = [] := by
  cases ps with
  | nil => exact Or.inr rfl
  | cons x ps =>
    rcases x with ⟨o, a⟩
    exact Or.inl (precedence_tableOperator h.1).2

/-- Partial correctness of `ParseExpression` on `p0 op1 p1 ... opn pn`. -/
theorem climb_expr (p0 : Token D) (ps : List (Char × Token D)) (rest : List (Token D))
    (hp0 : atomAST p0 ≠ none) (hok : ChainOK ps rest)
    (hfollow : ∀ s, p0 = Token.tok_identifier s →
      ((binopTokens ps ++ rest).headD Token.tok_eof).isChar '(' = false)
    (m : List (Char × Int)) (err : List String) (hm : DefaultTable m) (n : Nat)
    (res : Option (ExprAST D) × State D)
    (h : ParseExpression n ⟨p0 :: (binopTokens ps ++ rest), m, err⟩ = some res) :
    ∃ e m', res = (some e, ⟨rest, m', err⟩) ∧ DefaultTable m' ∧
      inorder e = p0 :: binopTokens ps ∧ respectsPrecedence e = true := by
  cases n with
  | zero => simp [ParseExpression] at h
  | succ n =>
    rw [ParseExpression] at h
    cases hE : ParsePrimary n (⟨p0 :: (binopTokens ps ++ rest), m, err⟩ : State D) with
    | none => simp [hE] at h
    | some y =>
      obtain ⟨x0, hy, hin0, hroot0, hresp0⟩ := ParsePrimary_operand hp0 hfollow hE
      subst hy
      rw [hE] at h
      simp only at h
      obtain ⟨e, ps1, ps2, m', hsplit, hres, hm', hin, hresp, -, -, hlt, hok2⟩ :=
        climb_rhs rest n ps 0 x0 m err res hok hm (Int.le_refl 0) hresp0
          (by intro q hq; rw [hroot0] at hq; cases hq) h
      rcases ChainOK_first hok2 with hnil | hpos
      · subst hnil
        simp only [List.append_nil] at hsplit
        subst hsplit
        refine ⟨e, m', ?_, hm', ?_, hresp⟩
        · rw [hres]; rfl
        · rw [hin, hin0]; rfl
      · omega

theorem headD_take_one (rest : List (Token D)) (d : Token D) :
    (rest.take 1).headD d = rest.headD d := by
  cases rest <;> rfl

theorem take_one_length (rest : List (Token D)) : (rest.take 1).length ≤ 1 := by
  cases rest <;> simp

/-! ## The tree that respects the precedences is unique -/

theorem respectsPrecedence_inv {o : Char} {L R : ExprAST D}
    (h : respectsPrecedence (ExprAST.BinaryExprAST o L R) = true) :
    (∀ q, rootPrecedence R = some q → precedence (Token.char o : Token D) < q) ∧
    (∀ q, rootPrecedence L = some q → precedence (Token.char o : Token D) ≤ q) ∧
    respectsPrecedence L = true ∧ respectsPrecedence R = true := by
  rw [respectsPrecedence] at h
  simp only [Bool.and_eq_true] at h
  obtain ⟨⟨⟨h1, h2⟩, h3⟩, h4⟩ := h
  refine ⟨?_, ?_, h3, h4⟩
  · intro q hq
    rw [hq] at h1
    simpa using h1
  · intro q hq
    rw [hq] at h2
    simpa using h2

theorem inorder_ne_nil (t : ExprAST D) : inorder t ≠ [] := by
  cases t with
  | NumberExprAST v => simp [inorder]
  | VariableExprAST s => simp [inorder]
  | BinaryExprAST o l r => simp [inorder]
  | CallExprAST f args => simp [inorder]

theorem paren_mem_inorder_call (f : List Char) (args : List (ExprAST D)) :
    Token.char '(' ∈ inorder (ExprAST.CallExprAST f args) := by
  simp [inorder]

/-- In a tree without calls that respects the precedences, no operator is weaker than the
one at the root. -/
theorem operators_ge_root : ∀ t : ExprAST D, Token.char '(' ∉ inorder t →
    respectsPrecedence t = true → ∀ c, Token.char c ∈ inorder t →
    ∃ q, rootPrecedence t = some q ∧ q ≤ precedence (Token.char c : Token D)
  | ExprAST.NumberExprAST v, _, _, c, hc => by simp [inorder] at hc
  | ExprAST.VariableExprAST s, _, _, c, hc => by simp [inorder] at hc
  | ExprAST.CallExprAST f args, hp, _, _, _ => absurd (paren_mem_inorder_call f args) hp
  | ExprAST.BinaryExprAST o l r, hp, hr, c, hc => by
    obtain ⟨h1, h2, h3, h4⟩ := respectsPrecedence_inv hr
    simp only [inorder, List.mem_append, List.mem_cons, not_or] at hp hc
    refine ⟨_, rfl, ?_⟩
    rcases hc with hc | hc | hc
    · obtain ⟨q, hq, hle⟩ := operators_ge_root l hp.1 h3 c hc
      have := h2 q hq
      omega
    · cases hc
      exact Int.le_refl _
    · obtain ⟨q, hq, hle⟩ := operators_ge_root r hp.2.2 h4 c hc
      have := h1 q hq
      omega

theorem operators_right {o : Char} {l r : ExprAST D}
    (hp : Token.char '(' ∉ inorder (ExprAST.BinaryExprAST o l r))
    (hr : respectsPrecedence (ExprAST.BinaryExprAST o l r) = true) (c : Char)
    (hc : Token.char c ∈ inorder r) :
    precedence (Token.char o : Token D) < precedence (Token.char c : Token D) := by
  obtain ⟨h1, -, -, h4⟩ := respectsPrecedence_inv hr
  simp only [inorder, List.mem_append, List.mem_cons, not_or] at hp
  obtain ⟨q, hq, hle⟩ := operators_ge_root r hp.2.2 h4 c hc
  have := h1 q hq
  omega

theorem operators_left {o : Char} {l r : ExprAST D}
    (hp : Token.char '(' ∉ inorder (ExprAST.BinaryExprAST o l r))
    (hr : respectsPrecedence (ExprAST.BinaryExprAST o l r) = true) (c : Char)
    (hc : Token.char c ∈ inorder l) :
    precedence (Token.char o : Token D) ≤ precedence (Token.char c : Token D) := by
  obtain ⟨-, h2, h3, -⟩ := respectsPrecedence_inv hr
  simp only [inorder, List.mem_append, List.mem_cons, not_or] at hp
  obtain ⟨q, hq, hle⟩ := operators_ge_root l hp.1 h3 c hc
  have := h2 q hq
  omega

theorem singleton_ne_node {x : Token D} {o : Char} {l r : ExprAST D}
    (h : [x] = inorder (ExprAST.BinaryExprAST o l r)) : False := by
  have h1 : (inorder (ExprAST.BinaryExprAST o l r)).length = 1 := by rw [← h]; rfl
  have h2 : 0 < (inorder l).length := List.length_pos.mpr (inorder_ne_nil l)
  rw [inorder, List.length_append, List.length_cons] at h1
  omega

theorem inorder_unique : ∀ t t' : ExprAST D, Token.char '(' ∉ inorder t →
    respectsPrecedence t = true → respectsPrecedence t' = true → inorder t = inorder t' →
    t = t'
  | ExprAST.CallExprAST f args, _, hp, _, _, _ => absurd (paren_mem_inorder_call f args) hp
  | t, ExprAST.CallExprAST f args, hp, _, _, h =>
    absurd (h ▸ paren_mem_inorder_call f args) hp
  | ExprAST.NumberExprAST v, ExprAST.NumberExprAST v', _, _, _, h => by
    simp only [inorder, List.cons.injEq, Token.tok_number.injEq, and_true] at h
    rw [h]
  | ExprAST.NumberExprAST v, ExprAST.VariableExprAST s, _, _, _, h => by
    simp [inorder] at h
  | ExprAST.VariableExprAST s, ExprAST.NumberExprAST v, _, _, _, h => by
    simp [inorder] at h
  | ExprAST.VariableExprAST s, ExprAST.VariableExprAST s', _, _, _, h => by
    simp only [inorder, List.cons.injEq, Token.tok_identifier.injEq, and_true] at h
    rw [h]
  | ExprAST.NumberExprAST v, ExprAST.BinaryExprAST o l r, _, _, _, h =>
    (singleton_ne_node h).elim
  | ExprAST.VariableExprAST s, ExprAST.BinaryExprAST o l r, _, _, _, h =>
    (singleton_ne_node h).elim
  | ExprAST.BinaryExprAST o l r, ExprAST.NumberExprAST v, _, _, _, h =>
    (singleton_ne_node h.symm).elim
  | ExprAST.BinaryExprAST o l r, ExprAST.VariableExprAST s, _, _, _, h =>
    (singleton_ne_node h.symm).elim
  | ExprAST.BinaryExprAST o l r, ExprAST.BinaryExprAST o' l' r', hp, hr, hr', h => by
    have hp' : Token.char '(' ∉ inorder (ExprAST.BinaryExprAST o' l' r') := h ▸ hp
    obtain ⟨-, -, h3, h4⟩ := respectsPrecedence_inv hr
    obtain ⟨-, -, h3', h4'⟩ := respectsPrecedence_inv hr'
    have hpl : Token.char '(' ∉ inorder l := by
      intro hx; exact hp (by simp [inorder, hx])
    have hpr : Token.char '(' ∉ inorder r := by
      intro hx; exact hp (by simp [inorder, hx])
    have h0 := h
    simp only [inorder] at h0
    rcases List.append_eq_append_iff.mp h0 with ⟨a, ha1, ha2⟩ | ⟨a, ha1, ha2⟩
    · cases a with
      | nil =>
        simp only [List.append_nil, List.nil_append, List.cons.injEq, Token.char.injEq] at ha1 ha2
        obtain ⟨rfl, ha2⟩ := ha2
        rw [inorder_unique l l' hpl h3 h3' ha1.symm, inorder_unique r r' hpr h4 h4' ha2]
      | cons x a =>
        simp only [List.cons_append, List.cons.injEq] at ha2
        obtain ⟨rfl, ha2⟩ := ha2
        have e1 := operators_left hp' hr' o (by rw [ha1]; simp)
        have e2 := operators_right hp hr o' (by rw [ha2]; simp)
        omega
    · cases a with
      | nil =>
        simp only [List.append_nil, List.nil_append, List.cons.injEq, Token.char.injEq] at ha1 ha2
        obtain ⟨rfl, ha2⟩ := ha2
        rw [inorder_unique l l' hpl h3 h3' ha1, inorder_unique r r' hpr h4 h4' ha2.symm]
      | cons x a =>
        simp only [List.cons_append, List.cons.injEq] at ha2
        obtain ⟨rfl, ha2⟩ := ha2
        have e1 := operators_left hp hr o' (by rw [ha1]; simp)
        have e2 := operators_right hp' hr' o (by rw [ha2]; simp)
        omega

theorem paren_not_mem_binopTokens (ps : List (Char × Token D))
    (hps : ∀ x ∈ ps, x.1 ∈ tableOperators ∧ atomAST x.2 ≠ none) :
    Token.char '(' ∉ binopTokens ps := by
  induction ps with
  | nil => simp [binopTokens]
  | cons x ps ih =>
    rcases x with ⟨o, a⟩
    have hx := hps _ (List.mem_cons_self _ _)
    simp only [binopTokens, List.mem_cons, not_or]
    refine ⟨?_, ?_, ih (fun x hx => hps x (List.mem_cons_of_mem _ hx))⟩
    · intro h
      cases h
      have := hx.1
      simp [tableOperators, mainBinopPrecedence_eq] at this
    · intro h
      rw [← h] at hx
      exact hx.2 rfl

/-- C18, as stated, fails: `(` is not an operator, yet on the operand `x` followed by `( )`
the function `ParseExpression` does not stop after the one token `x` with the tree of the
variable: it consumes all three tokens and returns the call `x()`. -/
theorem C18_counterexample :
    precedence (Token.char '(' : Token ℚ) = -1 ∧
    ParseExpression 3 ⟨[(Token.tok_identifier ['x'] : Token ℚ), Token.char '(', Token.char ')'],
        mainBinopPrecedence, []⟩ =
      some (some (ExprAST.CallExprAST ['x'] []), ⟨[], mainBinopPrecedence, []⟩) ∧
    inorder (ExprAST.CallExprAST ['x'] [] : ExprAST ℚ) =
      [Token.tok_identifier ['x'], Token.char '(', Token.char ')'] :=
  ⟨rfl, rfl, rfl⟩

/-- C18, amended: for atomic primaries `p0 ... pn` and operators `op1 ... opn` of the table
(`n ≥ 0`), when the token after `pn` is not an operator of the table and, if `pn` is an
identifier, is not `(`, then from any default table `ParseExpression` on
`p0 op1 p1 ... opn pn` followed by the rest of the stream returns a tree `e` and leaves that
rest, so it has consumed exactly those `2n+1` tokens, for every amount of fuel from
`8n+13` on; the in-order traversal of `e` is exactly that sequence; `e` respects the
precedences; and `e` is the only tree with that traversal that respects them. -/
theorem C18_precedence_climbing (p0 : Token D) (ps : List (Char × Token D))
    (rest : List (Token D)) (m : List (Char × Int)) (err : List String)
    (hp0 : atomAST p0 ≠ none)
    (hps : ∀ x ∈ ps, x.1 ∈ tableOperators ∧ atomAST x.2 ≠ none)
    (hrest : precedence (rest.headD Token.tok_eof) = -1)
    (hlast : ∀ s, (p0 :: ps.map Prod.snd).getLast? = some (Token.tok_identifier s) →
      (rest.headD Token.tok_eof).isChar '(' = false)
    (hm : DefaultTable m) :
    ∃ e m', DefaultTable m' ∧
      (∀ fuel, 8 * ps.length + 13 ≤ fuel →
        ParseExpression fuel ⟨p0 :: (binopTokens ps ++ rest), m, err⟩ =
          some (some e, ⟨rest, m', err⟩)) ∧
      (p0 :: binopTokens ps).length = 2 * ps.length + 1 ∧
      inorder e = p0 :: binopTokens ps ∧
      respectsPrecedence e = true ∧
      ∀ t, inorder t = p0 :: binopTokens ps → respectsPrecedence t = true → t = e := by
  have hhead := headD_take_one rest Token.tok_eof
  have hok : ChainOK ps (rest.take 1) := by
    refine ChainOK_of _ (by rw [hhead]; exact hrest) ps hps (fun s hs => ?_)
    rw [hhead]
    refine hlast s ?_
    cases ps with
    | nil => simp at hs
    | cons x ps' =>
      simp only [List.map_cons, List.getLast?_cons_cons] at hs ⊢
      exact hs
  have hfollow : ∀ s, p0 = Token.tok_identifier s →
      ((binopTokens ps ++ rest.take 1).headD Token.tok_eof).isChar '(' = false := by
    intro s hs
    rcases ChainOK_follow hok with h | h
    · exact h
    · subst h
      simp only [binopTokens, List.nil_append]
      rw [hhead]
      exact hlast s (by rw [hs]; rfl)
  have hlen : (p0 :: (binopTokens ps ++ rest.take 1)).length ≤ 2 * ps.length + 2 := by
    have := take_one_length rest
    simp only [List.length_cons, List.length_append, binopTokens_length]
    omega
  obtain ⟨res, hres⟩ := (total_all (8 * ps.length + 13)).2.2.2.2.1
    (⟨p0 :: (binopTokens ps ++ rest.take 1), m, err⟩ : State D) (by simp only; omega)
  obtain ⟨e, m1, hr, hm1, hin, hresp⟩ := climb_expr p0 ps (rest.take 1) hp0 hok hfollow m err hm
    _ res hres
  subst hr
  have hres' : ParseExpression (8 * ps.length + 13)
      ⟨(p0 :: binopTokens ps) ++ rest.take 1, m, err⟩ =
      some (some e, ⟨rest.take 1, m1, err⟩) := hres
  obtain ⟨-, -, htr⟩ := ParseExpression_transfer hm hres'
  obtain ⟨m', hm', hrun⟩ := htr rest m err (Or.inl hhead.symm) hm
  refine ⟨e, m', hm', fun fuel hf => ParseExpression_mono hrun hf, ?_, hin, hresp, ?_⟩
  · simp only [List.length_cons, binopTokens_length]
  · intro t ht hrt
    have hp : Token.char '(' ∉ inorder t := by
      rw [ht]
      simp only [List.mem_cons, not_or]
      refine ⟨?_, paren_not_mem_binopTokens ps hps⟩
      intro h
      rw [← h] at hp0
      exact hp0 rfl
    exact inorder_unique t e hp hrt hresp (ht.trans hin.symm)

/-- Witness of C18 on `1 - x * 2 + 3` followed by `)`: the tree is `(1 - (x * 2)) + 3`. -/
theorem C18_witness :
    ∃ e m', DefaultTable m' ∧
      (∀ fuel, 8 * 3 + 13 ≤ fuel →
        ParseExpression fuel ⟨[(Token.tok_number 1 : Token ℚ), Token.char '-',
            Token.tok_identifier ['x'], Token.char '*', Token.tok_number 2, Token.char '+',
            Token.tok_number 3, Token.char ')'], mainBinopPrecedence, []⟩ =
          some (some e, ⟨[Token.char ')'], m', []⟩)) ∧
      e = ExprAST.BinaryExprAST '+'
          (ExprAST.BinaryExprAST '-' (ExprAST.NumberExprAST 1)
            (ExprAST.BinaryExprAST '*' (ExprAST.VariableExprAST ['x']) (ExprAST.NumberExprAST 2)))
          (ExprAST.NumberExprAST 3) := by
  obtain ⟨e, m', hm', hrun, -, -, -, huniq⟩ := C18_precedence_climbing
    (Token.tok_number 1 : Token ℚ)
    [('-', Token.tok_identifier ['x']), ('*', Token.tok_number 2), ('+', Token.tok_number 3)]
    [Token.char ')'] mainBinopPrecedence [] (fun h => Option.noConfusion h)
    (by
      intro x hx
      simp only [List.mem_cons, List.mem_singleton, List.not_mem_nil, or_false] at hx
      rcases hx with rfl | rfl | rfl
      · exact ⟨by decide, fun h => Option.noConfusion h⟩
      · exact ⟨by decide, fun h => Option.noConfusion h⟩
      · exact ⟨by decide, fun h => Option.noConfusion h⟩)
    rfl (fun _ _ => rfl) DefaultTable_main
  exact ⟨e, m', hm', hrun, (huniq (ExprAST.BinaryExprAST '+'
    (ExprAST.BinaryExprAST '-' (ExprAST.NumberExprAST 1)
      (ExprAST.BinaryExprAST '*' (ExprAST.VariableExprAST ['x']) (ExprAST.NumberExprAST 2)))
    (ExprAST.NumberExprAST 3)) rfl rfl).symm⟩

/-! ## Parsing a fully parenthesised printing (C19) -/

theorem render_head (e : ExprAST D) :
    ∃ t ts, render e = t :: ts ∧ t.isChar ')' = false := by
  cases e with
  | NumberExprAST v => exact ⟨_, _, rfl, rfl⟩
  | VariableExprAST s => exact ⟨_, _, rfl, rfl⟩
  | BinaryExprAST o l r => exact ⟨Token.char '(', _, by rw [render], rfl⟩
  | CallExprAST f args => exact ⟨Token.tok_identifier f, _, by rw [render], rfl⟩

theorem renderArgs_head (a : ExprAST D) (as : List (ExprAST D)) (rest : List (Token D)) :
    ((renderArgs (a :: as) ++ rest).headD Token.tok_eof).isChar ')' = false := by
  obtain ⟨t, ts, h, ht⟩ := render_head a
  cases as with
  | nil => rw [renderArgs, h]; exact ht
  | cons b bs => rw [renderArgs, h]; exact ht

/-- After a primary expression, a token that is neither an operator nor `(` ends the
expression. -/
theorem ParseExpression_of_primary {e : ExprAST D} {rest : List (Token D)}
    (hrest : precedence (rest.headD Token.tok_eof) = -1)
    (hP : ∀ (n : Nat) (m : List (Char × Int)) (err : List String)
      (res : Option (ExprAST D) × State D), DefaultTable m →
      ParsePrimary n ⟨render e ++ rest, m, err⟩ = some res →
      ∃ m', DefaultTable m' ∧ res = (some e, ⟨rest, m', err⟩))
    (n : Nat) (m : List (Char × Int)) (err : List String)
    (res : Option (ExprAST D) × State D) (hm : DefaultTable m)
    (h : ParseExpression n ⟨render e ++ rest, m, err⟩ = some res) :
    ∃ m', DefaultTable m' ∧ res = (some e, ⟨rest, m', err⟩) := by
  cases n with
  | zero => simp [ParseExpression] at h
  | succ n =>
    rw [ParseExpression] at h
    cases hE : ParsePrimary n (⟨render e ++ rest, m, err⟩ : State D) with
    | none => simp [hE] at h
    | some y =>
      obtain ⟨m1, hm1, hy⟩ := hP n m err y hm hE
      subst hy
      rw [hE] at h
      simp only at h
      cases n with
      | zero => simp [ParseBinOpRHS] at h
      | succ n =>
        rw [ParseBinOpRHS] at h
        obtain ⟨m2, hm2, hG⟩ := GetTokPrecedence_eq rest m1 err hm1
        rw [hG, hrest] at h
        simp only [show ((-1 : Int) < 0) from by decide, if_true, Option.some.injEq] at h
        exact ⟨m2, hm2, h.symm⟩

theorem render_binary_append (o : Char) (l r : ExprAST D) (rest : List (Token D)) :
    render (ExprAST.BinaryExprAST o l r) ++ rest =
      Token.char '(' :: (render l ++ Token.char o :: (render r ++ Token.char ')' :: rest)) := by
  rw [render]
  simp

theorem render_call_append (f : List Char) (args : List (ExprAST D)) (rest : List (Token D)) :
    render (ExprAST.CallExprAST f args) ++ rest =
      Token.tok_identifier f :: Token.char '(' :: (renderArgs args ++ Token.char ')' :: rest) := by
  rw [render]
  simp

theorem precedence_close : precedence (Token.char ')' : Token D) = -1 := rfl

theorem precedence_comma : precedence (Token.char ',' : Token D) = -1 := rfl

/-- The body `LHS Op RHS` of a parenthesised binary operation, in front of its `)`. -/
theorem ParseExpression_binary {o : Char} {l r : ExprAST D} {rest : List (Token D)}
    (ho : o ∈ tableOperators)
    (hPl : ∀ (n : Nat) (rest : List (Token D)) (m : List (Char × Int)) (err : List String)
      (res : Option (ExprAST D) × State D), DefaultTable m →
      (rest.headD Token.tok_eof).isChar '(' = false →
      ParsePrimary n ⟨render l ++ rest, m, err⟩ = some res →
      ∃ m', DefaultTable m' ∧ res = (some l, ⟨rest, m', err⟩))
    (hPr : ∀ (n : Nat) (rest : List (Token D)) (m : List (Char × Int)) (err : List String)
      (res : Option (ExprAST D) × State D), DefaultTable m →
      (rest.headD Token.tok_eof).isChar '(' = false →
      ParsePrimary n ⟨render r ++ rest, m, err⟩ = some res →
      ∃ m', DefaultTable m' ∧ res = (some r, ⟨rest, m', err⟩))
    (n : Nat) (m : List (Char × Int)) (err : List String)
    (y : Option (ExprAST D) × State D) (hm : DefaultTable m)
    (h : ParseExpression n
      ⟨render l ++ Token.char o :: (render r ++ Token.char ')' :: rest), m, err⟩ = some y) :
    ∃ m', DefaultTable m' ∧
      y = (some (ExprAST.BinaryExprAST o l r), ⟨Token.char ')' :: rest, m', err⟩) := by
  have hpo := precedence_tableOperator (D := D) ho
  cases n with
  | zero => simp [ParseExpression] at h
  | succ n =>
    rw [ParseExpression] at h
    cases hE : ParsePrimary n
        (⟨render l ++ Token.char o :: (render r ++ Token.char ')' :: rest), m, err⟩ : State D) with
    | none => simp [hE] at h
    | some y1 =>
      obtain ⟨m1, hm1, hy1⟩ := hPl n (Token.char o :: (render r ++ Token.char ')' :: rest))
        m err y1 hm hpo.2 hE
      subst hy1
      rw [hE] at h
      simp only at h
      cases n with
      | zero => simp [ParseBinOpRHS] at h
      | succ n =>
        rw [ParseBinOpRHS] at h
        obtain ⟨m2, hm2, hG⟩ := GetTokPrecedence_eq
          (Token.char o :: (render r ++ Token.char ')' :: rest)) m1 err hm1
        rw [hG] at h
        simp only [List.headD_cons, show ¬ (precedence (Token.char o : Token D) < 0) from by omega,
          if_false, getNextToken_mk, List.tail_cons, CurTok_mk, Token.toChar] at h
        cases hE2 : ParsePrimary n
            (⟨render r ++ Token.char ')' :: rest, m2, err⟩ : State D) with
        | none => simp [hE2] at h
        | some y2 =>
          obtain ⟨m3, hm3, hy2⟩ := hPr n (Token.char ')' :: rest) m2 err y2 hm2 rfl hE2
          subst hy2
          rw [hE2] at h
          simp only at h
          obtain ⟨m4, hm4, hG2⟩ := GetTokPrecedence_eq (Token.char ')' :: rest) m3 err hm3
          rw [hG2] at h
          simp only [List.headD_cons, precedence_close,
            show ¬ (precedence (Token.char o : Token D) < -1) from by omega, if_false] at h
          cases n with
          | zero => simp [ParseBinOpRHS] at h
          | succ n =>
            rw [ParseBinOpRHS] at h
            obtain ⟨m5, hm5, hG3⟩ := GetTokPrecedence_eq (Token.char ')' :: rest) m4 err hm4
            rw [hG3] at h
            simp only [List.headD_cons, precedence_close, show ((-1 : Int) < 0) from by decide,
              if_true, Option.some.injEq] at h
            exact ⟨m5, hm5, h.symm⟩

mutual

/-- Partial correctness of `ParsePrimary` on the printing of a tree. -/
theorem render_primary : ∀ (e : ExprAST D), operatorsInTable e = true →
    ∀ (n : Nat) (rest : List (Token D)) (m : List (Char × Int)) (err : List String)
      (res : Option (ExprAST D) × State D), DefaultTable m →
      (rest.headD Token.tok_eof).isChar '(' = false →
      ParsePrimary n ⟨render e ++ rest, m, err⟩ = some res →
      ∃ m', DefaultTable m' ∧ res = (some e, ⟨rest, m', err⟩)
  | ExprAST.NumberExprAST v, _, n, rest, m, err, res, hm, hrest, h => by
    exact ⟨m, hm, ParsePrimary_atom (a := Token.tok_number v) (x := ExprAST.NumberExprAST v)
      rfl hrest h⟩
  | ExprAST.VariableExprAST s, _, n, rest, m, err, res, hm, hrest, h => by
    exact ⟨m, hm, ParsePrimary_atom (a := Token.tok_identifier s)
      (x := ExprAST.VariableExprAST s) rfl hrest h⟩
  | ExprAST.BinaryExprAST o l r, he, n, rest, m, err, res, hm, hrest, h => by
    rw [operatorsInTable] at he
    simp only [Bool.and_eq_true, decide_eq_true_eq] at he
    obtain ⟨⟨ho, hl⟩, hr⟩ := he
    rw [render_binary_append] at h
    cases n with
    | zero => simp [ParsePrimary] at h
    | succ n =>
      rw [ParsePrimary] at h
      simp only [CurTok_mk, List.headD_cons, beq_self_eq_true, if_true] at h
      cases n with
      | zero => simp [ParseParenExpr] at h
      | succ n =>
        rw [ParseParenExpr] at h
        simp only [getNextToken_mk, List.tail_cons] at h
        cases hE : ParseExpression n
            (⟨render l ++ Token.char o :: (render r ++ Token.char ')' :: rest), m, err⟩ :
              State D) with
        | none => simp [hE] at h
        | some y =>
          obtain ⟨m1, hm1, hy⟩ := ParseExpression_binary ho (render_primary l hl)
            (render_primary r hr) n m err y hm hE
          subst hy
          rw [hE] at h
          simp only [CurTok_mk, List.headD_cons, isChar_char, beq_self_eq_true, Bool.not_true,
            Bool.false_eq_true, if_false, getNextToken_mk, List.tail_cons,
            Option.some.injEq] at h
          exact ⟨m1, hm1, h.symm⟩
  | ExprAST.CallExprAST f args, he, n, rest, m, err, res, hm, hrest, h => by
    rw [operatorsInTable] at he
    rw [render_call_append] at h
    cases n with
    | zero => simp [ParsePrimary] at h
    | succ n =>
      rw [ParsePrimary] at h
      simp only [CurTok_mk, List.headD_cons] at h
      cases n with
      | zero => simp [ParseIdentifierExpr] at h
      | succ n =>
        rw [ParseIdentifierExpr] at h
        simp only [getNextToken_mk, List.tail_cons, CurTok_mk, List.headD_cons, isChar_char,
          beq_self_eq_true, Bool.not_true, Bool.false_eq_true, if_false] at h
        cases args with
        | nil =>
          simp only [renderArgs, List.nil_append, List.headD_cons, isChar_char,
            beq_self_eq_true, Bool.not_true, Bool.false_eq_true, if_false, List.tail_cons,
            Option.some.injEq] at h
          exact ⟨m, hm, h.symm⟩
        | cons a as =>
          simp only [renderArgs_head, Bool.not_false, if_true] at h
          cases hE : ParseIdentifierExpr_loop n []
              (⟨renderArgs (a :: as) ++ Token.char ')' :: rest, m, err⟩ : State D) with
          | none => simp [hE] at h
          | some y =>
            obtain ⟨m1, hm1, hy⟩ := render_args (a :: as) he (List.cons_ne_nil _ _) n [] rest
              m err y hm hE
            subst hy
            rw [hE] at h
            simp only [getNextToken_mk, List.tail_cons, List.nil_append,
              Option.some.injEq] at h
            exact ⟨m1, hm1, h.symm⟩

/-- Partial correctness of the argument loop on the printing of the arguments. -/
theorem render_args : ∀ (args : List (ExprAST D)), operatorsInTableArgs args = true →
    args ≠ [] →
    ∀ (n : Nat) (A : List (ExprAST D)) (rest : List (Token D)) (m : List (Char × Int))
      (err : List String) (res : Option (List (ExprAST D)) × State D), DefaultTable m →
      ParseIdentifierExpr_loop n A ⟨renderArgs args ++ Token.char ')' :: rest, m, err⟩ =
        some res →
      ∃ m', DefaultTable m' ∧ res = (some (A ++ args), ⟨Token.char ')' :: rest, m', err⟩)
  | [], _, hne, _, _, _, _, _, _, _, _ => absurd rfl hne
  | [a], he, _, n, A, rest, m, err, res, hm, h => by
    rw [operatorsInTableArgs] at he
    simp only [Bool.and_eq_true] at he
    rw [renderArgs] at h
    cases n with
    | zero => simp [ParseIdentifierExpr_loop] at h
    | succ n =>
      rw [ParseIdentifierExpr_loop] at h
      cases hE : ParseExpression n
          (⟨render a ++ Token.char ')' :: rest, m, err⟩ : State D) with
      | none => simp [hE] at h
      | some y =>
        obtain ⟨m1, hm1, hy⟩ := @ParseExpression_of_primary _ a
          (Token.char ')' :: rest) precedence_close
          (fun n m err res hm h => render_primary a he.1 n _ m err res hm rfl h) n m err y hm hE
        subst hy
        rw [hE] at h
        simp only [CurTok_mk, List.headD_cons, isChar_char, beq_self_eq_true, if_true,
          Option.some.injEq] at h
        exact ⟨m1, hm1, h.symm⟩
  | a :: b :: bs, he, _, n, A, rest, m, err, res, hm, h => by
    rw [operatorsInTableArgs] at he
    simp only [Bool.and_eq_true] at he
    rw [renderArgs] at h
    simp only [List.append_assoc, List.cons_append] at h
    cases n with
    | zero => simp [ParseIdentifierExpr_loop] at h
    | succ n =>
      rw [ParseIdentifierExpr_loop] at h
      cases hE : ParseExpression n
          (⟨render a ++ Token.char ',' :: (renderArgs (b :: bs) ++ Token.char ')' :: rest), m,
            err⟩ : State D) with
      | none => simp [hE] at h
      | some y =>
        obtain ⟨m1, hm1, hy⟩ := @ParseExpression_of_primary _ a
          (Token.char ',' :: (renderArgs (b :: bs) ++ Token.char ')' :: rest))
          precedence_comma
          (fun n m err res hm h => render_primary a he.1 n _ m err res hm rfl h) n m err y hm hE
        subst hy
        rw [hE] at h
        simp only [CurTok_mk, List.headD_cons, isChar_char,
          show ((',' : Char) == ')') = false from by decide, Bool.false_eq_true, if_false,
          beq_self_eq_true, Bool.not_true, getNextToken_mk, List.tail_cons] at h
        obtain ⟨m2, hm2, hres⟩ := render_args (b :: bs) he.2 (List.cons_ne_nil _ _) n
          (A ++ [a]) rest m1 err res hm1 h
        refine ⟨m2, hm2, ?_⟩
        rw [hres]
        simp

end

/-- C19: parsing undoes the fully parenthesised printing.  For every tree `e` whose
operators are all in the table of `main`, from any default table, `ParseExpression` on the
tokens `render e` followed by the end of the input returns exactly `e` and leaves the end of
the input as the current token, for every amount of fuel from `4 * length + 5` on; and in
front of any further tokens that start with neither an operator of the table nor `(`, it
returns `e` and stops there. -/
theorem C19_parse_render (e : ExprAST D) (he : operatorsInTable e = true)
    (m : List (Char × Int)) (err : List String) (hm : DefaultTable m) :
    (∃ m', DefaultTable m' ∧
      (∀ fuel, 4 * (render e).length + 5 ≤ fuel →
        ParseExpression fuel ⟨render e, m, err⟩ = some (some e, ⟨[], m', err⟩)) ∧
      CurTok (⟨[], m', err⟩ : State D) = Token.tok_eof) ∧
    (∀ rest : List (Token D), precedence (rest.headD Token.tok_eof) = -1 →
      (rest.headD Token.tok_eof).isChar '(' = false →
      ∃ m', DefaultTable m' ∧
        ∀ fuel, 4 * (render e ++ rest).length + 5 ≤ fuel →
          ParseExpression fuel ⟨render e ++ rest, m, err⟩ = some (some e, ⟨rest, m', err⟩)) := by
  have general : ∀ rest : List (Token D), precedence (rest.headD Token.tok_eof) = -1 →
      (rest.headD Token.tok_eof).isChar '(' = false →
      ∃ m', DefaultTable m' ∧
        ∀ fuel, 4 * (render e ++ rest).length + 5 ≤ fuel →
          ParseExpression fuel ⟨render e ++ rest, m, err⟩ =
            some (some e, ⟨rest, m', err⟩) := by
    intro rest hprec hopen
    obtain ⟨res, hres⟩ := (total_all (4 * (render e ++ rest).length + 5)).2.2.2.2.1
      (⟨render e ++ rest, m, err⟩ : State D) (Nat.le_refl _)
    obtain ⟨m', hm', hr⟩ := @ParseExpression_of_primary _ e rest hprec
      (fun n m err res hm h => render_primary e he n rest m err res hm hopen h) _ m err res hm
      hres
    subst hr
    exact ⟨m', hm', fun fuel hf => ParseExpression_mono hres hf⟩
  refine ⟨?_, general⟩
  obtain ⟨m', hm', h⟩ := general [] rfl rfl
  simp only [List.append_nil] at h
  exact ⟨m', hm', h, rfl⟩

/-- Witness of C19 on the tree of `f((1+x), 2)`: its printing, and the parse of it. -/
theorem C19_witness :
    render (ExprAST.CallExprAST ['f']
        [ExprAST.BinaryExprAST '+' (ExprAST.NumberExprAST (1 : ℚ)) (ExprAST.VariableExprAST ['x']),
          ExprAST.NumberExprAST 2]) =
      [Token.tok_identifier ['f'], Token.char '(', Token.char '(', Token.tok_number 1,
        Token.char '+', Token.tok_identifier ['x'], Token.char ')', Token.char ',',
        Token.tok_number 2, Token.char ')'] ∧
    ∃ m', DefaultTable m' ∧
      ParseExpression 45 ⟨[Token.tok_identifier ['f'], Token.char '(', Token.char '(',
          Token.tok_number (1 : ℚ), Token.char '+', Token.tok_identifier ['x'], Token.char ')',
          Token.char ',', Token.tok_number 2, Token.char ')'], mainBinopPrecedence, []⟩ =
        some (some (ExprAST.CallExprAST ['f']
          [ExprAST.BinaryExprAST '+' (ExprAST.NumberExprAST 1) (ExprAST.VariableExprAST ['x']),
            ExprAST.NumberExprAST 2]), ⟨[], m', []⟩) :=
  ⟨rfl,
    (C19_parse_render (ExprAST.CallExprAST ['f']
        [ExprAST.BinaryExprAST '+' (ExprAST.NumberExprAST (1 : ℚ)) (ExprAST.VariableExprAST ['x']),
          ExprAST.NumberExprAST 2]) rfl mainBinopPrecedence [] DefaultTable_main).1.elim
      (fun m' h => ⟨m', h.1, h.2.1 45 (by decide)⟩)⟩

end Kaleidoscope
